import Mathlib

/-!
# sftpclient.c: operation layer, version negotiation and text translation

A shallow embedding of the parts of `src/sftpclient.c` that build requests
(`sftp_open`, `sftp_rename`, `sftp_link`, `cmd_mv`), negotiate the protocol
version (`main`) and translate line endings (`write_translated`,
`write_translated_done`, the text-mode loop of `cmd_put`), of the reply
handling (`getresponse`, `status`), of `newid`, `split` and the extension
loop of `main`, of the transfer engines of `cmd_get` and `cmd_put`, and of
the commands `cd`, `chmod` and `ls` (`reverse`, the `qsort` comparators, the
multi-column listing) with the options of `main` behind them.

Conventions.
* `uint32_t` / `unsigned` values are natural numbers; where the C code
  complements a mask the 32-bit complement is written out (`not32`).
* A request is the list of fields appended between `send_begin` and
  `send_end`.  A function that returns `error(...)` before `send_begin`
  has sent nothing and is modelled by `none`.
* The request id returned by `newid()` is passed in to the request builders
  as `id`; the transfer engines carry the counter `latestid` in their state.
* The reply handling after `send_end` (`getresponse`, `status`) depends on
  the server and is not part of the request builders below.
* File data are lists of bytes.  Local stream operations (`putc`, `fwrite`,
  `getc`, `ungetc`) are taken to succeed; the server newline sequence is a C
  string, so the lists standing for it are meant without NUL bytes.
* A loop that need not terminate carries a bound on the number of passes and
  yields `none` when the bound is used up.
* A transfer is a sequence of events on the shared state of its two threads.
  In `get_step` an event is a whole pass of the sending loop (a request sent
  and recorded) or a reply read and processed.  In `get_thread_step` and
  `put_thread_step` the threads are followed from one point at which the
  mutex changes hands to the next: a request is sent with the mutex released
  and recorded in a later step, and a reply can be processed in between.
  `get_thread_run_passes` relates the two for `cmd_get`.  `fatal` and a
  failing `assert` are `none`.
* Functions of the C library (`strtol`, `strcmp`, `memcpy`, `wcswidth`) are
  given by what the C standard says of them; `size_t` and `long` have 64
  bits, `int` has 32, and an access outside the block a pointer was made for
  is `none`.
-/

namespace Sftp

/-! ## Wire constants -/

/-- Modelled from the spec: `sftp.h` is not in src; section 6 of the spec fixes
the kind constants and flag bits to those of the SFTP drafts.  `SSH_FXP_OPEN`. -/
def SSH_FXP_OPEN : Nat := 3
/-- Modelled from the spec: `sftp.h` is not in src.  `SSH_FXP_RENAME`. -/
def SSH_FXP_RENAME : Nat := 18
/-- Modelled from the spec: `sftp.h` is not in src.  `SSH_FXP_SYMLINK`. -/
def SSH_FXP_SYMLINK : Nat := 20
/-- Modelled from the spec: `sftp.h` is not in src.  `SSH_FXP_LINK`. -/
def SSH_FXP_LINK : Nat := 21

/-- Modelled from the spec: `sftp.h` is not in src.  v5/v6 access bit `ACE4_READ_DATA`. -/
def ACE4_READ_DATA : Nat := 0x00000001
/-- Modelled from the spec: `sftp.h` is not in src.  v5/v6 access bit `ACE4_WRITE_DATA`. -/
def ACE4_WRITE_DATA : Nat := 0x00000002
/-- Modelled from the spec: `sftp.h` is not in src.  v5/v6 access bit `ACE4_READ_ATTRIBUTES`. -/
def ACE4_READ_ATTRIBUTES : Nat := 0x00000080

/-- Modelled from the spec: `sftp.h` is not in src.  v3/v4 `pflags` bit `SSH_FXF_READ`. -/
def SSH_FXF_READ : Nat := 0x00000001
/-- Modelled from the spec: `sftp.h` is not in src.  v3/v4 `pflags` bit `SSH_FXF_WRITE`. -/
def SSH_FXF_WRITE : Nat := 0x00000002
/-- Modelled from the spec: `sftp.h` is not in src.  v3/v4 `pflags` bit `SSH_FXF_APPEND`. -/
def SSH_FXF_APPEND : Nat := 0x00000004
/-- Modelled from the spec: `sftp.h` is not in src.  v3/v4 `pflags` bit `SSH_FXF_CREAT`. -/
def SSH_FXF_CREAT : Nat := 0x00000008
/-- Modelled from the spec: `sftp.h` is not in src.  v3/v4 `pflags` bit `SSH_FXF_TRUNC`. -/
def SSH_FXF_TRUNC : Nat := 0x00000010
/-- Modelled from the spec: `sftp.h` is not in src.  v3/v4 `pflags` bit `SSH_FXF_EXCL`. -/
def SSH_FXF_EXCL : Nat := 0x00000020
/-- Modelled from the spec: `sftp.h` is not in src.  v4 `pflags` bit `SSH_FXF_TEXT`. -/
def SSH_FXF_TEXT : Nat := 0x00000040

/-- Modelled from the spec: `sftp.h` is not in src.  v5/v6 mask of the disposition field. -/
def SSH_FXF_ACCESS_DISPOSITION : Nat := 0x00000007
/-- Modelled from the spec: `sftp.h` is not in src.  Disposition `SSH_FXF_CREATE_NEW`. -/
def SSH_FXF_CREATE_NEW : Nat := 0x00000000
/-- Modelled from the spec: `sftp.h` is not in src.  Disposition `SSH_FXF_CREATE_TRUNCATE`. -/
def SSH_FXF_CREATE_TRUNCATE : Nat := 0x00000001
/-- Modelled from the spec: `sftp.h` is not in src.  Disposition `SSH_FXF_OPEN_EXISTING`. -/
def SSH_FXF_OPEN_EXISTING : Nat := 0x00000002
/-- Modelled from the spec: `sftp.h` is not in src.  Disposition `SSH_FXF_OPEN_OR_CREATE`. -/
def SSH_FXF_OPEN_OR_CREATE : Nat := 0x00000003
/-- Modelled from the spec: `sftp.h` is not in src.  Disposition `SSH_FXF_TRUNCATE_EXISTING`. -/
def SSH_FXF_TRUNCATE_EXISTING : Nat := 0x00000004
/-- Modelled from the spec: `sftp.h` is not in src.  v5/v6 flag `SSH_FXF_APPEND_DATA`. -/
def SSH_FXF_APPEND_DATA : Nat := 0x00000008
/-- Modelled from the spec: `sftp.h` is not in src.  v5/v6 flag `SSH_FXF_APPEND_DATA_ATOMIC`. -/
def SSH_FXF_APPEND_DATA_ATOMIC : Nat := 0x00000010
/-- Modelled from the spec: `sftp.h` is not in src.  v5/v6 flag `SSH_FXF_TEXT_MODE`. -/
def SSH_FXF_TEXT_MODE : Nat := 0x00000020

/-- Modelled from the spec: `sftp.h` is not in src.  Rename flag `SSH_FXF_RENAME_OVERWRITE`. -/
def SSH_FXF_RENAME_OVERWRITE : Nat := 0x00000001
/-- Modelled from the spec: `sftp.h` is not in src.  Rename flag `SSH_FXF_RENAME_ATOMIC`. -/
def SSH_FXF_RENAME_ATOMIC : Nat := 0x00000002
/-- Modelled from the spec: `sftp.h` is not in src.  Rename flag `SSH_FXF_RENAME_NATIVE`. -/
def SSH_FXF_RENAME_NATIVE : Nat := 0x00000004

/-- The C expression `~m` converted to a 32-bit unsigned operand. -/
def not32 (m : Nat) : Nat := 0xFFFFFFFF - m

/-! ## Requests -/

/-- One item appended to the outgoing request by a `send_*` call. -/
inductive Field where
  | u8 (v : Nat)
  | u32 (v : Nat)
  | path (p : String)
  | attrs (encoded : List Nat)
  deriving DecidableEq, Repr

/-- The fields appended between `send_begin` and `send_end`. -/
abbrev Request := List Field

/-- `resolvepath`: a name starting with `/` is returned as it is, any other
name (the empty one included) is appended to `cwd` and a slash. -/
def resolvepath (cwd name : String) : String :=
  if name.data.head? = some '/' then name else cwd ++ "/" ++ name

/-- The `switch(flags & SSH_FXF_ACCESS_DISPOSITION)` of `sftp_open`: the
`pflags` after the case taken, or `none` for the two cases that return
`error(...)`. -/
def open_disposition (flags pflags : Nat) : Option Nat :=
  let d := flags &&& SSH_FXF_ACCESS_DISPOSITION
  if d = SSH_FXF_CREATE_NEW then some (pflags ||| (SSH_FXF_CREAT ||| SSH_FXF_EXCL))
  else if d = SSH_FXF_CREATE_TRUNCATE then some (pflags ||| (SSH_FXF_CREAT ||| SSH_FXF_TRUNC))
  else if d = SSH_FXF_OPEN_OR_CREATE then some (pflags ||| SSH_FXF_CREAT)
  else if d = SSH_FXF_OPEN_EXISTING then some pflags
  else if d = SSH_FXF_TRUNCATE_EXISTING then none
  else none

/-- The last test of the translation block of `sftp_open`: any flag bit
outside the ones translated above is refused. -/
def open_future (flags pflags : Nat) : Option Nat :=
  if flags &&& not32 (SSH_FXF_ACCESS_DISPOSITION ||| SSH_FXF_APPEND_DATA
                      ||| SSH_FXF_APPEND_DATA_ATOMIC ||| SSH_FXF_TEXT_MODE) ≠ 0
  then none
  else some pflags

/-- The translation block of `sftp_open` for `protocol->version <= 4`
(source lines 507-541): the `pflags` word, or `none` when one of the
`return error(...)` statements is reached. -/
def open_pflags (version desired_access flags : Nat) : Option Nat :=
  let pflags := 0
  let pflags := if desired_access &&& ACE4_READ_DATA ≠ 0 then pflags ||| SSH_FXF_READ else pflags
  let pflags := if desired_access &&& ACE4_WRITE_DATA ≠ 0 then pflags ||| SSH_FXF_WRITE else pflags
  match open_disposition flags pflags with
  | none => none
  | some pflags =>
    let pflags :=
      if flags &&& (SSH_FXF_APPEND_DATA ||| SSH_FXF_APPEND_DATA_ATOMIC) ≠ 0
      then pflags ||| SSH_FXF_APPEND else pflags
    if flags &&& SSH_FXF_TEXT_MODE ≠ 0 then
      if version < 4 then none
      else open_future flags (pflags ||| SSH_FXF_TEXT)
    else open_future flags pflags

/-- `sftp_open` up to `send_end`: the request sent, or `none` when the
function returns `error(...)` before `send_begin`. -/
def sftp_open (version : Nat) (cwd : String) (id : Nat) (path : String)
    (desired_access flags : Nat) (attrs : List Nat) : Option Request :=
  if version ≤ 4 then
    match open_pflags version desired_access flags with
    | none => none
    | some pflags =>
      some [.u8 SSH_FXP_OPEN, .u32 id, .path (resolvepath cwd path), .u32 pflags, .attrs attrs]
  else
    some [.u8 SSH_FXP_OPEN, .u32 id, .path (resolvepath cwd path),
          .u32 desired_access, .u32 flags, .attrs attrs]

/-- The `sftp_open` call of `cmd_get` (source lines 1191-1193); `attrs` is
the encoding of the zeroed attribute record passed along. -/
def cmd_get_open (version : Nat) (cwd : String) (id : Nat) (remote : String)
    (textmode : Bool) (attrs : List Nat) : Option Request :=
  sftp_open version cwd id remote (ACE4_READ_DATA ||| ACE4_READ_ATTRIBUTES)
    (SSH_FXF_OPEN_EXISTING ||| (if textmode then SSH_FXF_TEXT_MODE else 0)) attrs

/-- `sftp_rename` up to `send_end`. -/
def sftp_rename (version : Nat) (cwd : String) (id : Nat) (oldpath newpath : String)
    (flags : Nat) : Option Request :=
  if version ≤ 4 ∧ flags &&& not32 SSH_FXF_RENAME_ATOMIC ≠ 0 then none
  else
    some ([.u8 SSH_FXP_RENAME, .u32 id, .path (resolvepath cwd oldpath),
           .path (resolvepath cwd newpath)]
          ++ (if version ≥ 5 then [.u32 flags] else []))

/-- The option loop of `cmd_mv`: `while((c = *ptr++)) switch(c) ...`. -/
def mv_flags : List Char → Nat → Option Nat
  | [], flags => some flags
  | c :: rest, flags =>
    if c = 'n' then mv_flags rest (flags ||| SSH_FXF_RENAME_NATIVE)
    else if c = 'a' then mv_flags rest (flags ||| SSH_FXF_RENAME_ATOMIC)
    else if c = 'o' then mv_flags rest (flags ||| SSH_FXF_RENAME_OVERWRITE)
    else none

/-- `cmd_mv`: with three arguments the first is an option word. -/
def cmd_mv (version : Nat) (cwd : String) (id : Nat) (av : List String) : Option Request :=
  match av with
  | [opts, a, b] =>
    match opts.data with
    | '-' :: rest =>
      match mv_flags rest 0 with
      | some flags => sftp_rename version cwd id a b flags
      | none => none
    | _ => none
  | [a, b] => sftp_rename version cwd id a b 0
  | _ => none

/-- `sftp_link` up to `send_end`; `send_symlink` and `quirk_reverse_symlink`
are the C ints read as truth values. -/
def sftp_link (version : Nat) (quirk_reverse_symlink : Bool) (cwd : String) (id : Nat)
    (targetpath linkpath : String) (send_symlink : Bool) : Option Request :=
  if version < 6 ∧ send_symlink = false then none
  else
    some ([.u8 (if version ≥ 6 then SSH_FXP_LINK else SSH_FXP_SYMLINK), .u32 id]
          ++ (if quirk_reverse_symlink = true ∧ version = 3 then
                [.path targetpath, .path (resolvepath cwd linkpath)]
              else
                [.path (resolvepath cwd linkpath),
                 .path (if send_symlink then targetpath else resolvepath cwd targetpath)])
          ++ (if version ≥ 6 then [.u8 (if send_symlink then 1 else 0)] else []))

/-- Version selection in `main` (source lines 2007-2104).  `sftpversion` is
the `--sftp-version` value sent in `SSH_FXP_INIT`, `reply` the `uint32` of the
server's `SSH_FXP_VERSION`.  The result is `protocol->version` of the table
selected, `none` when `fatal` is called.
Modelled from the spec: the tables `sftpv3` .. `sftpv6` are not in src; each is
represented by its version number. -/
def negotiate (sftpversion : Int) (reply : Nat) : Option Nat :=
  if sftpversion < 3 ∨ sftpversion > 6 then none
  else if reply = 3 then some 3
  else if reply = 4 then some 4
  else if reply = 5 then some 5
  else if reply = 6 then some 6
  else none

/-! ## Text translation -/

/-- A byte of file data (`unsigned char`). -/
abbrev Byte := Fin 256

/-- The value of a `char` holding byte `b` when it is promoted to `int`:
where plain `char` is signed, bytes from 0x80 up are negative. -/
def charToInt (signedChar : Bool) (b : Byte) : Int :=
  if signedChar = true ∧ 128 ≤ b.val then (b.val : Int) - 256 else (b.val : Int)

/-- The C string `newline` read at index `i`: its bytes, then the
terminating NUL. -/
def cstrAt (newline : List Byte) (i : Nat) : Byte := newline.getD i 0

/-- The statics of the inbound translator: `translated_state` and the
bytes written to `translated_fp` so far. -/
structure Translator where
  translated_state : Nat
  out : List Byte
  deriving DecidableEq, Repr

/-- `write_translated_init`: `translated_state = 0` on a fresh stream. -/
def write_translated_init : Translator := ⟨0, []⟩

/-- One pass through the body of the `while(bytes > 0)` loop of
`write_translated`, for the byte `c` fetched by `*ptr++`.  The loop head has
already advanced `ptr` and decremented `bytes` when the `continue` of the
mismatch branch is reached, so the next pass fetches the byte after `c`.
Writes to the stream are taken to succeed. -/
def write_translated_step (signedChar : Bool) (newline : List Byte)
    (t : Translator) (c : Byte) : Translator :=
  if (c.val : Int) = charToInt signedChar (cstrAt newline t.translated_state) then
    if cstrAt newline (t.translated_state + 1) = 0 then
      { translated_state := 0, out := t.out ++ [10] }
    else
      { translated_state := t.translated_state + 1, out := t.out }
  else if t.translated_state ≠ 0 then
    { translated_state := 0, out := t.out ++ newline.take t.translated_state }
  else
    { translated_state := t.translated_state, out := t.out ++ [c] }

/-- `write_translated(vptr, bytes)`: the loop over the bytes of one DATA
payload. -/
def write_translated (signedChar : Bool) (newline : List Byte)
    (t : Translator) (data : List Byte) : Translator :=
  data.foldl (write_translated_step signedChar newline) t

/-- `write_translated_done`: a pending partial match is written out
literally before the stream is closed. -/
def write_translated_done (newline : List Byte) (t : Translator) : Translator :=
  if t.translated_state ≠ 0 then
    { translated_state := 0, out := t.out ++ newline.take t.translated_state }
  else t

/-- Text-mode GET as the translator sees it: `write_translated_init`, one
`write_translated` per DATA payload in order, then `write_translated_done`;
the result is the content of the local file. -/
def get_text (signedChar : Bool) (newline : List Byte) (chunks : List (List Byte)) :
    List Byte :=
  (write_translated_done newline
    (chunks.foldl (write_translated signedChar newline) write_translated_init)).out

/-- The text-mode chunk loop of `cmd_put` (source lines 1500-1518):
`while(left > 0 && (c = getc(fp)) != EOF)`.  `input` is what `fp` still has
to deliver (`ungetc` puts the byte back in front), `left` the free space,
`buf` the bytes stored from `start` to `ptr`.  The result is the buffer and
the rest of the file once the loop is left; `fuel` bounds the number of
passes, `none` meaning the loop is still running when it is used up.  Reads
from `fp` are taken not to fail. -/
def put_fill (newline : List Byte) : Nat → List Byte → Nat → List Byte →
    Option (List Byte × List Byte)
  | 0, _, _, _ => none
  | fuel + 1, input, left, buf =>
    if left > 0 then
      match input with
      | [] => some (buf, [])
      | c :: rest =>
        if c = 10 then
          if left ≥ newline.length then
            put_fill newline fuel rest (left - newline.length) (buf ++ newline)
          else
            put_fill newline fuel (c :: rest) left buf
        else
          put_fill newline fuel rest (left - 1) (buf ++ [c])
    else some (buf, input)

/-- The sending loop of `cmd_put` in text mode, with every WRITE accepted by
the server: each pass fills a buffer of `buffersize` bytes with `put_fill`;
`n > 0` sends a WRITE with these bytes, `n == 0` sets `eof`.  The result is
the list of WRITE payloads in the order sent, `none` when `fuel` passes do
not bring the command to its end. -/
def cmd_put_text (newline : List Byte) (buffersize : Nat) : Nat → List Byte →
    Option (List (List Byte))
  | 0, _ => none
  | fuel + 1, input =>
    match put_fill newline (fuel + 1) input buffersize [] with
    | none => none
    | some (buf, rest) =>
      if buf.length > 0 then
        match cmd_put_text newline buffersize fuel rest with
        | none => none
        | some payloads => some (buf :: payloads)
      else some []

/-! ## Specification-side definitions -/

/-- Specification: `x` has at least one of the bits of `m` set. -/
def hasAny (x m : Nat) : Prop := x &&& m ≠ 0

/-- Specification: `x` has a bit set that is not a bit of `m`. -/
def hasBitOutside (x m : Nat) : Prop := ∃ i, x.testBit i = true ∧ m.testBit i = false

instance (x m : Nat) : Decidable (hasAny x m) := inferInstanceAs (Decidable (x &&& m ≠ 0))

/-- Specification: the `pflags` bits the spec lists for a disposition value. -/
def documented_disposition (d : Nat) : Nat :=
  if d = SSH_FXF_CREATE_NEW then SSH_FXF_CREAT ||| SSH_FXF_EXCL
  else if d = SSH_FXF_CREATE_TRUNCATE then SSH_FXF_CREAT ||| SSH_FXF_TRUNC
  else if d = SSH_FXF_OPEN_OR_CREATE then SSH_FXF_CREAT
  else 0

/-- Specification: the union of `pflags` bits the spec lists for
`desired_access` and `flags`. -/
def documented_pflags (desired_access flags : Nat) : Nat :=
  (if hasAny desired_access ACE4_READ_DATA then SSH_FXF_READ else 0)
  ||| (if hasAny desired_access ACE4_WRITE_DATA then SSH_FXF_WRITE else 0)
  ||| documented_disposition (flags &&& SSH_FXF_ACCESS_DISPOSITION)
  ||| (if hasAny flags SSH_FXF_APPEND_DATA ∨ hasAny flags SSH_FXF_APPEND_DATA_ATOMIC
       then SSH_FXF_APPEND else 0)
  ||| (if hasAny flags SSH_FXF_TEXT_MODE then SSH_FXF_TEXT else 0)

/-- Specification: the flag bits `sftp_open` knows how to translate. -/
def translatable_flags : Nat :=
  SSH_FXF_ACCESS_DISPOSITION ||| SSH_FXF_APPEND_DATA ||| SSH_FXF_APPEND_DATA_ATOMIC
    ||| SSH_FXF_TEXT_MODE

/-- Specification: the paths a request carries, in the order sent. -/
def requestPaths (req : Request) : List String :=
  req.filterMap fun f => match f with
    | .path p => some p
    | _ => none

/-- Specification side of the text translation: `s` with every occurrence of
`newline` replaced by one line feed, scanning from the left.  `skip` counts
the bytes of the occurrence just replaced that are still to be passed
over. -/
def replaceFrom (newline : List Byte) : Nat → List Byte → List Byte
  | _, [] => []
  | skip + 1, _ :: rest => replaceFrom newline skip rest
  | 0, c :: rest =>
    if newline.isPrefixOf (c :: rest) = true then 10 :: replaceFrom newline (newline.length - 1) rest
    else c :: replaceFrom newline 0 rest

/-- Specification: `s` with every occurrence of `newline` replaced by a
single line feed. -/
def replaceNewline (newline s : List Byte) : List Byte := replaceFrom newline 0 s

/-- Specification: `newline` has no proper self-overlap, that is no
non-empty proper prefix of it is also a suffix of it. -/
def noSelfOverlap (newline : List Byte) : Bool :=
  (List.range newline.length).all fun k =>
    k = 0 || newline.take k != newline.drop (newline.length - k)

/-- A piece of server data as the translator meets it when no partial match
is broken off: a whole newline sequence (`none`) or a single byte
(`some b`). -/
def renderPieces (newline : List Byte) : List (Option Byte) → List Byte
  | [] => []
  | none :: rest => newline ++ renderPieces newline rest
  | some b :: rest => b :: renderPieces newline rest

/-- The local bytes the pieces stand for: a line feed for a newline
sequence, the byte itself otherwise. -/
def localPieces : List (Option Byte) → List Byte
  | [] => []
  | none :: rest => 10 :: localPieces rest
  | some b :: rest => b :: localPieces rest

/-! ## Reply frames and start-up -/

/-- Modelled from the spec: `sftp.h` is not in src.  `SSH_FXP_VERSION`. -/
def SSH_FXP_VERSION : Nat := 2
/-- Modelled from the spec: `sftp.h` is not in src.  `SSH_FXP_STATUS`. -/
def SSH_FXP_STATUS : Nat := 101
/-- Modelled from the spec: `sftp.h` is not in src.  `SSH_FXP_DATA`. -/
def SSH_FXP_DATA : Nat := 103
/-- Modelled from the spec: `sftp.h` is not in src.  Status code `SSH_FX_EOF`. -/
def SSH_FX_EOF : Nat := 1

/-- Modelled from the spec: `parse.c` is not in src.  `parse_uint8` takes one
byte, failing when none is left (section 4.1). -/
def parse_uint8 : List Byte → Option (Nat × List Byte)
  | [] => none
  | b :: rest => some (b.val, rest)

/-- Modelled from the spec: `parse.c` is not in src.  `parse_uint32` takes
four bytes in network byte order, failing when fewer are left. -/
def parse_uint32 : List Byte → Option (Nat × List Byte)
  | a :: b :: c :: d :: rest =>
    some (((a.val * 256 + b.val) * 256 + c.val) * 256 + d.val, rest)
  | _ => none

/-- Modelled from the spec: `parse.c` is not in src.  `parse_string` takes a
`uint32` length and that many bytes, failing when fewer are left. -/
def parse_string (bytes : List Byte) : Option (List Byte × List Byte) :=
  match parse_uint32 bytes with
  | none => none
  | some (len, rest) =>
    if len ≤ rest.length then some (rest.take len, rest.drop len) else none

/-- Modelled from the spec: `parse.c` is not in src.  `parse_uint64` takes
eight bytes in network byte order. -/
def parse_uint64 (bytes : List Byte) : Option (Nat × List Byte) :=
  match parse_uint32 bytes with
  | none => none
  | some (hi, rest) =>
    match parse_uint32 rest with
    | none => none
    | some (lo, rest) => some (hi * 2 ^ 32 + lo, rest)

/-- `status()` on the frame held in `fakejob`: parsing restarts behind the
type byte and the id (`data + 5`).  The result is the value returned, 0 for
`SSH_FX_OK` and -1 otherwise; `none` stands for the `fatal` of `cpcheck`.
Modelled from the spec: the macro `cpcheck` is not in src; a reply that fails
to parse ends the session (section 4.5). -/
def status (frame : List Byte) : Option Int :=
  match parse_uint32 (frame.drop 5) with
  | none => none
  | some (st, rest) =>
    match parse_string rest with
    | none => none
    | some _ => if st ≠ 0 then some (-1) else some 0

/-- `getresponse(expected, expected_id)` for a frame that has been read
whole: the type returned, `none` when `fatal` is called. -/
def getresponse (expected : Int) (expected_id : Nat) (frame : List Byte) : Option Nat :=
  match parse_uint8 frame with
  | none => none
  | some (type, rest) =>
    let checked : Option Unit :=
      if type ≠ SSH_FXP_VERSION then
        match parse_uint32 rest with
        | none => none
        | some (id, _) => if expected_id ≠ 0 ∧ id ≠ expected_id then none else some ()
      else some ()
    match checked with
    | none => none
    | some _ =>
      if expected > 0 ∧ (type : Int) ≠ expected then
        if type = SSH_FXP_STATUS then
          match status frame with
          | none => none
          | some _ => some type
        else none
      else some type

/-- `xstrdup(xdata)`: the copy ends at the first NUL. -/
def xstrdup (xdata : List Byte) : List Byte := xdata.takeWhile fun b => b ≠ 0

/-- The bytes of the extension name `newline`. -/
def name_newline : List Byte := [110, 101, 119, 108, 105, 110, 101]

/-- The bytes of the extension name `vendor-id`. -/
def name_vendor_id : List Byte := [118, 101, 110, 100, 111, 114, 45, 105, 100]

/-- The `vendor-id` branch of the extension loop: three strings and a
`uint64`, each under `cpcheck`; `false` when one of them fails to parse. -/
def vendor_id_parses (xdata : List Byte) : Bool :=
  match parse_string xdata with
  | none => false
  | some (_, r1) =>
    match parse_string r1 with
    | none => false
    | some (_, r2) =>
      match parse_string r2 with
      | none => false
      | some (_, r3) => (parse_uint64 r3).isSome

/-- The extension loop of `main` (source lines 2106-2135) over the
`(xname, xdata)` pairs of the VERSION reply, as far as the session newline
goes: the newline in force afterwards, `none` when `fatal` is called.  Names
are compared as C strings. -/
def parse_extensions : List (List Byte × List Byte) → List Byte → Option (List Byte)
  | [], newline => some newline
  | (xname, xdata) :: rest, newline =>
    if xstrdup xname = name_newline then
      if xstrdup xdata = [] then none
      else parse_extensions rest (xstrdup xdata)
    else if xstrdup xname = name_vendor_id then
      if vendor_id_parses xdata = true then parse_extensions rest newline else none
    else parse_extensions rest newline

/-- The newline sequence in force before negotiation: CR LF. -/
def default_newline : List Byte := [13, 10]

/-- One pass of the `do { ++latestid; } while(!latestid)` loop of `newid`
on the 32-bit counter. -/
def newid_pass (latestid : Nat) : Nat := (latestid + 1) % 2 ^ 32

/-- The loop of `newid` with a bound on the number of passes: the id
returned, `none` when the loop is still running after `fuel` passes. -/
def newid_loop : Nat → Nat → Option Nat
  | 0, _ => none
  | fuel + 1, latestid =>
    if newid_pass latestid = 0 then newid_loop fuel (newid_pass latestid)
    else some (newid_pass latestid)

/-- `newid()`: the new value of `latestid`, which is also the id returned.
The second pass is only made when the first one wrapped to 0, and it
yields 1. -/
def newid (latestid : Nat) : Nat :=
  if newid_pass latestid = 0 then newid_pass (newid_pass latestid) else newid_pass latestid

/-- `isspace` in the C locale. -/
def isspace (c : Char) : Bool :=
  c = ' ' || c = '\t' || c = '\n' || c = '\x0b' || c = '\x0c' || c = '\r'

/-- The `while(*line && *line != '"')` loop of `split`, started with `line`
where the caller left it: the characters stored through `arg` and the
position of `line` when the loop is left. -/
def split_quoted : List Char → List Char → List Char × List Char
  | [], arg => (arg, [])
  | [c], arg => if c = '"' then (arg, [c]) else (arg ++ [c], [])
  | c :: d :: rest, arg =>
    if c = '"' then (arg, c :: d :: rest)
    else if c = '\\' then split_quoted rest (arg ++ [d])
    else split_quoted (d :: rest) (arg ++ [c])

/-- The `while(*line && !isspace(*line))` loop of `split`: the word and the
position of `line` behind it. -/
def split_word : List Char → List Char → List Char × List Char
  | [], arg => (arg, [])
  | c :: rest, arg =>
    if isspace c = true then (arg, c :: rest) else split_word rest (arg ++ [c])

/-- The outer loop of `split`; every pass moves `line` forward, `fuel`
bounds the number of passes.  The result is `av`, `none` standing for the
return of -1 (unterminated string) and for a bound that was too small. -/
def split_loop : Nat → List Char → List String → Option (List String)
  | 0, _, _ => none
  | fuel + 1, line, av =>
    match line with
    | [] => some av
    | c :: rest =>
      if isspace c = true then split_loop fuel rest av
      else if c = '"' then
        match split_quoted (c :: rest) [] with
        | (_, []) => none
        | (arg, _ :: after) => split_loop fuel after (av ++ [String.mk arg])
      else
        match split_word (c :: rest) [] with
        | (arg, []) => split_loop fuel [] (av ++ [String.mk arg])
        | (arg, _ :: after) => split_loop fuel after (av ++ [String.mk arg])

/-- `split(line, av)`: the arguments found in the line. -/
def split (line : String) : Option (List String) :=
  split_loop (line.length + 1) line.data []

/-- The value of `latestid` after `k` calls of `newid`, which is the id the
last of them returned. -/
def newid_after (latestid : Nat) : Nat → Nat
  | 0 => latestid
  | k + 1 => newid (newid_after latestid k)

/-- Specification: the id carried by a reply frame, the four bytes behind
the type byte. -/
def frame_id (frame : List Byte) : Option Nat :=
  match parse_uint32 (frame.drop 1) with
  | none => none
  | some (id, _) => some id

/-! ## The transfer engine of `cmd_get` -/

/-- `struct outstanding_read`: a slot of the request table; `id` 0 marks a
free slot. -/
structure outstanding_read where
  id : Nat
  offset : Nat
  deriving DecidableEq, Repr

/-- A READ request on the wire: id, offset and length (the handle is the
same throughout a transfer). -/
structure ReadRequest where
  id : Nat
  offset : Nat
  len : Nat
  deriving DecidableEq, Repr

/-- What a transfer is run with: `nrequests`, `buffersize`, the size
`cmd_get` stored in `r.size` (the size reported by FSTAT, or 2^64 - 1 when
none was reported), `textmode` and the newline settings. -/
structure GetConfig where
  nrequests : Nat
  buffersize : Nat
  size : Nat
  textmode : Bool
  signedChar : Bool
  newline : List Byte
  deriving Repr

/-- `struct reader_data` together with the other state a transfer works on:
the counter of `newid`, the temporary file (binary mode) or the translator
(text mode), and, for stating properties, the READ requests sent so far
(`sent`), the requests the server has not answered yet (`pending`) and the
DATA payloads in the order in which they arrived (`received`). -/
structure reader_data where
  latestid : Nat
  reqs : List outstanding_read
  next_offset : Nat
  outstanding : Nat
  eof : Bool
  failed : Bool
  file : List Byte
  translated : Translator
  sent : List ReadRequest
  pending : List ReadRequest
  received : List (List Byte)
  deriving Repr

/-- The state in which `cmd_get` starts its two threads: `memset(&r, 0, ...)`
and a request table of `nrequests` free slots.
Modelled from the spec: `alloc` is not in src; the table it returns is taken
to be zero-filled, every slot free (section 3, request slot). -/
def reader_init (cfg : GetConfig) (latestid : Nat) : reader_data :=
  { latestid := latestid
    reqs := List.replicate cfg.nrequests ⟨0, 0⟩
    next_offset := 0
    outstanding := 0
    eof := false
    failed := false
    file := []
    translated := write_translated_init
    sent := []
    pending := []
    received := [] }

/-- The slot searches of the transfer loops,
`for(n = 0; n < nrequests && reqs[n].id != id; ++n)`: the first index whose
slot holds `id`, `none` when the loop runs to `nrequests` (the `assert` that
follows then fails). -/
def find_slot (id : Nat) : List outstanding_read → Option Nat
  | [] => none
  | r :: rest => if r.id = id then some 0 else (find_slot id rest).map fun n => n + 1

/-- `pwrite(fd, data, len, offset)` on the content of the temporary file: a
write of no bytes changes nothing, a write behind the end leaves a hole that
reads as zero bytes. -/
def pwrite (file data : List Byte) (offset : Nat) : List Byte :=
  if data = [] then file
  else file.take offset ++ List.replicate (offset - file.length) 0 ++ data
        ++ file.drop (offset + data.length)

/-- The first half of a pass of the inner loop of `reader_thread` (source
lines 1048-1066), made with the lock held: the test of the inner loop
`outstanding < nrequests && !eof`, the search for a free slot, `newid`, the
length of the READ and `eof`.  The result is the state in which the READ is
about to be transmitted, with the locals `n` and `id`; the request joins the
lists `sent` and `pending`, which are not in the source.  `none` when the test
of the loop fails or the `assert` does.  `r->size - r->next_offset` is 64-bit,
`len` is 32-bit.  The slot table, `outstanding` and `next_offset` are left as
they are: the source updates them only in the second half. -/
def reader_transmit (cfg : GetConfig) (r : reader_data) : Option (reader_data × Nat × Nat) :=
  if r.outstanding < cfg.nrequests ∧ r.eof = false then
    match find_slot 0 r.reqs with
    | none => none
    | some n =>
      let id := newid r.latestid
      let remaining := (cfg.size + 2 ^ 64 - r.next_offset) % 2 ^ 64
      let len := if remaining > cfg.buffersize then cfg.buffersize % 2 ^ 32
                 else remaining % 2 ^ 32
      let eof := if remaining > cfg.buffersize then r.eof else true
      some ({ r with
        latestid := id
        eof := eof
        sent := r.sent ++ [⟨id, r.next_offset, len⟩]
        pending := r.pending ++ [⟨id, r.next_offset, len⟩] }, n, id)
  else none

/-- The second half of a pass of the inner loop of `reader_thread` (source
lines 1069-1076), made once `send_end` has returned and the lock is taken
again: the request goes into slot `n`, `outstanding` is counted up and
`next_offset += buffersize` (64-bit). -/
def reader_record (cfg : GetConfig) (r : reader_data) (n id : Nat) : reader_data :=
  { r with
    reqs := r.reqs.set n ⟨id, r.next_offset⟩
    outstanding := r.outstanding + 1
    next_offset := (r.next_offset + cfg.buffersize) % 2 ^ 64 }

/-- One whole pass of the inner loop of `reader_thread` (source lines
1048-1077) during which the main thread processes no reply: `reader_transmit`
directly followed by `reader_record`.  The test `!eof && !failed` of the outer
loop is not part of a pass, and a pass may follow a pass without it, so that
`failed` does not stop a send here.  The case of a reply processed between
the two halves is that of `get_thread_step`; by `get_thread_run_passes` a run
of the threads ends where the run of its passes and replies ends. -/
def reader_send (cfg : GetConfig) (r : reader_data) : Option reader_data :=
  match reader_transmit cfg r with
  | none => none
  | some (r1, n, id) => some (reader_record cfg r1 n id)

/-- A reply as `getresponse(-1, 0)` hands it to the loop of `cmd_get`: its
type with the id, and the status code or the payload. -/
inductive Reply where
  | data (id : Nat) (payload : List Byte)
  | status (id : Nat) (code : Nat)
  | other (type : Nat) (id : Nat)
  deriving DecidableEq, Repr

/-- The body of the reply loop of `cmd_get` (source lines 1228-1281) for one
reply, entered with `outstanding > 0`; `none` when `fatal` is called or the
`assert` fails.  Local writes are taken to succeed. -/
def reaper_recv (cfg : GetConfig) (r : reader_data) (reply : Reply) : Option reader_data :=
  if r.outstanding = 0 then none
  else
    let r := { r with outstanding := r.outstanding - 1 }
    if r.failed = true then some r
    else
      match reply with
      | .status _ code =>
        if code = SSH_FX_EOF then some { r with eof := true }
        else some { r with failed := true }
      | .data id payload =>
        match find_slot id r.reqs with
        | none => none
        | some n =>
          let offset := (r.reqs.getD n ⟨0, 0⟩).offset
          let r := { r with received := r.received ++ [payload] }
          let r :=
            if cfg.textmode = true then
              { r with translated :=
                  write_translated cfg.signedChar cfg.newline r.translated payload }
            else { r with file := pwrite r.file payload offset }
          some { r with reqs := r.reqs.set n ⟨0, offset⟩ }
      | .other _ _ => none

/-- How the server answers a READ: with the bytes asked for, as far as the
file has them, or with a status. -/
inductive Answer where
  | data
  | status (code : Nat)
  deriving DecidableEq, Repr

/-- What can happen next in a transfer: the sending thread makes one pass, or
the server answers the request at position `j` of those it has not answered
yet and the reply is processed. -/
inductive GetEvent where
  | send
  | answer (j : Nat) (a : Answer)
  deriving DecidableEq, Repr

/-- The reply the server sends to the READ `rq` of the file `remote`. -/
def answer_reply (remote : List Byte) (rq : ReadRequest) : Answer → Reply
  | .data => Reply.data rq.id ((remote.drop rq.offset).take rq.len)
  | .status code => Reply.status rq.id code

/-- One event of a transfer from the server file `remote`. -/
def get_step (cfg : GetConfig) (remote : List Byte) (r : reader_data) :
    GetEvent → Option reader_data
  | .send => reader_send cfg r
  | .answer j a =>
    match r.pending.get? j with
    | none => none
    | some rq =>
      reaper_recv cfg { r with pending := r.pending.eraseIdx j } (answer_reply remote rq a)

/-- A sequence of events, `none` when one of them cannot happen. -/
def get_run (cfg : GetConfig) (remote : List Byte) :
    List GetEvent → reader_data → Option reader_data
  | [], r => some r
  | ev :: rest, r =>
    match get_step cfg remote r ev with
    | none => none
    | some r => get_run cfg remote rest r

/-- The local file once the transfer is over: in text mode what
`write_translated_done` leaves, in binary mode the temporary file. -/
def get_result (cfg : GetConfig) (r : reader_data) : List Byte :=
  if cfg.textmode = true then (write_translated_done cfg.newline r.translated).out
  else r.file

/-- The slots of the request table that hold a request. -/
def occupied (reqs : List outstanding_read) : List outstanding_read :=
  reqs.filter fun r => r.id ≠ 0

/-- Specification: the length of the `k`-th READ of a file of `size` bytes
fetched in pieces of `buffersize`: min(buffersize, size - offset). -/
def chunk_len (size buffersize k : Nat) : Nat := min buffersize (size - k * buffersize)

/-- Specification: offset and length of the first `n` READ requests. -/
def expected_reads (size buffersize n : Nat) : List (Nat × Nat) :=
  (List.range n).map fun k => (k * buffersize, chunk_len size buffersize k)

/-- Specification: the number of READ requests for a file of `size` bytes,
max(1, ceil(size / buffersize)). -/
def read_count (size buffersize : Nat) : Nat := max 1 ((size + buffersize - 1) / buffersize)

/-- Specification: every answer in the schedule is a DATA reply. -/
def data_only (events : List GetEvent) : Prop :=
  ∀ ev ∈ events, ev = GetEvent.send ∨ ∃ j, ev = GetEvent.answer j Answer.data

/-- Specification: requests are answered one at a time, each before the
next is sent: `n` rounds of a send followed by the DATA reply. -/
def serial_schedule : Nat → List GetEvent
  | 0 => []
  | n + 1 => GetEvent.send :: GetEvent.answer 0 Answer.data :: serial_schedule n

/-- What holds of every state a transfer started with `latestid` at `start`
can reach: the ids sent are the values `newid` allocates one after the other,
and every occupied slot holds one of them. -/
structure GetInv (start : Nat) (r : reader_data) : Prop where
  latestid_eq : r.latestid = newid_after start r.sent.length
  sent_ids : r.sent.map (fun q => q.id) =
    (List.range r.sent.length).map fun k => newid_after start (k + 1)
  slots_sub : ((occupied r.reqs).map fun q => q.id).Subperm (r.sent.map fun q => q.id)

/-- A transfer that outlives the id counter: two slots, pieces of 64 bytes
and a file of 2^32 pieces. -/
def wrap_config : GetConfig :=
  { nrequests := 2, buffersize := 64, size := 2 ^ 32 * 64, textmode := false,
    signedChar := false, newline := [13, 10] }

/-- A server file of 2^32 pieces of 64 bytes: zero bytes, except for the last
piece, which holds bytes of value 1. -/
def wrap_remote : List Byte :=
  List.replicate ((2 ^ 32 - 1) * 64) 0 ++ List.replicate 64 1

/-- The server leaves the first READ unanswered and answers each later one
at once: `n` rounds of a DATA reply to the latest READ followed by the next
READ. -/
def wrap_rounds : Nat → List GetEvent
  | 0 => []
  | n + 1 => wrap_rounds n ++ [GetEvent.answer 1 Answer.data, GetEvent.send]

/-- Two READs are sent, then the server answers every READ but the first
until all 2^32 READs of the file have been sent. -/
def wrap_schedule : List GetEvent :=
  [GetEvent.send, GetEvent.send] ++ wrap_rounds (2 ^ 32 - 2)

/-- The state of the transfer after the two first READs and `n` rounds. -/
def WrapAt (n : Nat) (r : reader_data) : Prop :=
  r.latestid = n + 2 ∧ r.reqs = [⟨1, 0⟩, ⟨n + 2, (n + 1) * 64⟩] ∧
  r.next_offset = (n + 2) * 64 ∧ r.outstanding = 2 ∧ r.eof = false ∧ r.failed = false ∧
  r.pending = [⟨1, 0, 64⟩, ⟨n + 2, (n + 1) * 64, 64⟩]

/-- Specification: the `k`-th READ of a transfer started with `latestid` at
`start`. -/
def expected_request (cfg : GetConfig) (start k : Nat) : ReadRequest :=
  ⟨newid_after start (k + 1), k * cfg.buffersize, chunk_len cfg.size cfg.buffersize k⟩

/-- What holds of every state a transfer of a file of known size reaches as
long as every reply is a DATA reply. -/
structure GetDataInv (cfg : GetConfig) (start : Nat) (r : reader_data) : Prop where
  sent_eq : r.sent = (List.range r.sent.length).map (expected_request cfg start)
  latestid_eq : r.latestid = newid_after start r.sent.length
  next_eq : r.eof = false → r.next_offset = r.sent.length * cfg.buffersize
  not_failed : r.failed = false
  eof_true : r.eof = true → 0 < r.sent.length ∧ cfg.size ≤ r.sent.length * cfg.buffersize
  eof_false : r.eof = false →
    r.sent.length = 0 ∨ r.sent.length * cfg.buffersize < cfg.size
  started : r.sent.length ≤ 1 ∨ (r.sent.length - 1) * cfg.buffersize < cfg.size
  out_eq : r.outstanding = r.pending.length
  pend_sub : r.pending.Sublist r.sent
  slot_ids : ((occupied r.reqs).map fun q => q.id).Perm (r.pending.map fun q => q.id)
  slots_len : r.reqs.length = cfg.nrequests

/-- The slot a READ is recorded in. -/
def slot_of (q : ReadRequest) : outstanding_read := ⟨q.id, q.offset⟩

/-- What holds in addition in binary mode when the ids of the READs sent are
pairwise distinct: the occupied slots are those of the READs not answered
yet, and every answered READ has its bytes in the temporary file. -/
structure GetFileInv (cfg : GetConfig) (remote : List Byte) (start : Nat)
    (r : reader_data) : Prop where
  slots_eq : (occupied r.reqs).Perm (r.pending.map slot_of)
  file_len : r.file.length ≤ cfg.size
  file_ok : ∀ k, k < r.sent.length → expected_request cfg start k ∉ r.pending →
    ∀ i, k * cfg.buffersize ≤ i →
      i < k * cfg.buffersize + chunk_len cfg.size cfg.buffersize k →
      r.file[i]? = remote[i]?

/-- What holds of every state a transfer reaches as long as every reply is a
DATA reply, whatever the size of the file. -/
structure GetSlotInv (r : reader_data) : Prop where
  ids_ne : ∀ q ∈ r.pending, q.id ≠ 0
  slot_ids : ((occupied r.reqs).map fun q => q.id).Perm (r.pending.map fun q => q.id)
  not_failed : r.failed = false

/-- `struct outstanding_write`: a slot of the request table of `cmd_put`;
`id = 0` marks an empty slot, `n` is the size of the request. -/
structure outstanding_write where
  id : Nat
  n : Nat
  deriving DecidableEq, Repr

/-- The slot searches of `cmd_put` and `writer_thread`,
`for(i = 0; i < nrequests && reqs[i].id != id; ++i)`: the first index whose
slot holds `id`, `none` when the loop runs to `nrequests` (the `assert` that
follows then fails). -/
def find_write_slot (id : Nat) : List outstanding_write → Option Nat
  | [] => none
  | r :: rest => if r.id = id then some 0 else (find_write_slot id rest).map fun n => n + 1

/-- Where `reader_thread` stands between two steps.  `waiting`: without the
mutex and before the test of the outer loop, at its start or in
`pthread_cond_wait(&r->c1, &r->m)`.  `inner`: with the mutex, before the test
of the inner loop.  `sending n id`: without the mutex, in `send_end`, with the
locals `n` and `id`.  `exited`: past the outer loop. -/
inductive ReaderPc where
  | waiting
  | inner
  | sending (n id : Nat)
  | exited
  deriving DecidableEq, Repr

/-- The two threads of `cmd_get`: the shared `struct reader_data`, the place
of `reader_thread`, and whether the main thread has left its reply loop
(`reaped`).  The main thread holds the mutex only while it processes a reply,
which is one step here. -/
structure GetThreads where
  data : reader_data
  reader : ReaderPc
  reaped : Bool

/-- The threads of `cmd_get` as `pthread_create` leaves them. -/
def get_threads_init (cfg : GetConfig) (latestid : Nat) : GetThreads :=
  { data := reader_init cfg latestid, reader := ReaderPc.waiting, reaped := false }

/-- What can happen next in `cmd_get`.  `wake`: `reader_thread` gets the mutex
and tests its outer loop.  `transmit`: it makes the first half of a pass of
its inner loop and releases the mutex for `send_end`.  `record`: it takes the
mutex again and makes the second half.  `sleep`: the test of the inner loop
fails and it waits on `c1`.  `answer j a`: the server has answered the request
at position `j` of those not answered yet and the main thread processes the
reply. -/
inductive GetThreadEvent where
  | wake
  | transmit
  | record
  | sleep
  | answer (j : Nat) (a : Answer)
  deriving DecidableEq, Repr

/-- One step of the threads of `cmd_get` (source lines 1045-1081 and
1222-1282), `none` when it cannot happen where the threads stand, when the
mutex is not free for it, or when an `assert` fails or `fatal` is called.
After a reply the main thread tests
`while(r.outstanding || (!r.eof && !r.failed))`. -/
def get_thread_step (cfg : GetConfig) (remote : List Byte) (s : GetThreads) :
    GetThreadEvent → Option GetThreads
  | .wake =>
    if s.reader = ReaderPc.waiting then
      some { s with reader := if s.data.eof = false ∧ s.data.failed = false
                              then ReaderPc.inner else ReaderPc.exited }
    else none
  | .transmit =>
    if s.reader = ReaderPc.inner then
      match reader_transmit cfg s.data with
      | none => none
      | some (r, n, id) => some { s with data := r, reader := ReaderPc.sending n id }
    else none
  | .record =>
    match s.reader with
    | .sending n id => some { s with data := reader_record cfg s.data n id, reader := ReaderPc.inner }
    | _ => none
  | .sleep =>
    if s.reader = ReaderPc.inner ∧ ¬ (s.data.outstanding < cfg.nrequests ∧ s.data.eof = false) then
      some { s with reader := ReaderPc.waiting }
    else none
  | .answer j a =>
    if s.reader ≠ ReaderPc.inner ∧ s.reaped = false then
      match get_step cfg remote s.data (GetEvent.answer j a) with
      | none => none
      | some r =>
        some { s with data := r,
                      reaped := !(decide (r.outstanding ≠ 0) || (!r.eof && !r.failed)) }
    else none

/-- A sequence of steps of the threads of `cmd_get`, `none` when one of them
cannot happen. -/
def get_thread_run (cfg : GetConfig) (remote : List Byte) :
    List GetThreadEvent → GetThreads → Option GetThreads
  | [], s => some s
  | ev :: rest, s =>
    match get_thread_step cfg remote s ev with
    | none => none
    | some s => get_thread_run cfg remote rest s

/-- The id of the READ that `reader_thread` has sent and not recorded yet. -/
def reader_in_transit : ReaderPc → List Nat
  | .sending _ id => [id]
  | _ => []

/-- Specification: every reply processed in the run is a DATA reply. -/
def data_replies (events : List GetThreadEvent) : Prop :=
  ∀ j a, GetThreadEvent.answer j a ∈ events → a = Answer.data

/-- The shared state of `cmd_get` with the READ in transit recorded: what
`reader_record` makes of it while `reader_thread` is in `send_end`, the state
itself otherwise. -/
def reader_recorded (cfg : GetConfig) (s : GetThreads) : reader_data :=
  match s.reader with
  | .sending n id => reader_record cfg s.data n id
  | _ => s.data

/-- The whole passes and the replies of a run of the threads of `cmd_get`:
each `transmit` stands for the pass of the sending loop it begins. -/
def passes : List GetThreadEvent → List GetEvent
  | [] => []
  | .transmit :: rest => GetEvent.send :: passes rest
  | .answer j a :: rest => GetEvent.answer j a :: passes rest
  | .wake :: rest => passes rest
  | .record :: rest => passes rest
  | .sleep :: rest => passes rest

/-- What holds of the threads of `cmd_get` at every point of every run. -/
structure GetThreadsInv (s : GetThreads) : Prop where
  ids_ne : ∀ q ∈ s.data.pending, q.id ≠ 0
  transit_ne : ∀ id ∈ reader_in_transit s.reader, id ≠ 0
  slot_free : ∀ n id, s.reader = ReaderPc.sending n id →
    ∃ q, s.data.reqs[n]? = some q ∧ q.id = 0
  count : s.data.pending.length = s.data.outstanding + (reader_in_transit s.reader).length
  slots_ge : s.data.outstanding ≤ (occupied s.data.reqs).length

/-- The requests a command sends, as far as handles go; `transfer` stands
for the READ or WRITE requests of the transfer engine. -/
inductive SftpOp where
  | open
  | opendir
  | lstat
  | fstat (h : List Byte)
  | fsetstat (h : List Byte)
  | readdir (h : List Byte)
  | transfer (h : List Byte)
  | close (h : List Byte)
  | remove
  deriving DecidableEq, Repr

/-- How the steps of `cmd_get` that can fail without ending the session turn
out: `true` for success; `opened` is the handle `sftp_open` stores in `r.h`,
`none` when it returns an error. -/
structure GetOutcome where
  local_open : Bool
  translated_init : Bool
  opened : Option (List Byte)
  fstat : Bool
  size_fits : Bool
  transfer : Bool
  set_fstatus : Bool
  finish : Bool
  rename : Bool
  deriving DecidableEq, Repr

/-- The `error:` label of `cmd_get`: `if(r.h.len) sftp_close(&r.h);` after the
requests sent so far. -/
def cmd_get_error (h : List Byte) (trace : List SftpOp) : List SftpOp :=
  trace ++ (if h.length ≠ 0 then [SftpOp.close h] else [])

/-- The control flow of `cmd_get` (source lines 1152-1335) on the paths that
return: the requests it sends.  `r.h` is zeroed by `memset` at entry and
`r.h.len` is set to 0 after the regular `sftp_close`. -/
def cmd_get_flow (textmode preserve : Bool) (o : GetOutcome) : List SftpOp :=
  if o.local_open = false then cmd_get_error [] []
  else if textmode = true ∧ o.translated_init = false then cmd_get_error [] []
  else
    match o.opened with
    | none => cmd_get_error [] [.open]
    | some h =>
      if o.fstat = false then cmd_get_error h [.open, .fstat h]
      else if o.size_fits = false then cmd_get_error h [.open, .fstat h]
      else if o.transfer = false then cmd_get_error h [.open, .fstat h, .transfer h]
      else if preserve = true ∧ o.set_fstatus = false then
        cmd_get_error [] [.open, .fstat h, .transfer h, .close h]
      else if o.finish = false then
        cmd_get_error [] [.open, .fstat h, .transfer h, .close h]
      else if o.rename = false then
        cmd_get_error [] [.open, .fstat h, .transfer h, .close h]
      else [.open, .fstat h, .transfer h, .close h]

/-- How the steps of `cmd_put` that can fail without ending the session turn
out: `true` for success (`is_dir`: the local file is a directory); `opened`
is the handle `sftp_open` stores in `h`, `none` when it returns an error. -/
structure PutOutcome where
  local_open : Bool
  local_fstat : Bool
  is_dir : Bool
  size_fits : Bool
  opened : Option (List Byte)
  fdopen : Bool
  transfer : Bool
  fsetstat : Bool
  deriving DecidableEq, Repr

/-- The `error:` label of `cmd_put`:
`if(h.len) { sftp_close(&h); sftp_remove(remote); }` after the requests sent
so far. -/
def cmd_put_error (h : List Byte) (trace : List SftpOp) : List SftpOp :=
  trace ++ (if h.length ≠ 0 then [SftpOp.close h, SftpOp.remove] else [])

/-- The control flow of `cmd_put` (source lines 1393-1597) on the paths that
return: the requests it sends.  `h` is zeroed by `memset` at entry. -/
def cmd_put_flow (textmode preserve : Bool) (o : PutOutcome) : List SftpOp :=
  if o.local_open = false then cmd_put_error [] []
  else if o.local_fstat = false then cmd_put_error [] []
  else if o.is_dir = true then cmd_put_error [] []
  else if o.size_fits = false then cmd_put_error [] []
  else
    match o.opened with
    | none => cmd_put_error [] [.open]
    | some h =>
      if textmode = true ∧ o.fdopen = false then cmd_put_error h [.open]
      else if o.transfer = false then cmd_put_error h [.open, .transfer h]
      else if preserve = true then
        if o.fsetstat = false then cmd_put_error h [.open, .transfer h, .fsetstat h]
        else [.open, .transfer h, .fsetstat h, .close h]
      else [.open, .transfer h, .close h]

/-- What `sftp_readdir` gives `cmd_ls`: an error, no names (end of the
directory), or some names. -/
inductive ReaddirResult where
  | fail
  | eof
  | names
  deriving DecidableEq, Repr

/-- The `for(;;)` loop of `cmd_ls` (source lines 760-776) and the
`sftp_close` behind it, over the results of the READDIR requests; `none` when
the results run out before the loop is left. -/
def cmd_ls_loop (h : List Byte) : List ReaddirResult → Option (List SftpOp)
  | [] => none
  | .fail :: _ => some [.readdir h, .close h]
  | .eof :: _ => some [.readdir h, .close h]
  | .names :: rest => (cmd_ls_loop h rest).map fun t => SftpOp.readdir h :: t

/-- The control flow of `cmd_ls` (source lines 731-778) as far as requests
go: `lstat` tells whether `sftp_stat` succeeded, `listing` whether the path
is a directory listed without `-d`, `opened` is the handle of `sftp_opendir`,
`none` when it returns an error. -/
def cmd_ls_flow (lstat listing : Bool) (opened : Option (List Byte))
    (results : List ReaddirResult) : Option (List SftpOp) :=
  if lstat = false then some [.lstat]
  else if listing = false then some [.lstat]
  else
    match opened with
    | none => some [.lstat, .opendir]
    | some h => (cmd_ls_loop h results).map fun t => SftpOp.lstat :: SftpOp.opendir :: t

/-- Specification: the handles of the CLOSE requests of a trace, in order. -/
def closes : List SftpOp → List (List Byte)
  | [] => []
  | .close h :: rest => h :: closes rest
  | _ :: rest => closes rest

/-- Specification: the handle `cmd_get` has got from a successful OPEN, if it
came that far. -/
def cmd_get_opened (textmode : Bool) (o : GetOutcome) : Option (List Byte) :=
  if o.local_open = true ∧ (textmode = true → o.translated_init = true) then o.opened else none

/-- Specification: the handle `cmd_put` has got from a successful OPEN, if it
came that far. -/
def cmd_put_opened (o : PutOutcome) : Option (List Byte) :=
  if o.local_open = true ∧ o.local_fstat = true ∧ o.is_dir = false ∧ o.size_fits = true
  then o.opened else none

/-- Specification: `cmd_get` reaches its regular `sftp_close`. -/
def cmd_get_regular (o : GetOutcome) : Bool := o.fstat && o.size_fits && o.transfer

/-- Specification: `cmd_put` reaches its regular `sftp_close`. -/
def cmd_put_regular (textmode preserve : Bool) (o : PutOutcome) : Bool :=
  (!textmode || o.fdopen) && o.transfer && (!preserve || o.fsetstat)

/-! ## Commands and start-up options -/

/-- Modelled from the spec: `sftp.h` is not in src.
`SSH_FILEXFER_TYPE_DIRECTORY`. -/
def SSH_FILEXFER_TYPE_DIRECTORY : Nat := 2

/-- The value of an octal digit, `none` for any other character. -/
def octal_digit (c : Char) : Option Nat :=
  if '0' ≤ c ∧ c ≤ '7' then some (c.toNat - 48) else none

/-- The digit scan of `strtol` in base 8: the digits are accumulated up to
the first character that is not an octal digit. -/
def strtol_digits : List Char → Nat → Nat
  | [], acc => acc
  | c :: rest, acc =>
    match octal_digit c with
    | none => acc
    | some d => strtol_digits rest (acc * 8 + d)

/-- `strtol(s, 0, 8)` of the C library with a 64-bit `long`, entered with
`errno = 0`: white space is skipped, a sign taken, the octal digits that
follow converted; a value out of range is clamped and sets `errno`
(`ERANGE`).  The result is the value and whether `errno` is set; no digits
at all give 0 with `errno` left alone. -/
def strtol8 (s : String) : Int × Bool :=
  let t := s.data.dropWhile fun c => isspace c
  let digits := match t with
    | '-' :: r => r
    | '+' :: r => r
    | _ => t
  let v := strtol_digits digits 0
  if t.head? = some '-' then
    if v > 2 ^ 63 then (-(2 ^ 63), true) else (-(v : Int), false)
  else
    if v > 2 ^ 63 - 1 then (2 ^ 63 - 1, true) else ((v : Int), false)

/-- What a run of `cmd_chmod` comes to: whether `error("invalid
permissions ...")` was called, the permissions put into the SETSTAT request,
and the value returned. -/
structure ChmodResult where
  reported : Bool
  permissions : Nat
  result : Int
  deriving DecidableEq, Repr

/-- `sftp_setstat` behind its `send_end`: `getresponse(SSH_FXP_STATUS, id)`
and `return status()` on the reply frame; `none` when the session ends. -/
def sftp_setstat_reply (id : Nat) (frame : List Byte) : Option Int :=
  match getresponse SSH_FXP_STATUS id frame with
  | none => none
  | some _ => status frame

/-- `cmd_chmod(ac, av)` with `av[0] = arg`, the SETSTAT request carrying `id`
and the server answering with `frame`.  `attrs.permissions` is taken as the
32-bit field that goes on the wire. -/
def cmd_chmod (arg : String) (id : Nat) (frame : List Byte) : Option ChmodResult :=
  let permissions := ((strtol8 arg).1 % 2 ^ 32).toNat
  let reported := (strtol8 arg).2 || decide (permissions ≠ permissions &&& 0o7777)
  match sftp_setstat_reply id frame with
  | none => none
  | some rc => some { reported := reported, permissions := permissions, result := rc }

/-- The options of `main` that shape the `ssh` command line: `-1`/`-2`, `-C`,
`-F`, the `-o` options in the order given (`sshoptions`, `nsshoptions` being
their number), the number of `-v` and `-s`. -/
structure SshOptions where
  sshversion : Int
  compress : Bool
  sshconf : Option String
  sshoptions : List String
  sshverbose : Int
  subsystem : Option String
  deriving DecidableEq, Repr

/-- The loop `for(n = 0; n < nsshoptions; ++n)` of `main` (source lines
2045-2048) with its body `cmdline[ncmdline++] = "-o";
cmdline[ncmdline++] = sshoptions[n++];`, from index `n` on; `fuel` bounds the
number of passes. -/
def ssh_option_loop (sshoptions : List String) : Nat → Nat → List String → List String
  | 0, _, cmdline => cmdline
  | fuel + 1, n, cmdline =>
    if n < sshoptions.length then
      ssh_option_loop sshoptions fuel (n + 1 + 1) (cmdline ++ ["-o", sshoptions.getD n ""])
    else cmdline

/-- The argument vector `main` builds for the `ssh` subprocess (source lines
2035-2054, no `-P program`); `userhost` is `argv[optind]`. -/
def ssh_cmdline (o : SshOptions) (userhost : String) : List String :=
  let cmdline := ["ssh"]
  let cmdline := if o.sshversion = 1 then cmdline ++ ["-1"] else cmdline
  let cmdline := if o.sshversion = 2 then cmdline ++ ["-2"] else cmdline
  let cmdline := if o.compress = true then cmdline ++ ["-C"] else cmdline
  let cmdline := match o.sshconf with
    | some conf => cmdline ++ ["-F", conf]
    | none => cmdline
  let cmdline := ssh_option_loop o.sshoptions o.sshoptions.length 0 cmdline
  let cmdline := cmdline ++ List.replicate o.sshverbose.toNat "-v"
  cmdline ++ ["-s", userhost, o.subsystem.getD "sftp"]

/-- Specification: the argument vector as documented, every `-o` option in
its place. -/
def documented_cmdline (o : SshOptions) (userhost : String) : List String :=
  ["ssh"] ++ (if o.sshversion = 1 then ["-1"] else if o.sshversion = 2 then ["-2"] else [])
    ++ (if o.compress = true then ["-C"] else [])
    ++ (match o.sshconf with
        | some conf => ["-F", conf]
        | none => [])
    ++ (o.sshoptions.map fun opt => ["-o", opt]).flatten
    ++ List.replicate o.sshverbose.toNat "-v"
    ++ ["-s", userhost, o.subsystem.getD "sftp"]

/-- `cmd_cd(ac, av)` with `av[0] = arg`: the value returned and the session
`cwd` afterwards.  The server is given by what it answers: `realpath p` is
the path `sftp_realpath(p)` returns (`none` for the null pointer), `lstat p`
the type `sftp_stat(p, &attrs, SSH_FXP_LSTAT)` stores (`none` when it
returns an error); `sftp_stat` resolves its argument against `cwd` once
more. -/
def cmd_cd (cwd arg : String) (realpath : String → Option String)
    (lstat : String → Option Nat) : Int × String :=
  match realpath (resolvepath cwd arg) with
  | none => (-1, cwd)
  | some newcwd =>
    match lstat (resolvepath cwd newcwd) with
    | none => (-1, cwd)
    | some type =>
      if type ≠ SSH_FILEXFER_TYPE_DIRECTORY then (-1, cwd)
      else (0, newcwd)

/-- The sanity checks of `main` on `buffersize` (source lines 2004-2005);
`buffersize` is a `size_t`. -/
def sanity_buffersize (buffersize : Nat) : Nat :=
  let buffersize := if buffersize < 64 then 64 else buffersize
  if buffersize > 1048576 then 1048576 else buffersize

/-- The lines of `main` behind the extension loop (source lines 2137-2138):
`if(buffersize < strlen(newline)) buffersize = strlen(newline);`. -/
def raise_buffersize (buffersize : Nat) (newline : List Byte) : Nat :=
  if buffersize < newline.length then newline.length else buffersize

/-- The buffer size in force once `main` has run its sanity checks and the
version negotiation, from the value `buffersize` had behind the option
loop and the newline sequence of the session. -/
def startup_buffersize (buffersize : Nat) (newline : List Byte) : Nat :=
  raise_buffersize (sanity_buffersize buffersize) newline

/-- Specification: `c` clamped to the range from `lo` to `hi`. -/
def clamp (lo hi c : Nat) : Nat := min hi (max lo c)

/-! ## Listings: `reverse`, the comparators and the columns of `cmd_ls` -/

/-- `memcpy(tmp, base + offset, size)` out of a block of memory: the bytes
read, `none` when the range does not lie inside the block. -/
def memcpy_from (block : List Byte) (offset size : Nat) : Option (List Byte) :=
  if offset + size ≤ block.length then some ((block.drop offset).take size) else none

/-- `memcpy(base + offset, data, size)` into a block of memory: the block
afterwards, `none` when the range does not lie inside the block. -/
def memcpy_to (block : List Byte) (offset : Nat) (data : List Byte) : Option (List Byte) :=
  if offset + data.length ≤ block.length then
    some (block.take offset ++ data ++ block.drop (offset + data.length))
  else none

/-- The body of the loop of `reverse` for index `n`: the three `memcpy`
calls that exchange the members `n` and `count - n - 1`, the latter computed
in `size_t`. -/
def reverse_swap (block : List Byte) (count size n : Nat) : Option (List Byte) :=
  let other := (count + 2 ^ 64 - n - 1) % 2 ^ 64
  match memcpy_from block (n * size) size with
  | none => none
  | some tmp =>
    match memcpy_from block (other * size) size with
    | none => none
    | some src =>
      match memcpy_to block (n * size) src with
      | none => none
      | some block => memcpy_to block (other * size) tmp

/-- The loop `for(n = 0; n < size / 2; ++n)` of `reverse` from index `n` on,
with `passes` passes left to make. -/
def reverse_loop (count size : Nat) : Nat → Nat → List Byte → Option (List Byte)
  | 0, _, block => some block
  | passes + 1, n, block =>
    match reverse_swap block count size n with
    | none => none
    | some block => reverse_loop count size passes (n + 1) block

/-- `reverse(array, count, size)` on the block of `count * size` bytes that
holds the array: the block afterwards, `none` when a `memcpy` reaches outside
the block. -/
def reverse (array : List Byte) (count size : Nat) : Option (List Byte) :=
  reverse_loop count size (size / 2) 0 array

/-- Specification: the member at index `i` of an array of members of `size`
bytes. -/
def member (array : List Byte) (size i : Nat) : List Byte :=
  (array.drop (i * size)).take size

/-- Modelled from the spec: `sftp.h` is not in src.
`SSH_FILEXFER_ATTR_SIZE`. -/
def SSH_FILEXFER_ATTR_SIZE : Nat := 0x1
/-- Modelled from the spec: `sftp.h` is not in src.
`SSH_FILEXFER_ATTR_MODIFYTIME`. -/
def SSH_FILEXFER_ATTR_MODIFYTIME : Nat := 0x20
/-- Modelled from the spec: `sftp.h` is not in src.
`SSH_FILEXFER_ATTR_SUBSECOND_TIMES`. -/
def SSH_FILEXFER_ATTR_SUBSECOND_TIMES : Nat := 0x100

/-- The fields of `struct sftpattr` the comparators read.
Modelled from the spec: the declaration of `struct sftpattr` is not in src;
`valid` is the attribute mask, `size` a `u64`, the modification time
seconds and nanoseconds (section 3, attributes). -/
structure sftpattr where
  valid : Nat
  size : Nat
  mtime_seconds : Int
  mtime_nanoseconds : Nat
  name : List Byte
  deriving DecidableEq, Repr

/-- `strcmp` of the C library on the bytes of two strings, each ending at
its first NUL or at the end of the list: zero for equal strings, else the
difference of the first two bytes that differ. -/
def strcmp : List Byte → List Byte → Int
  | [], [] => 0
  | [], b :: _ => -(b.val : Int)
  | a :: _, [] => (a.val : Int)
  | a :: as, b :: bs =>
    if a = b then (if a = 0 then 0 else strcmp as bs)
    else (a.val : Int) - (b.val : Int)

/-- `sort_by_name`. -/
def sort_by_name (a b : sftpattr) : Int := strcmp a.name b.name

/-- `sort_by_size`. -/
def sort_by_size (a b : sftpattr) : Int :=
  if a.valid &&& b.valid &&& SSH_FILEXFER_ATTR_SIZE ≠ 0 then
    if a.size < b.size then -1
    else if a.size > b.size then 1
    else sort_by_name a b
  else sort_by_name a b

/-- `sort_by_mtime`. -/
def sort_by_mtime (a b : sftpattr) : Int :=
  if a.valid &&& b.valid &&& SSH_FILEXFER_ATTR_MODIFYTIME ≠ 0 then
    if a.mtime_seconds < b.mtime_seconds then -1
    else if a.mtime_seconds > b.mtime_seconds then 1
    else if a.valid &&& b.valid &&& SSH_FILEXFER_ATTR_SUBSECOND_TIMES ≠ 0 then
      if a.mtime_nanoseconds < b.mtime_nanoseconds then -1
      else if a.mtime_nanoseconds > b.mtime_nanoseconds then 1
      else sort_by_name a b
    else sort_by_name a b
  else sort_by_name a b

/-- A directory entry as the listing code sees it: the name and what
`wcswidth(wname, SIZE_MAX)` reports for it, the number of columns or -1 when
the name holds a character that cannot be printed. -/
structure LsEntry where
  name : String
  width : Int
  deriving DecidableEq, Repr

/-- The `maxnamewidth` bookkeeping of the READDIR loop of `cmd_ls` (source
lines 767-775) over the names of a directory: `w` is a `size_t`, so a width
of -1 arrives as 2^64 - 1. -/
def ls_maxnamewidth (include_dotfiles : Bool) : List LsEntry → Nat → Nat
  | [], maxnamewidth => maxnamewidth
  | e :: rest, maxnamewidth =>
    let w := (e.width % 2 ^ 64).toNat
    if include_dotfiles = true ∨ e.name.data.head? ≠ some '.' then
      ls_maxnamewidth include_dotfiles rest (if w > maxnamewidth then w else maxnamewidth)
    else ls_maxnamewidth include_dotfiles rest maxnamewidth

/-- The column count of the multi-column listing (source lines 847-848):
`cols = (terminal_width + 1) / (maxnamewidth + 1); if(!cols) cols = 1;` with
`terminal_width` an `int` and the division made in `size_t`; `none` for a
division by zero. -/
def ls_cols (terminal_width : Int) (maxnamewidth : Nat) : Option Nat :=
  if (maxnamewidth + 1) % 2 ^ 64 = 0 then none
  else
    let cols := ((terminal_width + 1) % 2 ^ 64).toNat / ((maxnamewidth + 1) % 2 ^ 64)
    some (if cols = 0 then 1 else cols)

/-- The row count: `rows = (nallattrs + cols - 1) / cols` in `size_t`. -/
def ls_rows (nallattrs cols : Nat) : Nat := ((nallattrs + cols - 1) % 2 ^ 64) / cols

/-- The inner loop `for(m = 0; m < cols && (i = n + m * rows) < nallattrs;
++m)` of the listing from column `m` on, with `left = cols - m` columns to
go: the indices of the entries printed in row `n`. -/
def ls_row (nallattrs rows n : Nat) : Nat → Nat → List Nat
  | 0, _ => []
  | left + 1, m =>
    if (n + m * rows) % 2 ^ 64 < nallattrs then
      (n + m * rows) % 2 ^ 64 :: ls_row nallattrs rows n left (m + 1)
    else []

/-- The multi-column listing of `cmd_ls` (source lines 847-872): for each
row the indices of the entries printed in it, left to right; `none` for a
division by zero. -/
def ls_columns (terminal_width : Int) (maxnamewidth nallattrs : Nat) :
    Option (List (List Nat)) :=
  match ls_cols terminal_width maxnamewidth with
  | none => none
  | some cols =>
    some ((List.range (ls_rows nallattrs cols)).map fun n =>
      ls_row nallattrs (ls_rows nallattrs cols) n cols 0)

/-- The arity check of `process` (source lines 1923-1927) for a command
with `minargs` and `maxargs`: whether the handler is called with `ac`
arguments. -/
def arity_ok (minargs maxargs ac : Int) : Bool :=
  !(decide (ac < minargs) || decide (ac > maxargs))

/-- What the argument handling at the head of `cmd_get` and `cmd_put` gets
out of `av`: `preserve`, the first path (`remote` in `cmd_get`, `local` in
`cmd_put`) and, when `ac` is then not 0, the second one.  A path is `none`
when the pointer read is the null pointer that ends `av` or lies behind
it. -/
structure PathArgs where
  preserve : Bool
  first : Option String
  second_given : Bool
  second : Option String
  deriving DecidableEq, Repr

/-- The head of `cmd_get` (source lines 1166-1177): `-P`, `remote = *av++`,
and `local = *av++` when `ac` is not 0 then (otherwise `basename(remote)`).
`av` holds the `ac` arguments. -/
def cmd_get_args (av : List String) : PathArgs :=
  let ac : Int := av.length
  let preserve := decide (av.head? = some "-P")
  let ac := if preserve = true then ac - 1 else ac
  let av := if preserve = true then av.drop 1 else av
  let remote := av.head?
  let av := av.drop 1
  let ac := ac - 1
  if ac ≠ 0 then
    { preserve := preserve, first := remote, second_given := true, second := av.head? }
  else { preserve := preserve, first := remote, second_given := false, second := none }

/-- The head of `cmd_put` (source lines 1413-1424): `-P`, `local = *av++`,
and `remote = *av++` when `ac` is not 0 then (otherwise `basename(local)`).
`av` holds the `ac` arguments. -/
def cmd_put_args (av : List String) : PathArgs :=
  let ac : Int := av.length
  let preserve := decide (av.head? = some "-P")
  let ac := if preserve = true then ac - 1 else ac
  let av := if preserve = true then av.drop 1 else av
  let localpath := av.head?
  let av := av.drop 1
  let ac := ac - 1
  if ac ≠ 0 then
    { preserve := preserve, first := localpath, second_given := true, second := av.head? }
  else { preserve := preserve, first := localpath, second_given := false, second := none }

/-- Specification: the record has a valid size. -/
def has_size (a : sftpattr) : Prop := a.valid &&& SSH_FILEXFER_ATTR_SIZE ≠ 0

/-- Specification: the record has a valid modification time. -/
def has_mtime (a : sftpattr) : Prop := a.valid &&& SSH_FILEXFER_ATTR_MODIFYTIME ≠ 0

/-- Specification: the times of the record have valid nanoseconds. -/
def has_subsecond (a : sftpattr) : Prop :=
  a.valid &&& SSH_FILEXFER_ATTR_SUBSECOND_TIMES ≠ 0

/-! ## Request builders: lemmas and claims -/

theorem and_ne_zero_iff_common_bit (x m : Nat) :
    x &&& m ≠ 0 ↔ ∃ i, x.testBit i = true ∧ m.testBit i = true := by
  constructor
  · intro h
    obtain ⟨i, hi⟩ := Nat.ne_zero_implies_bit_true h
    rw [Nat.testBit_and, Bool.and_eq_true] at hi
    exact ⟨i, hi⟩
  · rintro ⟨i, hx, hm⟩ h0
    have : (x &&& m).testBit i = true := by rw [Nat.testBit_and, hx, hm]; rfl
    rw [h0, Nat.zero_testBit] at this
    exact Bool.noConfusion this

theorem testBit_not32 (m i : Nat) (hm : m < 2 ^ 32) :
    (not32 m).testBit i = (decide (i < 32) && !m.testBit i) := by
  have h : not32 m = 2 ^ 32 - (m + 1) := by unfold not32; omega
  rw [h, Nat.testBit_two_pow_sub_succ hm]

theorem testBit_high_of_lt (x i : Nat) (hx : x < 2 ^ 32) (hi : 32 ≤ i) : x.testBit i = false :=
  Nat.testBit_lt_two_pow (lt_of_lt_of_le hx (Nat.pow_le_pow_right (by decide) hi))

theorem and_not32_ne_zero_iff (x m : Nat) (hx : x < 2 ^ 32) (hm : m < 2 ^ 32) :
    x &&& not32 m ≠ 0 ↔ hasBitOutside x m := by
  rw [and_ne_zero_iff_common_bit]
  constructor
  · rintro ⟨i, hxi, hmi⟩
    rw [testBit_not32 m i hm] at hmi
    simp at hmi
    exact ⟨i, hxi, hmi.2⟩
  · rintro ⟨i, hxi, hmi⟩
    refine ⟨i, hxi, ?_⟩
    rw [testBit_not32 m i hm, hmi]
    have : i < 32 := by
      by_contra hge
      rw [testBit_high_of_lt x i hx (by omega)] at hxi
      exact Bool.noConfusion hxi
    simp [this]

theorem and_or_ne_zero_iff (x a b : Nat) :
    x &&& (a ||| b) ≠ 0 ↔ (x &&& a ≠ 0 ∨ x &&& b ≠ 0) := by
  rw [and_ne_zero_iff_common_bit, and_ne_zero_iff_common_bit, and_ne_zero_iff_common_bit]
  constructor
  · rintro ⟨i, hx, hab⟩
    rw [Nat.testBit_or, Bool.or_eq_true] at hab
    rcases hab with h | h
    · exact Or.inl ⟨i, hx, h⟩
    · exact Or.inr ⟨i, hx, h⟩
  · rintro (⟨i, hx, h⟩ | ⟨i, hx, h⟩)
    · exact ⟨i, hx, by rw [Nat.testBit_or, h]; rfl⟩
    · exact ⟨i, hx, by rw [Nat.testBit_or, h, Bool.or_true]⟩

theorem open_future_some (flags p q : Nat) (h : open_future flags p = some q) : q = p := by
  unfold open_future at h
  split_ifs at h
  exact (Option.some.inj h).symm

theorem open_disposition_some (flags p q : Nat) (h : open_disposition flags p = some q) :
    q = p ||| documented_disposition (flags &&& SSH_FXF_ACCESS_DISPOSITION) := by
  unfold open_disposition at h
  unfold documented_disposition
  simp only [] at h
  split_ifs at h with h1 h2 h3 h4 h5
  · rw [if_pos h1]; exact (Option.some.inj h).symm
  · rw [if_neg h1, if_pos h2]; exact (Option.some.inj h).symm
  · rw [if_neg h1, if_neg h2, if_pos h3]; exact (Option.some.inj h).symm
  · rw [if_neg h1, if_neg h2, if_neg h3, Nat.or_zero]; exact (Option.some.inj h).symm

theorem open_pflags_documented (version da flags p : Nat)
    (h : open_pflags version da flags = some p) : p = documented_pflags da flags := by
  unfold open_pflags at h
  have happ := and_or_ne_zero_iff flags SSH_FXF_APPEND_DATA SSH_FXF_APPEND_DATA_ATOMIC
  unfold documented_pflags hasAny
  simp only [← happ]
  simp only [] at h
  split at h
  · exact Option.noConfusion h
  · rename_i q hd
    have hq := open_disposition_some _ _ _ hd
    split_ifs at h hq ⊢ <;>
      first
        | exact Option.noConfusion h
        | (have hp := open_future_some _ _ _ h
           rw [hp, hq]
           try simp only [Nat.zero_or, Nat.or_zero])

theorem open_disposition_none_iff (flags p : Nat) :
    open_disposition flags p = none ↔
      (flags &&& SSH_FXF_ACCESS_DISPOSITION) ∉
        [SSH_FXF_CREATE_NEW, SSH_FXF_CREATE_TRUNCATE, SSH_FXF_OPEN_EXISTING,
         SSH_FXF_OPEN_OR_CREATE] := by
  unfold open_disposition
  simp only []
  split_ifs <;>
    simp_all [SSH_FXF_CREATE_NEW, SSH_FXF_CREATE_TRUNCATE, SSH_FXF_OPEN_EXISTING,
      SSH_FXF_OPEN_OR_CREATE, SSH_FXF_TRUNCATE_EXISTING]

theorem open_future_none_iff (flags p : Nat) :
    open_future flags p = none ↔ flags &&& not32 translatable_flags ≠ 0 := by
  unfold open_future translatable_flags
  split_ifs with h <;> simp [h]

theorem open_pflags_none_iff (version da flags : Nat) :
    open_pflags version da flags = none ↔
      ((flags &&& SSH_FXF_ACCESS_DISPOSITION) ∉
        [SSH_FXF_CREATE_NEW, SSH_FXF_CREATE_TRUNCATE, SSH_FXF_OPEN_EXISTING,
         SSH_FXF_OPEN_OR_CREATE])
      ∨ (flags &&& SSH_FXF_TEXT_MODE ≠ 0 ∧ version < 4)
      ∨ flags &&& not32 translatable_flags ≠ 0 := by
  unfold open_pflags
  simp only []
  split
  · rename_i hd
    rw [open_disposition_none_iff] at hd
    simp [hd]
  · rename_i q hd
    have hd2 : ¬ (flags &&& SSH_FXF_ACCESS_DISPOSITION) ∉
        [SSH_FXF_CREATE_NEW, SSH_FXF_CREATE_TRUNCATE, SSH_FXF_OPEN_EXISTING,
         SSH_FXF_OPEN_OR_CREATE] := by
      rw [← open_disposition_none_iff flags _, hd]
      exact fun h => Option.noConfusion h
    split_ifs with h1 h2 <;> simp only [open_future_none_iff] <;> tauto

theorem hasAny_or_left (a b m : Nat) (h : hasAny a m) : hasAny (a ||| b) m := by
  unfold hasAny at *
  rw [and_ne_zero_iff_common_bit] at *
  obtain ⟨i, h1, h2⟩ := h
  exact ⟨i, by rw [Nat.testBit_or, h1]; rfl, h2⟩

theorem hasAny_or_right (a b m : Nat) (h : hasAny b m) : hasAny (a ||| b) m := by
  rw [Nat.or_comm]
  exact hasAny_or_left b a m h

theorem sftp_open_some_eq (version : Nat) (cwd : String) (id : Nat)
    (path : String) (desired_access flags : Nat) (attrs : List Nat) (req : Request)
    (hv : version = 3 ∨ version = 4)
    (hsent : sftp_open version cwd id path desired_access flags attrs = some req) :
    req = [.u8 SSH_FXP_OPEN, .u32 id, .path (resolvepath cwd path),
           .u32 (documented_pflags desired_access flags), .attrs attrs] := by
  have hle : version ≤ 4 := by omega
  unfold sftp_open at hsent
  rw [if_pos hle] at hsent
  split at hsent
  · exact Option.noConfusion hsent
  · rename_i p hp
    rw [← open_pflags_documented version desired_access flags p hp]
    exact (Option.some.inj hsent).symm

/-- C4: for protocol versions 3 and 4, whenever `sftp_open` sends a request,
the `pflags` word in it is exactly the union the spec documents: READ and
WRITE for the two data access bits, the bits of the disposition, APPEND
for either append flag and TEXT for text mode, and nothing else. -/
theorem sftp_open_sends_documented_pflags (version : Nat) (cwd : String) (id : Nat)
    (path : String) (desired_access flags : Nat) (attrs : List Nat) (req : Request)
    (hv : version = 3 ∨ version = 4)
    (hsent : sftp_open version cwd id path desired_access flags attrs = some req) :
    req = [.u8 SSH_FXP_OPEN, .u32 id, .path (resolvepath cwd path),
           .u32 (documented_pflags desired_access flags), .attrs attrs] :=
  sftp_open_some_eq version cwd id path desired_access flags attrs req hv hsent

/-- Witness for `sftp_open_sends_documented_pflags`: `get` on a version 3
server opens with READ_DATA|READ_ATTRIBUTES and OPEN_EXISTING. -/
theorem sftp_open_sends_documented_pflags_witness :
    ((3 : Nat) = 3 ∨ (3 : Nat) = 4) ∧
    sftp_open 3 "/home" 7 "f" 0x81 2 [] =
      some [.u8 3, .u32 7, .path "/home/f", .u32 1, .attrs []] ∧
    ([.u8 3, .u32 7, .path "/home/f", .u32 1, .attrs []] : Request) =
      [.u8 SSH_FXP_OPEN, .u32 7, .path (resolvepath "/home" "f"),
       .u32 (documented_pflags 0x81 2), .attrs []] :=
  ⟨Or.inl rfl, by decide,
   sftp_open_sends_documented_pflags 3 "/home" 7 "f" 0x81 2 [] _ (Or.inl rfl) (by decide)⟩

theorem sftp_open_none_iff (version : Nat) (cwd : String) (id : Nat)
    (path : String) (desired_access flags : Nat) (attrs : List Nat)
    (hflags : flags < 2 ^ 32) (hv : version = 3 ∨ version = 4) :
    sftp_open version cwd id path desired_access flags attrs = none ↔
      (flags &&& SSH_FXF_ACCESS_DISPOSITION = SSH_FXF_TRUNCATE_EXISTING
        ∨ (flags &&& SSH_FXF_ACCESS_DISPOSITION) ∉
            [SSH_FXF_CREATE_NEW, SSH_FXF_CREATE_TRUNCATE, SSH_FXF_OPEN_EXISTING,
             SSH_FXF_OPEN_OR_CREATE, SSH_FXF_TRUNCATE_EXISTING])
      ∨ (hasAny flags SSH_FXF_TEXT_MODE ∧ version = 3)
      ∨ hasBitOutside flags translatable_flags := by
  have hle : version ≤ 4 := by omega
  have hnone : sftp_open version cwd id path desired_access flags attrs = none ↔
      open_pflags version desired_access flags = none := by
    unfold sftp_open
    rw [if_pos hle]
    split
    · rename_i h; simp [h]
    · rename_i p h; simp [h]
  rw [hnone, open_pflags_none_iff,
    and_not32_ne_zero_iff flags translatable_flags hflags (by decide)]
  unfold hasAny
  have h3 : version < 4 ↔ version = 3 := by omega
  rw [h3]
  simp only [List.mem_cons, List.mem_singleton, List.not_mem_nil, or_false, not_or]
  have hT : SSH_FXF_TRUNCATE_EXISTING ≠ SSH_FXF_CREATE_NEW ∧
      SSH_FXF_TRUNCATE_EXISTING ≠ SSH_FXF_CREATE_TRUNCATE ∧
      SSH_FXF_TRUNCATE_EXISTING ≠ SSH_FXF_OPEN_EXISTING ∧
      SSH_FXF_TRUNCATE_EXISTING ≠ SSH_FXF_OPEN_OR_CREATE := by decide
  constructor
  · rintro (h | h | h)
    · by_cases ht : flags &&& SSH_FXF_ACCESS_DISPOSITION = SSH_FXF_TRUNCATE_EXISTING
      · exact Or.inl (Or.inl ht)
      · exact Or.inl (Or.inr ⟨h.1, h.2.1, h.2.2.1, h.2.2.2, ht⟩)
    · exact Or.inr (Or.inl h)
    · exact Or.inr (Or.inr h)
  · rintro ((h | h) | h | h)
    · rw [h]; exact Or.inl hT
    · exact Or.inl ⟨h.1, h.2.1, h.2.2.1, h.2.2.2.1⟩
    · exact Or.inr (Or.inl h)
    · exact Or.inr (Or.inr h)

/-- C5: for protocol versions 3 and 4 `sftp_open` returns an error without
sending anything exactly when the disposition is TRUNCATE_EXISTING or not a
defined value, or TEXT_MODE is asked of version 3, or `flags` has a bit
outside the disposition field, APPEND_DATA, APPEND_DATA_ATOMIC and
TEXT_MODE; for versions 5 and 6 it always sends, with `desired_access` and
`flags` as given. -/
theorem sftp_open_local_failure_iff (version : Nat) (cwd : String) (id : Nat)
    (path : String) (desired_access flags : Nat) (attrs : List Nat)
    (hflags : flags < 2 ^ 32) :
    (version = 3 ∨ version = 4 →
      (sftp_open version cwd id path desired_access flags attrs = none ↔
        (flags &&& SSH_FXF_ACCESS_DISPOSITION = SSH_FXF_TRUNCATE_EXISTING
          ∨ (flags &&& SSH_FXF_ACCESS_DISPOSITION) ∉
              [SSH_FXF_CREATE_NEW, SSH_FXF_CREATE_TRUNCATE, SSH_FXF_OPEN_EXISTING,
               SSH_FXF_OPEN_OR_CREATE, SSH_FXF_TRUNCATE_EXISTING])
        ∨ (hasAny flags SSH_FXF_TEXT_MODE ∧ version = 3)
        ∨ hasBitOutside flags translatable_flags)) ∧
    (version = 5 ∨ version = 6 →
      sftp_open version cwd id path desired_access flags attrs =
        some [.u8 SSH_FXP_OPEN, .u32 id, .path (resolvepath cwd path),
              .u32 desired_access, .u32 flags, .attrs attrs]) := by
  constructor
  · intro hv
    exact sftp_open_none_iff version cwd id path desired_access flags attrs hflags hv
  · intro hv
    have hgt : ¬ version ≤ 4 := by omega
    unfold sftp_open
    rw [if_neg hgt]

/-- Witness for `sftp_open_local_failure_iff`: TRUNCATE_EXISTING on
version 3, and an ordinary open on version 5. -/
theorem sftp_open_local_failure_iff_witness :
    (4 : Nat) < 2 ^ 32 ∧
    sftp_open 3 "/home" 7 "f" 1 4 [] = none ∧
    sftp_open 5 "/home" 7 "f" 1 4 [] =
      some [.u8 SSH_FXP_OPEN, .u32 7, .path "/home/f", .u32 1, .u32 4, .attrs []] :=
  ⟨by decide,
   ((sftp_open_local_failure_iff 3 "/home" 7 "f" 1 4 [] (by decide)).1 (Or.inl rfl)).2
     (Or.inl (Or.inl (by decide))),
   (sftp_open_local_failure_iff 5 "/home" 7 "f" 1 4 [] (by decide)).2 (Or.inl rfl)⟩

/-- C6, the claim as stated fails: on version 3 the open request of `get`,
whose `desired_access` is READ_DATA|READ_ATTRIBUTES, is sent with `pflags` READ
alone, the same request as for READ_DATA; READ_ATTRIBUTES has no counterpart
and no error is returned. -/
theorem sftp_open_ignores_read_attributes :
    hasAny (ACE4_READ_DATA ||| ACE4_READ_ATTRIBUTES) ACE4_READ_ATTRIBUTES ∧
    cmd_get_open 3 "/home" 7 "f" false [] =
      some [.u8 SSH_FXP_OPEN, .u32 7, .path "/home/f", .u32 SSH_FXF_READ, .attrs []] ∧
    sftp_open 3 "/home" 7 "f" ACE4_READ_DATA SSH_FXF_OPEN_EXISTING [] =
      some [.u8 SSH_FXP_OPEN, .u32 7, .path "/home/f", .u32 SSH_FXF_READ, .attrs []] := by
  decide

theorem open_pflags_access_mask (version da flags : Nat) :
    open_pflags version da flags =
      open_pflags version (da &&& (ACE4_READ_DATA ||| ACE4_WRITE_DATA)) flags := by
  have hr : (da &&& (ACE4_READ_DATA ||| ACE4_WRITE_DATA)) &&& ACE4_READ_DATA
      = da &&& ACE4_READ_DATA := by
    rw [Nat.and_assoc]; rfl
  have hw : (da &&& (ACE4_READ_DATA ||| ACE4_WRITE_DATA)) &&& ACE4_WRITE_DATA
      = da &&& ACE4_WRITE_DATA := by
    rw [Nat.and_assoc]; rfl
  unfold open_pflags
  rw [hr, hw]

/-- C6 as amended: for protocol versions 3 and 4 no bit of `flags` is dropped
silently.  When a request is sent, `flags` has no bit outside the translated
ones, the disposition is one of the four that have a `pflags` form, each
append flag shows as APPEND and text mode as TEXT (on version 4 only), and
READ_DATA and WRITE_DATA show as READ and WRITE.  All other bits of
`desired_access` are ignored: the outcome is the same without them. -/
theorem sftp_open_flags_never_dropped (version : Nat) (cwd : String) (id : Nat)
    (path : String) (desired_access flags : Nat) (attrs : List Nat) (req : Request)
    (hv : version = 3 ∨ version = 4) (hflags : flags < 2 ^ 32)
    (hsent : sftp_open version cwd id path desired_access flags attrs = some req) :
    (∃ pflags, req = [.u8 SSH_FXP_OPEN, .u32 id, .path (resolvepath cwd path),
                      .u32 pflags, .attrs attrs] ∧
      (hasAny desired_access ACE4_READ_DATA → hasAny pflags SSH_FXF_READ) ∧
      (hasAny desired_access ACE4_WRITE_DATA → hasAny pflags SSH_FXF_WRITE) ∧
      (hasAny flags SSH_FXF_APPEND_DATA → hasAny pflags SSH_FXF_APPEND) ∧
      (hasAny flags SSH_FXF_APPEND_DATA_ATOMIC → hasAny pflags SSH_FXF_APPEND) ∧
      (hasAny flags SSH_FXF_TEXT_MODE → hasAny pflags SSH_FXF_TEXT ∧ version = 4)) ∧
    ¬ hasBitOutside flags translatable_flags ∧
    (flags &&& SSH_FXF_ACCESS_DISPOSITION) ∈
      [SSH_FXF_CREATE_NEW, SSH_FXF_CREATE_TRUNCATE, SSH_FXF_OPEN_EXISTING,
       SSH_FXF_OPEN_OR_CREATE] ∧
    sftp_open version cwd id path
        (desired_access &&& (ACE4_READ_DATA ||| ACE4_WRITE_DATA)) flags attrs = some req := by
  have hreq := sftp_open_some_eq version cwd id path desired_access flags attrs req hv hsent
  have hnot : ¬ (sftp_open version cwd id path desired_access flags attrs = none) := by
    rw [hsent]; exact fun h => Option.noConfusion h
  rw [sftp_open_none_iff version cwd id path desired_access flags attrs hflags hv] at hnot
  simp only [not_or] at hnot
  obtain ⟨⟨hd1, hd2⟩, htext, hout⟩ := hnot
  refine ⟨⟨documented_pflags desired_access flags, hreq, ?_, ?_, ?_, ?_, ?_⟩, hout, ?_, ?_⟩
  · intro h
    unfold documented_pflags
    rw [if_pos h]
    exact hasAny_or_left _ _ _ (hasAny_or_left _ _ _ (hasAny_or_left _ _ _
      (hasAny_or_left _ _ _ (by decide))))
  · intro h
    unfold documented_pflags
    rw [if_pos h]
    exact hasAny_or_left _ _ _ (hasAny_or_left _ _ _ (hasAny_or_left _ _ _
      (hasAny_or_right _ _ _ (by decide))))
  · intro h
    unfold documented_pflags
    rw [if_pos (Or.inl h)]
    exact hasAny_or_left _ _ _ (hasAny_or_right _ _ _ (by decide))
  · intro h
    unfold documented_pflags
    rw [if_pos (Or.inr h)]
    exact hasAny_or_left _ _ _ (hasAny_or_right _ _ _ (by decide))
  · intro h
    refine ⟨?_, ?_⟩
    · unfold documented_pflags
      rw [if_pos h]
      exact hasAny_or_right _ _ _ (by decide)
    · rcases hv with hv | hv
      · exact absurd ⟨h, hv⟩ htext
      · exact hv
  · by_contra hmem
    apply hd2
    simp only [List.mem_cons, List.mem_singleton, List.not_mem_nil, or_false, not_or] at hmem ⊢
    exact ⟨hmem.1, hmem.2.1, hmem.2.2.1, hmem.2.2.2, hd1⟩
  · rw [← hsent]
    unfold sftp_open
    rw [← open_pflags_access_mask, if_pos (show version ≤ 4 by omega),
      if_pos (show version ≤ 4 by omega)]

/-- Witness for `sftp_open_flags_never_dropped`: a text-mode append open on
version 4. -/
theorem sftp_open_flags_never_dropped_witness :
    ((4 : Nat) = 3 ∨ (4 : Nat) = 4) ∧ (0x2B : Nat) < 2 ^ 32 ∧
    sftp_open 4 "/home" 7 "f" 0x102 0x2B [] =
      some [.u8 3, .u32 7, .path "/home/f", .u32 0x4E, .attrs []] ∧
    sftp_open 4 "/home" 7 "f" (0x102 &&& (ACE4_READ_DATA ||| ACE4_WRITE_DATA)) 0x2B [] =
      some [.u8 3, .u32 7, .path "/home/f", .u32 0x4E, .attrs []] :=
  ⟨Or.inr rfl, by decide, by decide,
   (sftp_open_flags_never_dropped 4 "/home" 7 "f" 0x102 0x2B [] _ (Or.inr rfl) (by decide)
      (by decide)).2.2.2⟩

/-- C7: on protocol versions up to 4 `sftp_rename` returns an error without
sending anything exactly when `flags` has a bit other than ATOMIC; in every
other case it sends RENAME with the two resolved paths, followed by the
flags word exactly from version 5 on.  So `mv -o x y` sends nothing on
version 3. -/
theorem sftp_rename_request (version : Nat) (cwd : String) (id : Nat)
    (oldpath newpath : String) (flags : Nat) (hflags : flags < 2 ^ 32) :
    (sftp_rename version cwd id oldpath newpath flags = none ↔
      version ≤ 4 ∧ hasBitOutside flags SSH_FXF_RENAME_ATOMIC) ∧
    (∀ req, sftp_rename version cwd id oldpath newpath flags = some req →
      req = [.u8 SSH_FXP_RENAME, .u32 id, .path (resolvepath cwd oldpath),
             .path (resolvepath cwd newpath)]
            ++ (if 5 ≤ version then [.u32 flags] else [])) ∧
    cmd_mv 3 cwd id ["-o", oldpath, newpath] = none := by
  have hiff := and_not32_ne_zero_iff flags SSH_FXF_RENAME_ATOMIC hflags (by decide)
  refine ⟨?_, ?_, rfl⟩
  · unfold sftp_rename
    rw [← hiff]
    by_cases h : version ≤ 4 ∧ flags &&& not32 SSH_FXF_RENAME_ATOMIC ≠ 0
    · rw [if_pos h]
      exact ⟨fun _ => h, fun _ => rfl⟩
    · rw [if_neg h]
      exact ⟨fun hh => Option.noConfusion hh, fun hh => absurd hh h⟩
  · intro req hreq
    unfold sftp_rename at hreq
    by_cases h : version ≤ 4 ∧ flags &&& not32 SSH_FXF_RENAME_ATOMIC ≠ 0
    · rw [if_pos h] at hreq
      exact Option.noConfusion hreq
    · rw [if_neg h] at hreq
      exact (Option.some.inj hreq).symm

/-- Witness for `sftp_rename_request`: an atomic rename on version 3. -/
theorem sftp_rename_request_witness :
    (2 : Nat) < 2 ^ 32 ∧
    sftp_rename 3 "/home" 9 "x" "y" 2 =
      some [.u8 SSH_FXP_RENAME, .u32 9, .path "/home/x", .path "/home/y"] ∧
    cmd_mv 3 "/home" 9 ["-o", "x", "y"] = none :=
  ⟨by decide,
   by decide,
   (sftp_rename_request 3 "/home" 9 "x" "y" 2 (by decide)).2.2⟩

/-- C8: for `symlink a b` the request carries the target `a` and then the
resolved link path of `b` when `quirk_reverse_symlink` is set and the protocol
version is 3, and the resolved link path and then the target in every other
configuration. -/
theorem sftp_link_symlink_operands (version : Nat) (quirk_reverse_symlink : Bool)
    (cwd : String) (id : Nat) (a b : String) :
    (sftp_link version quirk_reverse_symlink cwd id a b true).map requestPaths =
      some (if quirk_reverse_symlink = true ∧ version = 3 then [a, resolvepath cwd b]
            else [resolvepath cwd b, a]) := by
  unfold sftp_link
  rw [if_neg (by simp)]
  by_cases hq : quirk_reverse_symlink = true ∧ version = 3
  · rw [if_pos hq, if_pos hq]
    have h6 : ¬ version ≥ 6 := by omega
    simp [requestPaths, h6]
  · rw [if_neg hq, if_neg hq]
    by_cases h6 : version ≥ 6 <;> simp [requestPaths, h6]

/-- C9: from protocol version 6 on `sftp_link` sends LINK with a trailing
byte, 1 for a symbolic and 0 for a hard link; below version 6 it sends
SYMLINK without a trailing byte for a symbolic link, and for a hard link it
returns an error without sending anything. -/
theorem sftp_link_opcode (version : Nat) (quirk_reverse_symlink : Bool)
    (cwd : String) (id : Nat) (targetpath linkpath : String) (send_symlink : Bool) :
    sftp_link version quirk_reverse_symlink cwd id targetpath linkpath send_symlink =
      if 6 ≤ version then
        some [.u8 SSH_FXP_LINK, .u32 id, .path (resolvepath cwd linkpath),
              .path (if send_symlink then targetpath else resolvepath cwd targetpath),
              .u8 (if send_symlink then 1 else 0)]
      else if send_symlink = true then
        (if quirk_reverse_symlink = true ∧ version = 3 then
          some [.u8 SSH_FXP_SYMLINK, .u32 id, .path targetpath, .path (resolvepath cwd linkpath)]
         else
          some [.u8 SSH_FXP_SYMLINK, .u32 id, .path (resolvepath cwd linkpath), .path targetpath])
      else none := by
  by_cases h6 : 6 ≤ version
  · have h3 : ¬ version = 3 := by omega
    have hlt : ¬ version < 6 := by omega
    unfold sftp_link
    simp [h6, h3, hlt]
  · have hlt : version < 6 := by omega
    rw [if_neg h6]
    cases send_symlink with
    | false => simp [sftp_link, hlt]
    | true =>
      unfold sftp_link
      by_cases hq : quirk_reverse_symlink = true ∧ version = 3 <;>
        simp [h6, hq]

/-- C10, the claim as stated fails: asked for version 3, a server that
answers VERSION(6) makes the client speak version 6, not min(3, 6) = 3. -/
theorem negotiate_exceeds_request :
    negotiate 3 6 = some 6 ∧ min 3 6 = 3 ∧ negotiate 3 6 ≠ some (min 3 6) := by
  decide

/-- C10 as amended: for every requested version in 3..6 the session protocol
version is the number in the server's VERSION reply when that is 3, 4, 5 or
6, and negotiation fails otherwise; whenever the reply does not exceed the
requested version this is the minimum of the two. -/
theorem negotiate_follows_server (sftpversion : Int) (reply : Nat)
    (hclient : 3 ≤ sftpversion ∧ sftpversion ≤ 6) :
    negotiate sftpversion reply = (if 3 ≤ reply ∧ reply ≤ 6 then some reply else none) ∧
    ((reply : Int) ≤ sftpversion →
      negotiate sftpversion reply =
        (if 3 ≤ min sftpversion reply then some (min sftpversion reply).toNat else none)) := by
  have hc : ¬ (sftpversion < 3 ∨ sftpversion > 6) := by omega
  have h1 : negotiate sftpversion reply = (if 3 ≤ reply ∧ reply ≤ 6 then some reply else none) := by
    unfold negotiate
    rw [if_neg hc]
    split_ifs <;> first | omega | simp_all
  refine ⟨h1, ?_⟩
  intro hle
  rw [h1, min_eq_right hle]
  have : (3 ≤ reply ∧ reply ≤ 6) ↔ (3 : Int) ≤ (reply : Int) := by omega
  simp only [this, Int.toNat_ofNat]

/-- Witness for `negotiate_follows_server`: INIT(6) answered by VERSION(3). -/
theorem negotiate_follows_server_witness :
    ((3 : Int) ≤ 6 ∧ (6 : Int) ≤ 6) ∧ negotiate 6 3 = some 3 :=
  ⟨by decide, (negotiate_follows_server 6 3 (by decide)).1⟩

/-! ## Inbound text translation: lemmas -/

theorem charToInt_of_comparable (signedChar : Bool) (b : Byte)
    (h : signedChar = false ∨ b.val < 128) : charToInt signedChar b = (b.val : Int) := by
  unfold charToInt
  rcases h with h | h
  · rw [if_neg (by simp [h])]
  · rw [if_neg (by omega)]

theorem cstrAt_of_lt (newline : List Byte) (i : Nat) (h : i < newline.length) :
    cstrAt newline i = newline[i] := by
  unfold cstrAt
  simp [List.getD_eq_getElem?_getD, List.getElem?_eq_getElem h]

theorem cstrAt_length (newline : List Byte) : cstrAt newline newline.length = 0 := by
  unfold cstrAt
  simp [List.getD_eq_getElem?_getD]

theorem write_translated_append (signedChar : Bool) (newline : List Byte) (t : Translator)
    (a b : List Byte) :
    write_translated signedChar newline t (a ++ b) =
      write_translated signedChar newline (write_translated signedChar newline t a) b := by
  unfold write_translated
  rw [List.foldl_append]

theorem write_translated_chunks (signedChar : Bool) (newline : List Byte)
    (chunks : List (List Byte)) (t : Translator) :
    chunks.foldl (write_translated signedChar newline) t =
      write_translated signedChar newline t chunks.flatten := by
  induction chunks generalizing t with
  | nil => rfl
  | cons c cs ih =>
    rw [List.foldl_cons, ih, List.flatten_cons, write_translated_append]

/-- A byte that continues the match: the state advances, or a whole newline
has been seen and a line feed is written. -/
theorem write_translated_step_match (signedChar : Bool) (newline : List Byte)
    (hnul : ∀ b ∈ newline, b ≠ 0)
    (hcmp : signedChar = false ∨ ∀ b ∈ newline, b.val < 128)
    (k : Nat) (out : List Byte) (hk : k < newline.length) :
    write_translated_step signedChar newline ⟨k, out⟩ newline[k] =
      if k + 1 = newline.length then ⟨0, out ++ [10]⟩ else ⟨k + 1, out⟩ := by
  have hmem : newline[k] ∈ newline := List.getElem_mem _
  have hc : charToInt signedChar newline[k] = (newline[k].val : Int) :=
    charToInt_of_comparable signedChar _ (hcmp.imp id fun h => h _ hmem)
  unfold write_translated_step
  simp only []
  rw [cstrAt_of_lt newline k hk, hc, if_pos rfl]
  by_cases hlast : k + 1 = newline.length
  · rw [if_pos hlast, hlast, cstrAt_length, if_pos rfl]
  · have hlt : k + 1 < newline.length := by omega
    rw [if_neg hlast, cstrAt_of_lt newline (k + 1) hlt,
      if_neg (hnul _ (List.getElem_mem _))]

/-- A byte other than the first byte of newline, met outside a match, is
copied. -/
theorem write_translated_step_literal (signedChar : Bool) (newline : List Byte)
    (hcmp : signedChar = false ∨ ∀ b ∈ newline, b.val < 128)
    (c : Byte) (out : List Byte) (hc : some c ≠ newline.head?) (hne : newline ≠ []) :
    write_translated_step signedChar newline ⟨0, out⟩ c = ⟨0, out ++ [c]⟩ := by
  have hpos : 0 < newline.length := List.length_pos.mpr hne
  have hmem : newline[0] ∈ newline := List.getElem_mem _
  have h0 : charToInt signedChar newline[0] = (newline[0].val : Int) :=
    charToInt_of_comparable signedChar _ (hcmp.imp id fun h => h _ hmem)
  have hdiff : c ≠ newline[0] := by
    intro h
    apply hc
    rw [h, List.head?_eq_getElem?, List.getElem?_eq_getElem hpos]
  unfold write_translated_step
  simp only []
  rw [cstrAt_of_lt newline 0 hpos, h0]
  have : ¬ ((c.val : Int) = (newline[0].val : Int)) := by
    intro h
    exact hdiff (Fin.ext (by exact_mod_cast h))
  rw [if_neg this, if_neg (by simp)]

/-- Feeding the bytes of newline from position `k` on, short of its end,
only advances the state. -/
theorem write_translated_partial (signedChar : Bool) (newline : List Byte)
    (hnul : ∀ b ∈ newline, b ≠ 0)
    (hcmp : signedChar = false ∨ ∀ b ∈ newline, b.val < 128)
    (j k : Nat) (out : List Byte) (hk : k + j < newline.length) :
    write_translated signedChar newline ⟨k, out⟩ ((newline.drop k).take j) = ⟨k + j, out⟩ := by
  induction j generalizing k with
  | zero => simp [write_translated]
  | succ j ih =>
    have hklt : k < newline.length := by omega
    have hdrop : newline.drop k = newline[k] :: newline.drop (k + 1) :=
      List.drop_eq_getElem_cons hklt
    rw [hdrop, List.take_succ_cons]
    unfold write_translated
    rw [List.foldl_cons, write_translated_step_match signedChar newline hnul hcmp k out hklt,
      if_neg (by omega)]
    have := ih (k + 1) (by omega)
    unfold write_translated at this
    rw [this]
    congr 1
    omega

/-- Feeding the whole of newline outside a match writes one line feed. -/
theorem write_translated_whole (signedChar : Bool) (newline : List Byte)
    (hne : newline ≠ []) (hnul : ∀ b ∈ newline, b ≠ 0)
    (hcmp : signedChar = false ∨ ∀ b ∈ newline, b.val < 128) (out : List Byte) :
    write_translated signedChar newline ⟨0, out⟩ newline = ⟨0, out ++ [10]⟩ := by
  have hpos : 0 < newline.length := List.length_pos.mpr hne
  have hlast : newline.drop (newline.length - 1) = [newline[newline.length - 1]] := by
    rw [List.drop_eq_getElem_cons (by omega), List.drop_eq_nil_of_le (by omega)]
  have hsplit : (newline.drop 0).take (newline.length - 1)
      ++ [newline[newline.length - 1]] = newline := by
    rw [List.drop_zero, ← hlast, List.take_append_drop]
  have key : write_translated signedChar newline ⟨0, out⟩
      ((newline.drop 0).take (newline.length - 1) ++ [newline[newline.length - 1]]) =
      ⟨0, out ++ [10]⟩ := by
    rw [write_translated_append,
      write_translated_partial signedChar newline hnul hcmp (newline.length - 1) 0 out
        (by omega)]
    unfold write_translated
    rw [List.foldl_cons, List.foldl_nil, Nat.zero_add,
      write_translated_step_match signedChar newline hnul hcmp _ out (by omega),
      if_pos (by omega)]
  rw [hsplit] at key
  exact key

/-- Server data without a broken-off partial match is translated piece by
piece; a trailing proper prefix of newline is left pending. -/
theorem write_translated_pieces (signedChar : Bool) (newline : List Byte)
    (hne : newline ≠ []) (hnul : ∀ b ∈ newline, b ≠ 0)
    (hcmp : signedChar = false ∨ ∀ b ∈ newline, b.val < 128)
    (pieces : List (Option Byte)) (hpieces : ∀ b, some b ∈ pieces → some b ≠ newline.head?)
    (p : List Byte) (hp : p <+: newline) (hpne : p ≠ newline) (out : List Byte) :
    write_translated signedChar newline ⟨0, out⟩ (renderPieces newline pieces ++ p) =
      ⟨p.length, out ++ localPieces pieces⟩ := by
  induction pieces generalizing out with
  | nil =>
    have hlen : p.length < newline.length := by
      rcases Nat.lt_or_ge p.length newline.length with h | h
      · exact h
      · exact absurd (hp.eq_of_length_le h) hpne
    have hpt : p = (newline.drop 0).take p.length := by
      rw [List.drop_zero]
      exact (List.prefix_iff_eq_take.mp hp)
    simp only [renderPieces, localPieces, List.nil_append, List.append_nil]
    conv_lhs => rw [hpt]
    have := write_translated_partial signedChar newline hnul hcmp p.length 0 out (by omega)
    rw [Nat.zero_add] at this
    rw [this]
  | cons piece rest ih =>
    have hrest : ∀ b, some b ∈ rest → some b ≠ newline.head? :=
      fun b hb => hpieces b (List.mem_cons_of_mem _ hb)
    cases piece with
    | none =>
      simp only [renderPieces, localPieces, List.append_assoc]
      rw [write_translated_append, write_translated_whole signedChar newline hne hnul hcmp,
        ih hrest]
      simp
    | some b =>
      have hb : some b ≠ newline.head? := hpieces b (List.mem_cons_self _ _)
      simp only [renderPieces, localPieces, List.cons_append]
      unfold write_translated
      rw [List.foldl_cons, write_translated_step_literal signedChar newline hcmp b out hb hne]
      have := ih hrest (out ++ [b])
      unfold write_translated at this
      rw [this]
      simp

/-- The local file after a text-mode GET of data without a broken-off
partial match. -/
theorem get_text_pieces (signedChar : Bool) (newline : List Byte)
    (hne : newline ≠ []) (hnul : ∀ b ∈ newline, b ≠ 0)
    (hcmp : signedChar = false ∨ ∀ b ∈ newline, b.val < 128)
    (pieces : List (Option Byte)) (hpieces : ∀ b, some b ∈ pieces → some b ≠ newline.head?)
    (p : List Byte) (hp : p <+: newline) (hpne : p ≠ newline)
    (chunks : List (List Byte)) (hchunks : chunks.flatten = renderPieces newline pieces ++ p) :
    get_text signedChar newline chunks = localPieces pieces ++ p := by
  unfold get_text write_translated_init
  rw [write_translated_chunks, hchunks,
    write_translated_pieces signedChar newline hne hnul hcmp pieces hpieces p hp hpne]
  unfold write_translated_done
  simp only []
  by_cases h0 : p.length = 0
  · have : p = [] := List.length_eq_zero.mp h0
    subst this
    simp
  · rw [if_pos h0]
    simp only [List.nil_append]
    rw [← List.prefix_iff_eq_take.mp hp]

/-! ## Specification of the replacement: lemmas -/

theorem replaceFrom_skip (newline : List Byte) (xs rest : List Byte) :
    replaceFrom newline xs.length (xs ++ rest) = replaceFrom newline 0 rest := by
  induction xs with
  | nil => rfl
  | cons x xs ih =>
    simp only [List.length_cons, List.cons_append]
    cases hr : xs ++ rest <;> simp [replaceFrom, ← hr, ih]

theorem replaceFrom_short (newline s : List Byte) (h : s.length < newline.length) :
    replaceFrom newline 0 s = s := by
  induction s with
  | nil => rfl
  | cons c rest ih =>
    have hnot : ¬ (newline.isPrefixOf (c :: rest) = true) := by
      intro hpre
      have := (List.isPrefixOf_iff_prefix.mp hpre).length_le
      omega
    rw [replaceFrom, if_neg hnot, ih (by simp only [List.length_cons] at h; omega)]

theorem replaceFrom_whole (newline rest : List Byte) (hne : newline ≠ []) :
    replaceFrom newline 0 (newline ++ rest) = 10 :: replaceFrom newline 0 rest := by
  cases hnl : newline with
  | nil => exact absurd hnl hne
  | cons c tl =>
    have hpre : (c :: tl).isPrefixOf (c :: (tl ++ rest)) = true :=
      List.isPrefixOf_iff_prefix.mpr (List.prefix_append (c :: tl) rest)
    rw [List.cons_append, replaceFrom, if_pos hpre]
    simp only [List.length_cons, Nat.add_sub_cancel]
    rw [replaceFrom_skip]

theorem replaceFrom_literal (newline rest : List Byte) (b : Byte)
    (hne : newline ≠ []) (hb : some b ≠ newline.head?) :
    replaceFrom newline 0 (b :: rest) = b :: replaceFrom newline 0 rest := by
  have hnot : ¬ (newline.isPrefixOf (b :: rest) = true) := by
    intro hpre
    have hp := List.isPrefixOf_iff_prefix.mp hpre
    cases hnl : newline with
    | nil => exact hne hnl
    | cons c tl =>
      rw [hnl] at hp hb
      obtain ⟨t, ht⟩ := hp
      simp only [List.cons_append, List.cons.injEq] at ht
      apply hb
      simp [ht.1]
  rw [replaceFrom, if_neg hnot]

theorem replaceNewline_pieces (newline : List Byte) (hne : newline ≠ [])
    (pieces : List (Option Byte)) (hpieces : ∀ b, some b ∈ pieces → some b ≠ newline.head?)
    (p : List Byte) (hp : p <+: newline) (hpne : p ≠ newline) :
    replaceNewline newline (renderPieces newline pieces ++ p) = localPieces pieces ++ p := by
  unfold replaceNewline
  induction pieces with
  | nil =>
    have hlen : p.length < newline.length := by
      rcases Nat.lt_or_ge p.length newline.length with h | h
      · exact h
      · exact absurd (hp.eq_of_length_le h) hpne
    simp only [renderPieces, localPieces, List.nil_append]
    exact replaceFrom_short newline p hlen
  | cons piece rest ih =>
    have hrest : ∀ b, some b ∈ rest → some b ≠ newline.head? :=
      fun b hb => hpieces b (List.mem_cons_of_mem _ hb)
    cases piece with
    | none =>
      simp only [renderPieces, localPieces, List.append_assoc, List.cons_append]
      rw [replaceFrom_whole newline _ hne, ih hrest]
    | some b =>
      simp only [renderPieces, localPieces, List.cons_append]
      rw [replaceFrom_literal newline _ b hne (hpieces b (List.mem_cons_self _ _)), ih hrest]

/-- Text-mode GET of server data in which no partial match of newline is
broken off writes the data with every newline replaced by a line feed,
however the data is cut into DATA payloads. -/
theorem get_text_unbroken (signedChar : Bool) (newline : List Byte)
    (hne : newline ≠ []) (hnul : ∀ b ∈ newline, b ≠ 0)
    (hcmp : signedChar = false ∨ ∀ b ∈ newline, b.val < 128)
    (pieces : List (Option Byte)) (hpieces : ∀ b, some b ∈ pieces → some b ≠ newline.head?)
    (p : List Byte) (hp : p <+: newline) (hpne : p ≠ newline)
    (chunks : List (List Byte)) (hchunks : chunks.flatten = renderPieces newline pieces ++ p) :
    get_text signedChar newline chunks = replaceNewline newline chunks.flatten := by
  rw [get_text_pieces signedChar newline hne hnul hcmp pieces hpieces p hp hpne chunks hchunks,
    hchunks, replaceNewline_pieces newline hne pieces hpieces p hp hpne]

/-! ## Inbound text translation: claims -/

/-- C1, the code at the failing input: newline CR LF, the default, which has
no proper self-overlap, and the server data `A` CR `B` in one payload.  The
local file receives `A` CR where the data with every newline replaced is
`A` CR `B`: the byte that breaks off the partial match is lost.  Where plain
`char` is signed a newline byte from 0x80 up is compared as a negative
number and never matched: with the newline 0x85 the data `A` 0x85 `B` reach
the file unchanged. -/
theorem get_text_default_newline_loses_byte :
    noSelfOverlap [13, 10] = true ∧
    get_text false [13, 10] [[65, 13, 66]] = [65, 13] ∧
    get_text true [13, 10] [[65, 13, 66]] = [65, 13] ∧
    replaceNewline [13, 10] [65, 13, 66] = [65, 13, 66] ∧
    noSelfOverlap [133] = true ∧
    get_text true [133] [[65, 133, 66]] = [65, 133, 66] ∧
    replaceNewline [133] [65, 133, 66] = [65, 10, 66] := by
  decide

/-- The translator restarts from state 0 after a partial match that failed,
which its comment justifies by the assumption that the newline sequence holds
no repetitions.  The sequence `aab` has no proper self-overlap but repeats
its first byte: for the server data `aaab` the local file receives `aab`
where the data with its newline replaced is `a` and a line feed. -/
theorem get_text_aab_repetition :
    noSelfOverlap [97, 97, 98] = true ∧
    get_text false [97, 97, 98] [[97, 97, 97, 98]] = [97, 97, 98] ∧
    get_text true [97, 97, 98] [[97, 97, 97, 98]] = [97, 97, 98] ∧
    replaceNewline [97, 97, 98] [97, 97, 97, 98] = [97, 10] := by
  decide

/-! ## Outbound text translation -/

/-- Once a line feed has been read with less room left than a newline
sequence needs, `ungetc` restores the input and nothing else changes, so no
number of further passes leaves the loop. -/
theorem put_fill_stuck (newline : List Byte) (fuel : Nat) (rest : List Byte) (left : Nat)
    (buf : List Byte) (hpos : 0 < left) (hsmall : left < newline.length) :
    put_fill newline fuel (10 :: rest) left buf = none := by
  induction fuel with
  | zero => rfl
  | succ fuel ih =>
    rw [put_fill, if_pos hpos]
    simp only [if_true]
    rw [if_neg (by omega)]
    exact ih

/-- The same after any run of bytes other than the line feed that leaves a
remainder of the buffer too small for a newline sequence. -/
theorem put_fill_stuck_after (newline : List Byte) (xs rest : List Byte)
    (hxs : ∀ x ∈ xs, x ≠ 10) (fuel left : Nat) (buf : List Byte)
    (hroom : xs.length < left) (hsmall : left - xs.length < newline.length) :
    put_fill newline fuel (xs ++ 10 :: rest) left buf = none := by
  induction xs generalizing fuel left buf with
  | nil =>
    exact put_fill_stuck newline fuel rest left buf (by simpa using hroom) (by simpa using hsmall)
  | cons x xs ih =>
    cases fuel with
    | zero => rfl
    | succ fuel =>
      have hx : x ≠ 10 := hxs x (List.mem_cons_self _ _)
      simp only [List.length_cons] at hroom hsmall
      rw [List.cons_append, put_fill, if_pos (by omega)]
      rw [if_neg hx]
      exact ih (fun y hy => hxs y (List.mem_cons_of_mem _ hy)) fuel (left - 1) (buf ++ [x])
        (by omega) (by omega)

/-- C3, the code at the failing input: with a 64 byte buffer and newline
CR LF, a file of 63 bytes `x` followed by a line feed keeps the chunk loop
running for ever; the chunk never ends and the line feed is never handed to a
next WRITE. -/
theorem put_fill_never_ends (fuel : Nat) :
    put_fill [13, 10] fuel (List.replicate 63 120 ++ [10]) 64 [] = none :=
  put_fill_stuck_after [13, 10] (List.replicate 63 120) []
    (fun x hx => by rw [List.eq_of_mem_replicate hx]; decide) fuel 64 []
    (by simp) (by simp)

/-- C2, the code at the failing input: with a 64 byte buffer and newline
CR LF, `put` of a file of 63 bytes `x` followed by a line feed never comes to
its end and sends no WRITE, where the claim asks for the payloads to add up
to the 63 bytes followed by CR LF. -/
theorem cmd_put_text_never_ends (fuel : Nat) :
    cmd_put_text [13, 10] 64 fuel (List.replicate 63 120 ++ [10]) = none := by
  cases fuel with
  | zero => rfl
  | succ fuel =>
    rw [cmd_put_text,
      put_fill_stuck_after [13, 10] (List.replicate 63 120) []
        (fun x hx => by rw [List.eq_of_mem_replicate hx]; decide) (fuel + 1) 64 []
        (by simp) (by simp)]

/-! ## Start-up, reply frames and the command line: lemmas and claims -/

/-- C11, the code at the failing input: a VERSION reply whose `newline`
extension is `aa` is accepted and `aa`, which overlaps itself, becomes the
session newline; only the empty value is refused. -/
theorem parse_extensions_accepts_overlap :
    parse_extensions [(name_newline, [97, 97])] default_newline = some [97, 97] ∧
    noSelfOverlap [97, 97] = false ∧
    parse_extensions [(name_newline, [])] default_newline = none := by
  decide

theorem newid_eq (latestid : Nat) (h : latestid < 2 ^ 32) :
    newid latestid = latestid % (2 ^ 32 - 1) + 1 := by
  have h2 : latestid < 4294967296 := by simpa using h
  unfold newid newid_pass
  norm_num
  split_ifs <;> omega

theorem newid_after_succ (latestid k : Nat) (h : latestid < 2 ^ 32) :
    newid_after latestid (k + 1) = (latestid + k) % (2 ^ 32 - 1) + 1 := by
  induction k with
  | zero => exact newid_eq latestid h
  | succ k ih =>
    rw [newid_after, ih, newid_eq _ (by norm_num; omega)]
    norm_num
    omega

theorem newid_after_injective (latestid i j : Nat) (h : latestid < 2 ^ 32)
    (hij : i < j) (hrun : j - i < 2 ^ 32 - 1) :
    newid_after latestid (i + 1) ≠ newid_after latestid (j + 1) := by
  rw [newid_after_succ latestid i h, newid_after_succ latestid j h]
  norm_num at hrun ⊢
  omega

theorem newid_loop_eq (fuel latestid : Nat) (hfuel : 2 ≤ fuel) :
    newid_loop fuel latestid = some (newid latestid) := by
  obtain ⟨f, rfl⟩ : ∃ f, fuel = f + 2 := ⟨fuel - 2, by omega⟩
  unfold newid
  by_cases h0 : newid_pass latestid = 0
  · have h1 : newid_pass (newid_pass latestid) ≠ 0 := by
      rw [h0]; unfold newid_pass; norm_num
    rw [newid_loop, if_pos h0, newid_loop, if_neg h1, if_pos h0]
  · rw [newid_loop, if_neg h0, if_neg h0]

/-- C13: whenever `getresponse` returns a type for a frame instead of
ending the session, the id matched (or none was asked for, or the frame is a
VERSION) and the type is the expected one (or none was expected, or it is a
STATUS). -/
theorem getresponse_returns_checked (expected : Int) (expected_id : Nat)
    (frame : List Byte) (k : Nat)
    (hret : getresponse expected expected_id frame = some k) :
    (expected_id = 0 ∨ k = SSH_FXP_VERSION ∨ frame_id frame = some expected_id) ∧
    (expected ≤ 0 ∨ (k : Int) = expected ∨ k = SSH_FXP_STATUS) := by
  unfold getresponse at hret
  cases frame with
  | nil => simp [parse_uint8] at hret
  | cons b rest =>
    simp only [parse_uint8] at hret
    have hk : (if expected > 0 ∧ ((b.val : Nat) : Int) ≠ expected then
        if b.val = SSH_FXP_STATUS then
          match status (b :: rest) with
          | none => none
          | some _ => some b.val
        else none
      else some b.val) = some k →
        k = b.val ∧ (expected ≤ 0 ∨ (k : Int) = expected ∨ k = SSH_FXP_STATUS) := by
      intro h
      by_cases hc : expected > 0 ∧ ((b.val : Nat) : Int) ≠ expected
      · rw [if_pos hc] at h
        by_cases hs : b.val = SSH_FXP_STATUS
        · rw [if_pos hs] at h
          cases hst : status (b :: rest) with
          | none => rw [hst] at h; exact Option.noConfusion h
          | some v =>
            rw [hst] at h
            have hkb : b.val = k := Option.some.inj h
            exact ⟨hkb.symm, Or.inr (Or.inr (hkb ▸ hs))⟩
        · rw [if_neg hs] at h; exact Option.noConfusion h
      · rw [if_neg hc] at h
        have hkb : b.val = k := Option.some.inj h
        refine ⟨hkb.symm, ?_⟩
        rw [← hkb]
        by_cases hpos : expected > 0
        · right; left
          by_contra hne
          exact hc ⟨hpos, hne⟩
        · left; omega
    by_cases hv : b.val ≠ SSH_FXP_VERSION
    · rw [if_pos hv] at hret
      cases hp : parse_uint32 rest with
      | none => rw [hp] at hret; exact Option.noConfusion hret
      | some r =>
        obtain ⟨id, tl⟩ := r
        rw [hp] at hret
        simp only [] at hret
        by_cases hid : expected_id ≠ 0 ∧ id ≠ expected_id
        · rw [if_pos hid] at hret; exact Option.noConfusion hret
        · rw [if_neg hid] at hret
          refine ⟨?_, (hk hret).2⟩
          by_cases h0 : expected_id = 0
          · exact Or.inl h0
          · right; right
            have : id = expected_id := by
              by_contra hne
              exact hid ⟨h0, hne⟩
            unfold frame_id
            simp [hp, this]
    · rw [if_neg hv] at hret
      have hkv := hk hret
      refine ⟨?_, hkv.2⟩
      right; left
      rw [hkv.1]
      exact not_not.mp hv

/-- Witness for `getresponse_returns_checked`: a STATUS frame with id 7
received where a NAME with id 7 was expected is returned to the caller. -/
theorem getresponse_returns_checked_witness :
    getresponse 104 7 [101, 0, 0, 0, 7, 0, 0, 0, 2, 0, 0, 0, 1, 65, 0, 0, 0, 0] = some 101 ∧
    ((7 = 0 ∨ 101 = SSH_FXP_VERSION ∨
        frame_id [101, 0, 0, 0, 7, 0, 0, 0, 2, 0, 0, 0, 1, 65, 0, 0, 0, 0] = some 7) ∧
      ((104 : Int) ≤ 0 ∨ ((101 : Nat) : Int) = 104 ∨ 101 = SSH_FXP_STATUS)) :=
  ⟨by decide,
   getresponse_returns_checked 104 7
     [101, 0, 0, 0, 7, 0, 0, 0, 2, 0, 0, 0, 1, 65, 0, 0, 0, 0] 101 (by decide)⟩

/-- C19: `resolvepath` returns a name that begins with a slash as it is, and
for every other name, the empty one included, `cwd`, a slash and the name. -/
theorem resolvepath_spec (cwd name : String) :
    resolvepath cwd name =
      (if name.data.head? = some '/' then name else cwd ++ "/" ++ name) ∧
    resolvepath cwd ("/" ++ name) = "/" ++ name ∧
    resolvepath cwd "" = cwd ++ "/" := by
  refine ⟨rfl, ?_, ?_⟩
  · unfold resolvepath
    rw [if_pos]
    simp [String.data_append]
  · unfold resolvepath
    rw [if_neg (by simp)]
    simp

/-- C20, the code at the failing input: for the line `put "a b" c` `split`
yields five arguments, `put`, the empty string, `a`, `b"` and `c`: the scan
of the quoted segment starts on the opening quote and ends there at once. -/
theorem split_quoted_segment :
    split "put \"a b\" c" = some ["put", "", "a", "b\"", "c"] ∧
    split "put \"a b\" c" ≠ some ["put", "a b", "c"] := by
  decide

/-! ## The transfer engine of `cmd_get`: lemmas -/

theorem find_slot_spec (id : Nat) (l : List outstanding_read) (n : Nat)
    (h : find_slot id l = some n) : ∃ r, l[n]? = some r ∧ r.id = id := by
  induction l generalizing n with
  | nil => exact Option.noConfusion h
  | cons r rest ih =>
    rw [find_slot] at h
    by_cases hr : r.id = id
    · rw [if_pos hr] at h
      have : n = 0 := (Option.some.inj h).symm
      subst this
      exact ⟨r, by simp, hr⟩
    · rw [if_neg hr] at h
      obtain ⟨n', hn', rfl⟩ := Option.map_eq_some'.mp h
      obtain ⟨r', hr', hid⟩ := ih n' hn'
      exact ⟨r', by simpa using hr', hid⟩

theorem find_slot_of_mem (id : Nat) (l : List outstanding_read)
    (h : ∃ r ∈ l, r.id = id) : ∃ n, find_slot id l = some n := by
  induction l with
  | nil => obtain ⟨r, hr, _⟩ := h; exact absurd hr (List.not_mem_nil r)
  | cons r rest ih =>
    rw [find_slot]
    by_cases hr : r.id = id
    · exact ⟨0, by rw [if_pos hr]⟩
    · rw [if_neg hr]
      obtain ⟨x, hx, hxid⟩ := h
      rcases List.mem_cons.mp hx with rfl | hx'
      · exact absurd hxid hr
      · obtain ⟨n, hn⟩ := ih ⟨x, hx', hxid⟩
        exact ⟨n + 1, by rw [hn]; rfl⟩

theorem occupied_cons_free (r : outstanding_read) (rest : List outstanding_read)
    (h : r.id = 0) : occupied (r :: rest) = occupied rest := by
  unfold occupied
  rw [List.filter_cons, if_neg (by simp [h])]

theorem occupied_cons_used (r : outstanding_read) (rest : List outstanding_read)
    (h : r.id ≠ 0) : occupied (r :: rest) = r :: occupied rest := by
  unfold occupied
  rw [List.filter_cons, if_pos (by simp [h])]

/-- Filling the free slot found adds the new request to the occupied
slots. -/
theorem occupied_set_free (l : List outstanding_read) (n : Nat) (x : outstanding_read)
    (h : find_slot 0 l = some n) (hx : x.id ≠ 0) :
    List.Perm (occupied (l.set n x)) (x :: occupied l) := by
  induction l generalizing n with
  | nil => exact Option.noConfusion h
  | cons r rest ih =>
    rw [find_slot] at h
    by_cases hr : r.id = 0
    · rw [if_pos hr] at h
      have : n = 0 := (Option.some.inj h).symm
      subst this
      rw [List.set_cons_zero, occupied_cons_used x rest hx, occupied_cons_free r rest hr]
    · rw [if_neg hr] at h
      obtain ⟨n', hn', rfl⟩ := Option.map_eq_some'.mp h
      rw [List.set_cons_succ, occupied_cons_used r _ hr, occupied_cons_used r rest hr]
      exact ((ih n' hn').cons r).trans (List.Perm.swap x r _)

/-- Freeing a slot never adds an occupied slot. -/
theorem occupied_set_zero_sublist (l : List outstanding_read) (n o : Nat) :
    List.Sublist (occupied (l.set n ⟨0, o⟩)) (occupied l) := by
  induction l generalizing n with
  | nil => simp [occupied]
  | cons r rest ih =>
    cases n with
    | zero =>
      rw [List.set_cons_zero, occupied_cons_free ⟨0, o⟩ rest rfl]
      by_cases hr : r.id = 0
      · rw [occupied_cons_free r rest hr]
      · rw [occupied_cons_used r rest hr]
        exact List.sublist_cons_self r _
    | succ n =>
      rw [List.set_cons_succ]
      by_cases hr : r.id = 0
      · rw [occupied_cons_free r _ hr, occupied_cons_free r rest hr]
        exact ih n
      · rw [occupied_cons_used r _ hr, occupied_cons_used r rest hr]
        exact (ih n).cons₂ r

/-- Freeing the slot found for a reply removes just that slot from the
occupied ones. -/
theorem occupied_clear (l : List outstanding_read) (id n o : Nat)
    (h : find_slot id l = some n) (hid : id ≠ 0) :
    ∃ r, l[n]? = some r ∧ r.id = id ∧
      List.Perm (occupied l) (r :: occupied (l.set n ⟨0, o⟩)) := by
  induction l generalizing n with
  | nil => exact Option.noConfusion h
  | cons r rest ih =>
    rw [find_slot] at h
    by_cases hr : r.id = id
    · rw [if_pos hr] at h
      have : n = 0 := (Option.some.inj h).symm
      subst this
      refine ⟨r, by simp, hr, ?_⟩
      rw [List.set_cons_zero, occupied_cons_free ⟨0, o⟩ rest rfl,
        occupied_cons_used r rest (by rw [hr]; exact hid)]
    · rw [if_neg hr] at h
      obtain ⟨n', hn', rfl⟩ := Option.map_eq_some'.mp h
      obtain ⟨r', hr', hid', hperm⟩ := ih n' hn'
      refine ⟨r', by simpa using hr', hid', ?_⟩
      rw [List.set_cons_succ]
      by_cases h0 : r.id = 0
      · rw [occupied_cons_free r rest h0, occupied_cons_free r _ h0]
        exact hperm
      · rw [occupied_cons_used r rest h0, occupied_cons_used r _ h0]
        exact (hperm.cons r).trans (List.Perm.swap r' r _)

theorem newid_ne_zero (latestid : Nat) : newid latestid ≠ 0 := by
  unfold newid newid_pass
  split_ifs with h
  · rw [h]; norm_num
  · exact h

theorem newid_lt (latestid : Nat) : newid latestid < 2 ^ 32 := by
  unfold newid newid_pass
  split_ifs <;> exact Nat.mod_lt _ (by norm_num)

/-- What one pass of the sending loop does, field by field. -/
theorem reader_send_some (cfg : GetConfig) (r r' : reader_data)
    (h : reader_send cfg r = some r') :
    r.eof = false ∧ r.outstanding < cfg.nrequests ∧
    ∃ n, find_slot 0 r.reqs = some n ∧
      r' = { r with
        latestid := newid r.latestid
        eof := if (cfg.size + 2 ^ 64 - r.next_offset) % 2 ^ 64 > cfg.buffersize
               then r.eof else true
        reqs := r.reqs.set n ⟨newid r.latestid, r.next_offset⟩
        outstanding := r.outstanding + 1
        next_offset := (r.next_offset + cfg.buffersize) % 2 ^ 64
        sent := r.sent ++ [⟨newid r.latestid, r.next_offset,
          if (cfg.size + 2 ^ 64 - r.next_offset) % 2 ^ 64 > cfg.buffersize
          then cfg.buffersize % 2 ^ 32
          else (cfg.size + 2 ^ 64 - r.next_offset) % 2 ^ 64 % 2 ^ 32⟩]
        pending := r.pending ++ [⟨newid r.latestid, r.next_offset,
          if (cfg.size + 2 ^ 64 - r.next_offset) % 2 ^ 64 > cfg.buffersize
          then cfg.buffersize % 2 ^ 32
          else (cfg.size + 2 ^ 64 - r.next_offset) % 2 ^ 64 % 2 ^ 32⟩] } := by
  unfold reader_send reader_transmit at h
  by_cases hc : r.outstanding < cfg.nrequests ∧ r.eof = false
  · rw [if_pos hc] at h
    refine ⟨hc.2, hc.1, ?_⟩
    cases hf : find_slot 0 r.reqs with
    | none => rw [hf] at h; exact Option.noConfusion h
    | some n =>
      rw [hf] at h
      exact ⟨n, rfl, (Option.some.inj h).symm⟩
  · rw [if_neg hc] at h
    exact Option.noConfusion h

/-- What processing a reply can change. -/
theorem reaper_recv_some (cfg : GetConfig) (r r' : reader_data) (reply : Reply)
    (h : reaper_recv cfg r reply = some r') :
    r.outstanding ≠ 0 ∧ r'.outstanding = r.outstanding - 1 ∧
    r'.sent = r.sent ∧ r'.latestid = r.latestid ∧ r'.pending = r.pending ∧
    r'.next_offset = r.next_offset ∧
    ((r'.reqs = r.reqs ∧ r'.file = r.file ∧ r'.translated = r.translated ∧
        r'.received = r.received ∧
        ((r.failed = true ∧ r'.failed = true ∧ r'.eof = r.eof) ∨
         (r.failed = false ∧ ∃ id code, reply = Reply.status id code ∧
            ((code = SSH_FX_EOF ∧ r'.eof = true ∧ r'.failed = false) ∨
             (code ≠ SSH_FX_EOF ∧ r'.eof = r.eof ∧ r'.failed = true))))) ∨
     (r.failed = false ∧ r'.failed = false ∧ r'.eof = r.eof ∧
        ∃ id payload n, reply = Reply.data id payload ∧ find_slot id r.reqs = some n ∧
          r'.reqs = r.reqs.set n ⟨0, (r.reqs.getD n ⟨0, 0⟩).offset⟩ ∧
          r'.received = r.received ++ [payload] ∧
          (cfg.textmode = true → r'.file = r.file ∧ r'.translated =
              write_translated cfg.signedChar cfg.newline r.translated payload) ∧
          (cfg.textmode = false → r'.translated = r.translated ∧
              r'.file = pwrite r.file payload (r.reqs.getD n ⟨0, 0⟩).offset))) := by
  unfold reaper_recv at h
  by_cases h0 : r.outstanding = 0
  · rw [if_pos h0] at h; exact Option.noConfusion h
  · rw [if_neg h0] at h
    simp only [] at h
    by_cases hf : r.failed = true
    · rw [if_pos hf] at h
      have := (Option.some.inj h).symm
      subst this
      exact ⟨h0, rfl, rfl, rfl, rfl, rfl, Or.inl ⟨rfl, rfl, rfl, rfl, Or.inl ⟨hf, hf, rfl⟩⟩⟩
    · rw [if_neg hf] at h
      have hff : r.failed = false := by simpa using hf
      cases reply with
      | status id code =>
        simp only [] at h
        by_cases hc : code = SSH_FX_EOF
        · rw [if_pos hc] at h
          have := (Option.some.inj h).symm
          subst this
          exact ⟨h0, rfl, rfl, rfl, rfl, rfl, Or.inl ⟨rfl, rfl, rfl, rfl,
            Or.inr ⟨hff, id, code, rfl, Or.inl ⟨hc, rfl, hff⟩⟩⟩⟩
        · rw [if_neg hc] at h
          have := (Option.some.inj h).symm
          subst this
          exact ⟨h0, rfl, rfl, rfl, rfl, rfl, Or.inl ⟨rfl, rfl, rfl, rfl,
            Or.inr ⟨hff, id, code, rfl, Or.inr ⟨hc, rfl, rfl⟩⟩⟩⟩
      | data id payload =>
        simp only [] at h
        cases hs : find_slot id r.reqs with
        | none => rw [hs] at h; exact Option.noConfusion h
        | some n =>
          rw [hs] at h
          simp only [] at h
          have := (Option.some.inj h).symm
          subst this
          refine ⟨h0, ?_, ?_, ?_, ?_, ?_, Or.inr ⟨hff, ?_, ?_, id, payload, n, rfl, hs, ?_, ?_, ?_, ?_⟩⟩
          all_goals (by_cases ht : cfg.textmode = true <;> simp [ht, hff])
      | other t id => exact Option.noConfusion h

theorem get_step_answer_some (cfg : GetConfig) (remote : List Byte) (r r' : reader_data)
    (j : Nat) (a : Answer) (h : get_step cfg remote r (GetEvent.answer j a) = some r') :
    ∃ rq, r.pending[j]? = some rq ∧
      reaper_recv cfg { r with pending := r.pending.eraseIdx j }
        (answer_reply remote rq a) = some r' := by
  unfold get_step at h
  simp only [List.get?_eq_getElem?] at h
  cases hp : r.pending[j]? with
  | none => rw [hp] at h; exact Option.noConfusion h
  | some rq =>
    rw [hp] at h
    exact ⟨rq, rfl, h⟩

theorem get_run_append (cfg : GetConfig) (remote : List Byte) (e1 e2 : List GetEvent)
    (r : reader_data) :
    get_run cfg remote (e1 ++ e2) r =
      match get_run cfg remote e1 r with
      | none => none
      | some r1 => get_run cfg remote e2 r1 := by
  induction e1 generalizing r with
  | nil => rfl
  | cons ev rest ih =>
    rw [List.cons_append, get_run, get_run]
    cases get_step cfg remote r ev with
    | none => rfl
    | some r1 => exact ih r1

/-- A property kept by every event holds after every run. -/
theorem get_run_induction (cfg : GetConfig) (remote : List Byte) (P : reader_data → Prop)
    (events : List GetEvent) (good : GetEvent → Prop)
    (hstep : ∀ r r' ev, good ev → P r → get_step cfg remote r ev = some r' → P r')
    (hgood : ∀ ev ∈ events, good ev)
    (r r' : reader_data) (h0 : P r) (hrun : get_run cfg remote events r = some r') : P r' := by
  induction events generalizing r with
  | nil =>
    rw [get_run] at hrun
    exact (Option.some.inj hrun) ▸ h0
  | cons ev rest ih =>
    rw [get_run] at hrun
    cases hs : get_step cfg remote r ev with
    | none => rw [hs] at hrun; exact Option.noConfusion hrun
    | some r1 =>
      rw [hs] at hrun
      exact ih (fun e he => hgood e (List.mem_cons_of_mem _ he)) r1
        (hstep r r1 ev (hgood ev (List.mem_cons_self _ _)) h0 hs) hrun

theorem GetInv_init (cfg : GetConfig) (start : Nat) : GetInv start (reader_init cfg start) := by
  refine ⟨rfl, rfl, ?_⟩
  have : occupied (reader_init cfg start).reqs = [] := by
    unfold occupied reader_init
    simp only [List.filter_eq_nil_iff]
    intro a ha
    rw [List.eq_of_mem_replicate ha]
    simp
  rw [this]
  exact List.nil_subperm

theorem GetInv_step (cfg : GetConfig) (remote : List Byte) (start : Nat)
    (r r' : reader_data) (ev : GetEvent) (hinv : GetInv start r)
    (h : get_step cfg remote r ev = some r') : GetInv start r' := by
  cases ev with
  | send =>
    obtain ⟨_, _, n, hn, rfl⟩ := reader_send_some cfg r r' h
    refine ⟨?_, ?_, ?_⟩
    · simp only [List.length_append, List.length_singleton]
      rw [newid_after, ← hinv.latestid_eq]
    · simp only [List.length_append, List.length_singleton, List.map_append, List.map_cons,
        List.map_nil, List.range_succ]
      rw [hinv.sent_ids, newid_after, ← hinv.latestid_eq]
    · simp only [List.map_append, List.map_cons, List.map_nil]
      have hp := (occupied_set_free r.reqs n ⟨newid r.latestid, r.next_offset⟩ hn
        (newid_ne_zero _)).map (fun q => q.id)
      refine hp.subperm.trans ?_
      simp only [List.map_cons]
      refine List.Subperm.trans ?_ (List.perm_append_singleton _ _).symm.subperm
      exact (List.subperm_cons _).mpr hinv.slots_sub
  | answer j a =>
    obtain ⟨rq, _, hrecv⟩ := get_step_answer_some cfg remote r r' j a h
    obtain ⟨_, _, hsent, hlatest, _, _, hcase⟩ := reaper_recv_some cfg _ r' _ hrecv
    simp only [] at hsent hlatest hcase
    refine ⟨by rw [hlatest, hsent]; exact hinv.latestid_eq,
      by rw [hsent]; exact hinv.sent_ids, ?_⟩
    rw [hsent]
    rcases hcase with ⟨hreqs, _⟩ | ⟨_, _, _, id, payload, n, _, _, hreqs, _⟩
    · rw [hreqs]; exact hinv.slots_sub
    · rw [hreqs]
      exact ((occupied_set_zero_sublist r.reqs n _).map _).subperm.trans hinv.slots_sub

theorem GetInv_run (cfg : GetConfig) (remote : List Byte) (start : Nat)
    (events : List GetEvent) (r : reader_data)
    (hrun : get_run cfg remote events (reader_init cfg start) = some r) : GetInv start r :=
  get_run_induction cfg remote (GetInv start) events (fun _ => True)
    (fun r r' ev _ hP hs => GetInv_step cfg remote start r r' ev hP hs)
    (fun _ _ => trivial) _ r (GetInv_init cfg start) hrun

/-- The ids of any `2^32 - 1` allocations in a row are pairwise distinct. -/
theorem newid_ids_nodup (start m : Nat) (hstart : start < 2 ^ 32) (hm : m ≤ 2 ^ 32 - 1) :
    ((List.range m).map fun k => newid_after start (k + 1)).Nodup := by
  refine (List.nodup_map_iff_inj_on (List.nodup_range m)).mpr ?_
  intro i hi j hj hij
  rw [List.mem_range] at hi hj
  by_contra hne
  rcases Nat.lt_or_gt_of_ne hne with hlt | hgt
  · exact newid_after_injective start i j hstart hlt (by omega) hij
  · exact newid_after_injective start j i hstart hgt (by omega) hij.symm

/-- As long as no more than `2^32 - 1` READs have been sent in a transfer, the
occupied slots hold pairwise distinct ids. -/
theorem get_slots_nodup (cfg : GetConfig) (remote : List Byte) (start : Nat)
    (events : List GetEvent) (r : reader_data) (hstart : start < 2 ^ 32)
    (hrun : get_run cfg remote events (reader_init cfg start) = some r)
    (hsent : r.sent.length ≤ 2 ^ 32 - 1) :
    ((occupied r.reqs).map fun q => q.id).Nodup := by
  have hinv := GetInv_run cfg remote start events r hrun
  have hnd : (r.sent.map fun q => q.id).Nodup := by
    rw [hinv.sent_ids]
    exact newid_ids_nodup start _ hstart hsent
  obtain ⟨l, hperm, hsub⟩ := hinv.slots_sub
  exact hperm.nodup_iff.mp (hnd.sublist hsub)

/-! ## A transfer across the wrap of the id counter -/

theorem wrap_start :
    ∃ r, get_run wrap_config wrap_remote [GetEvent.send, GetEvent.send]
        (reader_init wrap_config 0) = some r ∧ WrapAt 0 r := by
  refine ⟨_, rfl, ?_⟩
  unfold WrapAt
  refine ⟨?_, ?_, ?_, ?_, ?_, ?_, ?_⟩ <;> decide

theorem wrap_round (n : Nat) (hn : n + 3 < 2 ^ 32) (r : reader_data) (h : WrapAt n r) :
    ∃ r', get_run wrap_config wrap_remote [GetEvent.answer 1 Answer.data, GetEvent.send] r
        = some r' ∧ WrapAt (n + 1) r' := by
  obtain ⟨h1, h2, h3, h4, h5, h6, h7⟩ := h
  obtain ⟨latestid, reqs, next_offset, outstanding, eof, failed, file, translated, sent,
    pending, received⟩ := r
  simp only [] at h1 h2 h3 h4 h5 h6 h7
  subst h1 h2 h3 h4 h5 h6 h7
  have hn' : n + 3 < 4294967296 := by simpa using hn
  have hne : ¬ (1 = n + 2) := by omega
  have hnew : newid (n + 2) = n + 3 := by
    rw [newid_eq _ (by omega)]
    norm_num
    omega
  simp [get_run, get_step, reaper_recv, reader_send, reader_transmit, reader_record,
    find_slot, answer_reply, wrap_config,
    WrapAt, hne, hnew]
  refine ⟨by omega, by omega, fun h => by omega⟩

/-- After the two first READs and `n` rounds, as long as the counter has not
wrapped, the first READ still waits in slot 0 and the latest one in slot 1. -/
theorem wrap_rounds_run (n : Nat) (hn : n + 2 < 2 ^ 32) :
    ∃ r, get_run wrap_config wrap_remote ([GetEvent.send, GetEvent.send] ++ wrap_rounds n)
        (reader_init wrap_config 0) = some r ∧ WrapAt n r := by
  induction n with
  | zero => exact wrap_start
  | succ n ih =>
    obtain ⟨r, hr, hat⟩ := ih (by omega)
    obtain ⟨r', hr', hat'⟩ := wrap_round n (by omega) r hat
    refine ⟨r', ?_, hat'⟩
    rw [wrap_rounds, ← List.append_assoc, get_run_append, hr]
    exact hr'

/-- The round in which the counter wraps: the READ for the last piece gets
the id 1 of the READ that still waits in slot 0. -/
theorem wrap_last_round (n : Nat) (hn : n + 3 = 2 ^ 32) (r : reader_data) (h : WrapAt n r) :
    ∃ r', get_run wrap_config wrap_remote [GetEvent.answer 1 Answer.data, GetEvent.send] r
        = some r' ∧
      r'.reqs = [⟨1, 0⟩, ⟨1, (n + 2) * 64⟩] ∧ r'.outstanding = 2 ∧ r'.eof = true ∧
      r'.failed = false ∧
      r'.pending = [⟨1, 0, 64⟩, ⟨1, (n + 2) * 64, 64⟩] := by
  obtain ⟨h1, h2, h3, h4, h5, h6, h7⟩ := h
  obtain ⟨latestid, reqs, next_offset, outstanding, eof, failed, file, translated, sent,
    pending, received⟩ := r
  simp only [] at h1 h2 h3 h4 h5 h6 h7
  subst h1 h2 h3 h4 h5 h6 h7
  have hn' : n + 3 = 4294967296 := by simpa using hn
  have hne : ¬ (1 = n + 2) := by omega
  have hnew : newid (n + 2) = 1 := by
    rw [newid_eq _ (by omega)]
    norm_num
    omega
  simp [get_run, get_step, reaper_recv, reader_send, reader_transmit, reader_record,
    find_slot, answer_reply, wrap_config,
    hne, hnew]
  refine ⟨rfl, by omega, fun h => by omega⟩

/-- The whole schedule: at its end both slots hold a request with id 1. -/
theorem wrap_schedule_run :
    ∃ r, get_run wrap_config wrap_remote wrap_schedule (reader_init wrap_config 0) = some r ∧
      r.reqs = [⟨1, 0⟩, ⟨1, (2 ^ 32 - 1) * 64⟩] ∧ r.outstanding = 2 ∧ r.eof = true ∧
      r.failed = false ∧
      r.pending = [⟨1, 0, 64⟩, ⟨1, (2 ^ 32 - 1) * 64, 64⟩] := by
  obtain ⟨r, hr, hat⟩ := wrap_rounds_run (2 ^ 32 - 3) (by norm_num)
  obtain ⟨r', hr', hres⟩ := wrap_last_round (2 ^ 32 - 3) (by norm_num) r hat
  refine ⟨r', ?_, hres⟩
  have hsplit : wrap_schedule = ([GetEvent.send, GetEvent.send] ++ wrap_rounds (2 ^ 32 - 3))
      ++ [GetEvent.answer 1 Answer.data, GetEvent.send] := by
    unfold wrap_schedule
    have : (2 ^ 32 - 2 : Nat) = (2 ^ 32 - 3) + 1 := by norm_num
    rw [this, wrap_rounds, List.append_assoc]
  rw [hsplit, get_run_append, hr]
  exact hr'

/-! ## Writing at an offset -/

theorem pwrite_nil (file : List Byte) (offset : Nat) : pwrite file [] offset = file := by
  unfold pwrite
  rw [if_pos rfl]

theorem pwrite_prefix_length (file : List Byte) (offset : Nat) :
    (file.take offset ++ List.replicate (offset - file.length) (0 : Byte)).length = offset := by
  rw [List.length_append, List.length_take, List.length_replicate]
  omega

/-- Inside the range written the file holds the data. -/
theorem pwrite_getElem?_inside (file data : List Byte) (offset i : Nat)
    (hlo : offset ≤ i) (hhi : i < offset + data.length) :
    (pwrite file data offset)[i]? = data[i - offset]? := by
  have hne : data ≠ [] := by
    intro h
    rw [h] at hhi
    simp at hhi
    omega
  have hlen : (file.take offset ++ List.replicate (offset - file.length) (0 : Byte)
      ++ data).length = offset + data.length := by
    rw [List.length_append, pwrite_prefix_length]
  unfold pwrite
  rw [if_neg hne, List.getElem?_append_left (by rw [hlen]; exact hhi),
    List.getElem?_append_right (by rw [pwrite_prefix_length]; exact hlo),
    pwrite_prefix_length]

/-- Outside the range written the bytes the file had stay as they were. -/
theorem pwrite_getElem?_outside (file data : List Byte) (offset i : Nat)
    (hi : i < file.length) (hout : i < offset ∨ offset + data.length ≤ i) :
    (pwrite file data offset)[i]? = file[i]? := by
  unfold pwrite
  by_cases hne : data = []
  · rw [if_pos hne]
  · rw [if_neg hne]
    rcases hout with hlt | hge
    · have hlen : (file.take offset ++ List.replicate (offset - file.length) (0 : Byte)
          ++ data).length = offset + data.length := by
        rw [List.length_append, pwrite_prefix_length]
      rw [List.getElem?_append_left (by rw [hlen]; omega),
        List.getElem?_append_left (by rw [pwrite_prefix_length]; exact hlt),
        List.getElem?_append_left (by rw [List.length_take]; omega),
        List.getElem?_take_of_lt hlt]
    · have hlen : (file.take offset ++ List.replicate (offset - file.length) (0 : Byte)
          ++ data).length = offset + data.length := by
        rw [List.length_append, pwrite_prefix_length]
      rw [List.getElem?_append_right (by rw [hlen]; exact hge), hlen, List.getElem?_drop]
      congr 1
      omega

theorem pwrite_length_le (file data : List Byte) (offset bound : Nat)
    (hfile : file.length ≤ bound) (hdata : offset + data.length ≤ bound) :
    (pwrite file data offset).length ≤ bound := by
  unfold pwrite
  by_cases hne : data = []
  · rw [if_pos hne]; exact hfile
  · rw [if_neg hne, List.length_append, List.length_append, pwrite_prefix_length,
      List.length_drop]
    omega

theorem wrap_remote_last :
    (wrap_remote.drop ((2 ^ 32 - 1) * 64)).take 64 = List.replicate 64 1 := by
  unfold wrap_remote
  have h : (List.replicate ((2 ^ 32 - 1) * 64) (0 : Byte)).length = (2 ^ 32 - 1) * 64 :=
    List.length_replicate _ _
  rw [List.drop_append_of_le_length (by rw [h]), List.drop_of_length_le (by rw [h]),
    List.nil_append, List.take_replicate]
  rfl

theorem wrap_remote_first : (wrap_remote.drop 0).take 64 = List.replicate 64 0 := by
  unfold wrap_remote
  rw [List.drop_zero, List.take_append_of_le_length (by rw [List.length_replicate]; norm_num),
    List.take_replicate]
  congr 1

theorem wrap_remote_head : wrap_remote[0]? = some 0 := by
  unfold wrap_remote
  rw [List.getElem?_append_left (by rw [List.length_replicate]; norm_num),
    List.getElem?_replicate]
  norm_num

/-- The two replies that are left arrive, the one for the last piece first:
both carry id 1, and the last piece is written to offset 0. -/
theorem wrap_tail (r : reader_data)
    (h : r.reqs = [⟨1, 0⟩, ⟨1, (2 ^ 32 - 1) * 64⟩] ∧ r.outstanding = 2 ∧ r.eof = true ∧
      r.failed = false ∧ r.pending = [⟨1, 0, 64⟩, ⟨1, (2 ^ 32 - 1) * 64, 64⟩]) :
    ∃ r', get_run wrap_config wrap_remote
        [GetEvent.answer 1 Answer.data, GetEvent.answer 0 Answer.data] r = some r' ∧
      r'.outstanding = 0 ∧ r'.eof = true ∧ r'.failed = false ∧ r'.file[0]? = some 1 := by
  obtain ⟨h2, h4, h5, h6, h7⟩ := h
  obtain ⟨latestid, reqs, next_offset, outstanding, eof, failed, file, translated, sent,
    pending, received⟩ := r
  simp only [] at h2 h4 h5 h6 h7
  subst h2 h4 h5 h6 h7
  have hfirst : (pwrite file (List.replicate 64 1) 0)[0]? = some 1 := by
    rw [pwrite_getElem?_inside _ _ 0 0 (le_refl 0) (by rw [List.length_replicate]; norm_num),
      List.getElem?_replicate]
    norm_num
  have hlen : 0 < (pwrite file (List.replicate 64 (1 : Byte)) 0).length := by
    by_contra hc
    have : (pwrite file (List.replicate 64 (1 : Byte)) 0)[0]? = none :=
      List.getElem?_eq_none (by omega)
    rw [this] at hfirst
    exact Option.noConfusion hfirst
  have hsecond : (pwrite (pwrite file (List.replicate 64 1) 0) (List.replicate 64 0)
      ((2 ^ 32 - 1) * 64))[0]? = some 1 := by
    rw [pwrite_getElem?_outside _ _ _ 0 hlen (Or.inl (by norm_num))]
    exact hfirst
  have hl := wrap_remote_last
  have hf := wrap_remote_first
  simp only [List.drop_zero] at hf
  generalize List.replicate 64 (1 : Byte) = d1 at hl hsecond
  generalize List.replicate 64 (0 : Byte) = d0 at hf hsecond
  norm_num at hl hsecond
  simp only [get_run, get_step, List.get?_eq_getElem?, List.getElem?_cons_succ,
    List.getElem?_cons_zero, answer_reply, List.eraseIdx_cons_succ, List.eraseIdx_cons_zero]
  norm_num
  rw [hl]
  simp [reaper_recv, find_slot, wrap_config, hf]
  exact hsecond

/-! ## Transfers answered with DATA only -/

theorem perm_cons_eraseIdx {α : Type} (l : List α) (j : Nat) (x : α) (h : l[j]? = some x) :
    l.Perm (x :: l.eraseIdx j) := by
  induction l generalizing j with
  | nil => simp at h
  | cons a rest ih =>
    cases j with
    | zero =>
      simp at h
      subst h
      simp
    | succ j =>
      simp at h
      rw [List.eraseIdx_cons_succ]
      exact ((ih j h).cons a).trans (List.Perm.swap x a _)

theorem GetDataInv_init (cfg : GetConfig) (start : Nat) :
    GetDataInv cfg start (reader_init cfg start) := by
  have hocc : occupied (reader_init cfg start).reqs = [] := by
    unfold occupied reader_init
    simp only [List.filter_eq_nil_iff]
    intro a ha
    rw [List.eq_of_mem_replicate ha]
    simp
  refine ⟨rfl, rfl, fun _ => by simp [reader_init], rfl, ?_, fun _ => Or.inl rfl, Or.inl (by simp [reader_init]),
    rfl, List.Sublist.refl _, ?_, by simp [reader_init]⟩
  · intro h; simp [reader_init] at h
  · rw [hocc]; exact List.Perm.refl _

theorem mem_sent_iff (cfg : GetConfig) (start : Nat) (r : reader_data)
    (hinv : GetDataInv cfg start r) (q : ReadRequest) :
    q ∈ r.sent ↔ ∃ k, k < r.sent.length ∧ q = expected_request cfg start k := by
  constructor
  · intro hq
    rw [hinv.sent_eq, List.mem_map] at hq
    obtain ⟨k, hk, rfl⟩ := hq
    exact ⟨k, List.mem_range.mp hk, rfl⟩
  · rintro ⟨k, hk, rfl⟩
    rw [hinv.sent_eq, List.mem_map]
    exact ⟨k, List.mem_range.mpr hk, rfl⟩

theorem GetDataInv_send (cfg : GetConfig) (start : Nat) (r r' : reader_data)
    (hB : 0 < cfg.buffersize) (hB32 : cfg.buffersize < 2 ^ 32)
    (hsize : cfg.size < 2 ^ 64)
    (hinv : GetDataInv cfg start r) (h : reader_send cfg r = some r') :
    GetDataInv cfg start r' := by
  obtain ⟨heof, hout, n, hn, rfl⟩ := reader_send_some cfg r r' h
  have hB32' : cfg.buffersize < 4294967296 := by simpa using hB32
  have hsize' : cfg.size < 18446744073709551616 := by simpa using hsize
  have hm := hinv.eof_false heof
  have hnext := hinv.next_eq heof
  have hsucc : (r.sent.length + 1) * cfg.buffersize
      = r.sent.length * cfg.buffersize + cfg.buffersize := Nat.succ_mul _ _
  have hle : r.sent.length * cfg.buffersize ≤ cfg.size := by
    rcases hm with h0 | hlt
    · rw [h0]; simp
    · omega
  have hrem : (cfg.size + 2 ^ 64 - r.next_offset) % 2 ^ 64
      = cfg.size - r.sent.length * cfg.buffersize := by
    rw [hnext]
    norm_num
    omega
  have hreq : (⟨newid r.latestid, r.next_offset,
      if (cfg.size + 2 ^ 64 - r.next_offset) % 2 ^ 64 > cfg.buffersize
      then cfg.buffersize % 2 ^ 32
      else (cfg.size + 2 ^ 64 - r.next_offset) % 2 ^ 64 % 2 ^ 32⟩ : ReadRequest)
      = expected_request cfg start r.sent.length := by
    unfold expected_request chunk_len
    rw [hrem, hinv.latestid_eq, hnext]
    congr 1
    norm_num
    split_ifs <;> omega
  rw [hreq]
  refine ⟨?_, ?_, ?_, hinv.not_failed, ?_, ?_, ?_, ?_, ?_, ?_, ?_⟩
  · simp only [List.length_append, List.length_singleton, List.range_succ, List.map_append,
      List.map_cons, List.map_nil]
    rw [← hinv.sent_eq]
  · simp only [List.length_append, List.length_singleton]
    rw [newid_after, ← hinv.latestid_eq]
  · intro he
    simp only [List.length_append, List.length_singleton]
    rw [hrem] at he
    rw [hnext, hsucc]
    norm_num
    by_cases hc : cfg.size - r.sent.length * cfg.buffersize > cfg.buffersize
    · omega
    · rw [if_neg hc] at he
      exact Bool.noConfusion he
  · intro he
    simp only [List.length_append, List.length_singleton]
    rw [hrem] at he
    rw [hsucc]
    constructor
    · omega
    · by_cases hc : cfg.size - r.sent.length * cfg.buffersize > cfg.buffersize
      · rw [if_pos hc, heof] at he
        exact Bool.noConfusion he
      · omega
  · intro he
    simp only [List.length_append, List.length_singleton]
    rw [hrem] at he
    rw [hsucc]
    right
    by_cases hc : cfg.size - r.sent.length * cfg.buffersize > cfg.buffersize
    · omega
    · rw [if_neg hc] at he
      exact Bool.noConfusion he
  · simp only [List.length_append, List.length_singleton, Nat.add_sub_cancel]
    rcases hm with h0 | hlt
    · left; omega
    · right; exact hlt
  · simp only [List.length_append, List.length_singleton]
    rw [hinv.out_eq]
  · exact hinv.pend_sub.append (List.Sublist.refl _)
  · simp only [List.map_append, List.map_cons, List.map_nil]
    have hp := (occupied_set_free r.reqs n ⟨newid r.latestid, r.next_offset⟩ hn
      (newid_ne_zero _)).map (fun q => q.id)
    refine hp.trans ?_
    simp only [List.map_cons]
    have hid : (expected_request cfg start r.sent.length).id = newid r.latestid := by
      rw [← hreq]
    rw [hid]
    exact ((hinv.slot_ids.cons _).trans (List.perm_append_singleton _ _).symm)
  · simp only [List.length_set]
    exact hinv.slots_len

theorem expected_request_id_ne_zero (cfg : GetConfig) (start k : Nat) :
    (expected_request cfg start k).id ≠ 0 := by
  unfold expected_request
  rw [newid_after]
  exact newid_ne_zero _

theorem mem_pending_expected (cfg : GetConfig) (start : Nat) (r : reader_data)
    (hinv : GetDataInv cfg start r) (q : ReadRequest) (hq : q ∈ r.pending) :
    ∃ k, k < r.sent.length ∧ q = expected_request cfg start k :=
  (mem_sent_iff cfg start r hinv q).mp (hinv.pend_sub.subset hq)

theorem GetDataInv_data (cfg : GetConfig) (remote : List Byte) (start : Nat)
    (r r' : reader_data) (j : Nat) (hinv : GetDataInv cfg start r)
    (h : get_step cfg remote r (GetEvent.answer j Answer.data) = some r') :
    GetDataInv cfg start r' := by
  obtain ⟨rq, hrq, hrecv⟩ := get_step_answer_some cfg remote r r' j _ h
  obtain ⟨hout0, hout, hsent, hlatest, hpend, hnext, hcase⟩ := reaper_recv_some _ _ _ _ hrecv
  have hjlt : j < r.pending.length := by
    rcases Nat.lt_or_ge j r.pending.length with hlt | hge
    · exact hlt
    · rw [List.getElem?_eq_none hge] at hrq
      exact Option.noConfusion hrq
  have hmem : rq ∈ r.pending := by
    rw [List.getElem?_eq_getElem hjlt] at hrq
    cases hrq
    exact List.getElem_mem _
  obtain ⟨k0, hk0, hrqe⟩ := mem_pending_expected cfg start r hinv rq hmem
  have hidne : rq.id ≠ 0 := by rw [hrqe]; exact expected_request_id_ne_zero _ _ _
  rcases hcase with ⟨_, _, _, _, hc⟩ | ⟨hf, hf', heof, id, payload, n, hreply, hslot, hreqs, _, _, _⟩
  · rcases hc with ⟨hft, _, _⟩ | ⟨_, id, code, hreply, _⟩
    · have := hinv.not_failed
      simp only at hft
      rw [this] at hft
      exact Bool.noConfusion hft
    · simp [answer_reply] at hreply
  · simp only [answer_reply, Reply.data.injEq] at hreply
    obtain ⟨hid, _⟩ := hreply
    simp only at hsent hlatest hpend hnext hout hslot hreqs heof
    refine ⟨?_, ?_, ?_, hf', ?_, ?_, ?_, ?_, ?_, ?_, ?_⟩
    · rw [hsent]; exact hinv.sent_eq
    · rw [hsent, hlatest]; exact hinv.latestid_eq
    · rw [hsent, hnext, heof]; exact hinv.next_eq
    · rw [hsent, heof]; exact hinv.eof_true
    · rw [hsent, heof]; exact hinv.eof_false
    · rw [hsent]; exact hinv.started
    · rw [hout, hpend, List.length_eraseIdx, hinv.out_eq]
      simp [hjlt]
    · rw [hpend, hsent]
      exact (List.eraseIdx_sublist _ _).trans hinv.pend_sub
    · rw [hpend, hreqs]
      rw [← hid] at hslot
      obtain ⟨r0, _, hr0id, hperm⟩ :=
        occupied_clear r.reqs rq.id n (r.reqs.getD n ⟨0, 0⟩).offset hslot hidne
      have h1 := hperm.map (fun q => q.id)
      have h2 := (perm_cons_eraseIdx r.pending j rq hrq).map (fun q => q.id)
      simp only [List.map_cons] at h1 h2
      rw [hr0id] at h1
      exact (List.perm_cons _).mp ((h1.symm.trans hinv.slot_ids).trans h2)
    · rw [hreqs, List.length_set]; exact hinv.slots_len

theorem GetDataInv_run (cfg : GetConfig) (remote : List Byte) (start : Nat)
    (events : List GetEvent) (r : reader_data)
    (hB : 0 < cfg.buffersize) (hB32 : cfg.buffersize < 2 ^ 32)
    (hsize : cfg.size < 2 ^ 64)
    (hdata : data_only events)
    (hrun : get_run cfg remote events (reader_init cfg start) = some r) :
    GetDataInv cfg start r := by
  refine get_run_induction cfg remote (GetDataInv cfg start) events
    (fun ev => ev = GetEvent.send ∨ ∃ j, ev = GetEvent.answer j Answer.data)
    ?_ hdata _ _ (GetDataInv_init cfg start) hrun
  intro r1 r2 ev hev hinv hstep
  rcases hev with rfl | ⟨j, rfl⟩
  · exact GetDataInv_send cfg start r1 r2 hB hB32 hsize hinv hstep
  · exact GetDataInv_data cfg remote start r1 r2 j hinv hstep

/-! ## The READ requests of a transfer -/

theorem read_count_gt (S B m : Nat) (hB : 0 < B) (h : m = 0 ∨ m * B < S) :
    m < read_count S B := by
  unfold read_count
  rcases h with h0 | hlt
  · rw [h0]; exact lt_of_lt_of_le Nat.zero_lt_one (le_max_left _ _)
  · have h1 : m + 1 ≤ (S + B - 1) / B := by
      rw [Nat.le_div_iff_mul_le hB, Nat.succ_mul]
      omega
    exact lt_of_lt_of_le h1 (le_max_right _ _)

theorem read_count_eq (S B m : Nat) (hB : 0 < B) (hm : 0 < m) (hle : S ≤ m * B)
    (h : m ≤ 1 ∨ (m - 1) * B < S) : m = read_count S B := by
  unfold read_count
  have hq : (S + B - 1) / B ≤ m := by
    have h2 : (S + B - 1) / B < m + 1 := by
      rw [Nat.div_lt_iff_lt_mul hB, Nat.succ_mul]
      omega
    omega
  rcases h with h1 | hlt
  · have : m = 1 := by omega
    subst this
    rw [max_eq_left hq]
  · have hpred : (m - 1) * B + B = m * B := by
      rw [← Nat.succ_mul]
      congr 1
      omega
    have hge : m ≤ (S + B - 1) / B := by
      rw [Nat.le_div_iff_mul_le hB]
      omega
    have : (S + B - 1) / B = m := by omega
    rw [this]
    exact (max_eq_right hm).symm

theorem chunk_cover (S B i : Nat) (hB : 0 < B) (hi : i < S) :
    ∀ k, (k < read_count S B ∧ k * B ≤ i ∧ i < k * B + chunk_len S B k) ↔ k = i / B := by
  intro k
  have hdiv : i / B * B ≤ i := Nat.div_mul_le_self i B
  have hlt : i < (i / B + 1) * B := by
    have := Nat.div_add_mod i B
    have := Nat.mod_lt i hB
    rw [Nat.succ_mul, Nat.mul_comm]
    omega
  constructor
  · rintro ⟨_, hlo, hhi⟩
    unfold chunk_len at hhi
    symm
    apply Nat.div_eq_of_lt_le hlo
    rw [Nat.succ_mul]
    omega
  · rintro rfl
    refine ⟨read_count_gt S B _ hB (Or.inr (by omega)), hdiv, ?_⟩
    unfold chunk_len
    rw [Nat.succ_mul] at hlt
    omega

theorem occupied_length_lt (l : List outstanding_read) (h : (occupied l).length < l.length) :
    ∃ n, find_slot 0 l = some n := by
  apply find_slot_of_mem
  by_contra hne
  have hall : ∀ a ∈ l, (decide (a.id ≠ 0)) = true := by
    intro a ha
    by_contra hz
    apply hne
    refine ⟨a, ha, ?_⟩
    simpa using hz
  have : occupied l = l := List.filter_eq_self.mpr hall
  rw [this] at h
  exact Nat.lt_irrefl _ h

theorem reader_send_ok (cfg : GetConfig) (start : Nat) (r : reader_data)
    (hinv : GetDataInv cfg start r) (heof : r.eof = false)
    (hout : r.outstanding < cfg.nrequests) : ∃ r', reader_send cfg r = some r' := by
  have hlen : (occupied r.reqs).length < r.reqs.length := by
    have h1 := hinv.slot_ids.length_eq
    simp only [List.length_map] at h1
    rw [h1, ← hinv.out_eq, hinv.slots_len]
    exact hout
  obtain ⟨n, hn⟩ := occupied_length_lt r.reqs hlen
  unfold reader_send reader_transmit
  rw [if_pos ⟨hout, heof⟩, hn]
  exact ⟨_, rfl⟩

theorem data_answer_ok (cfg : GetConfig) (remote : List Byte) (start : Nat) (r : reader_data)
    (hinv : GetDataInv cfg start r) (j : Nat) (hj : j < r.pending.length) :
    ∃ r', get_step cfg remote r (GetEvent.answer j Answer.data) = some r' := by
  have hmem : (r.pending.get ⟨j, hj⟩).id ∈ (occupied r.reqs).map fun q => q.id := by
    rw [hinv.slot_ids.mem_iff]
    exact List.mem_map_of_mem _ (List.get_mem _ _ _)
  obtain ⟨q, hq, hqid⟩ := List.mem_map.mp hmem
  obtain ⟨n, hn⟩ := find_slot_of_mem (r.pending.get ⟨j, hj⟩).id r.reqs
    ⟨q, (List.mem_filter.mp hq).1, hqid⟩
  have hout : r.outstanding ≠ 0 := by
    rw [hinv.out_eq]; omega
  simp only [get_step, List.get?_eq_getElem?, List.getElem?_eq_getElem hj, answer_reply,
    reaper_recv, if_neg hout, hinv.not_failed]
  simp only [List.get_eq_getElem] at hn
  simp [hn]

theorem serial_schedule_run (cfg : GetConfig) (remote : List Byte) (start : Nat)
    (hB : 0 < cfg.buffersize) (hB32 : cfg.buffersize < 2 ^ 32) (hsize : cfg.size < 2 ^ 64)
    (hn : 0 < cfg.nrequests) (n : Nat) :
    ∀ r, GetDataInv cfg start r → r.outstanding = 0 →
      r.sent.length + n ≤ read_count cfg.size cfg.buffersize →
      ∃ r', get_run cfg remote (serial_schedule n) r = some r' ∧ GetDataInv cfg start r' ∧
        r'.outstanding = 0 ∧ r'.sent.length = r.sent.length + n := by
  induction n with
  | zero => intro r hinv hout _; exact ⟨r, rfl, hinv, hout, rfl⟩
  | succ n ih =>
    intro r hinv hout hle
    have heof : r.eof = false := by
      cases he : r.eof with
      | false => rfl
      | true =>
        obtain ⟨hpos, hcov⟩ := hinv.eof_true he
        have := read_count_eq cfg.size cfg.buffersize r.sent.length hB hpos hcov hinv.started
        omega
    obtain ⟨r1, hr1⟩ := reader_send_ok cfg start r hinv heof (by omega)
    have hinv1 := GetDataInv_send cfg start r r1 hB hB32 hsize hinv hr1
    obtain ⟨_, _, m, _, hr1eq⟩ := reader_send_some cfg r r1 hr1
    have hout1 : r1.outstanding = 1 := by rw [hr1eq]; simp [hout]
    have hsent1 : r1.sent.length = r.sent.length + 1 := by rw [hr1eq]; simp
    have hp1 : 0 < r1.pending.length := by rw [← hinv1.out_eq, hout1]; exact Nat.one_pos
    obtain ⟨r2, hr2⟩ := data_answer_ok cfg remote start r1 hinv1 0 hp1
    have hinv2 := GetDataInv_data cfg remote start r1 r2 0 hinv1 hr2
    obtain ⟨rq, _, hrecv⟩ := get_step_answer_some cfg remote r1 r2 0 _ hr2
    obtain ⟨_, hout2, hsent2, _⟩ := reaper_recv_some _ _ _ _ hrecv
    simp only at hout2 hsent2
    obtain ⟨r', hrun, hinv', hout', hlen'⟩ := ih r2 hinv2 (by rw [hout2, hout1])
      (by rw [hsent2, hsent1]; omega)
    refine ⟨r', ?_, hinv', hout', by rw [hlen', hsent2, hsent1]; omega⟩
    have hr1' : get_step cfg remote r GetEvent.send = some r1 := hr1
    simp only [serial_schedule, get_run, hr1', hr2]
    exact hrun

theorem serial_schedule_data_only (n : Nat) : data_only (serial_schedule n) := by
  induction n with
  | zero => intro ev hev; simp [serial_schedule] at hev
  | succ n ih =>
    intro ev hev
    simp only [serial_schedule, List.mem_cons] at hev
    rcases hev with rfl | rfl | hev
    · exact Or.inl rfl
    · exact Or.inr ⟨0, rfl⟩
    · exact ih ev hev

theorem serial_schedule_completes (cfg : GetConfig) (remote : List Byte) (start : Nat)
    (hB : 0 < cfg.buffersize) (hB32 : cfg.buffersize < 2 ^ 32) (hsize : cfg.size < 2 ^ 64)
    (hn : 0 < cfg.nrequests) :
    ∃ r, get_run cfg remote (serial_schedule (read_count cfg.size cfg.buffersize))
        (reader_init cfg start) = some r ∧
      r.eof = true ∧ r.outstanding = 0 ∧
      r.sent.length = read_count cfg.size cfg.buffersize := by
  obtain ⟨r, hrun, hinv, hout, hlen⟩ := serial_schedule_run cfg remote start hB hB32 hsize hn
    (read_count cfg.size cfg.buffersize) (reader_init cfg start) (GetDataInv_init cfg start) rfl
    (by simp [reader_init])
  have hlen' : r.sent.length = read_count cfg.size cfg.buffersize := by
    rw [hlen]; simp [reader_init]
  refine ⟨r, hrun, ?_, hout, hlen'⟩
  cases he : r.eof with
  | true => rfl
  | false =>
    have := read_count_gt cfg.size cfg.buffersize r.sent.length hB (hinv.eof_false he)
    omega

/-! ## The temporary file of a binary transfer -/

theorem sent_le_read_count (cfg : GetConfig) (start : Nat) (r : reader_data)
    (hB : 0 < cfg.buffersize) (hinv : GetDataInv cfg start r) :
    r.sent.length ≤ read_count cfg.size cfg.buffersize := by
  rcases hinv.started with h1 | hlt
  · exact le_trans h1 (le_max_left _ _)
  · have := read_count_gt cfg.size cfg.buffersize (r.sent.length - 1) hB (Or.inr hlt)
    omega

theorem expected_request_inj (cfg : GetConfig) (start m k k' : Nat) (hstart : start < 2 ^ 32)
    (hm : m ≤ 2 ^ 32 - 1) (hk : k < m) (hk' : k' < m)
    (h : (expected_request cfg start k).id = (expected_request cfg start k').id) : k = k' := by
  unfold expected_request at h
  simp only at h
  by_contra hne
  rcases Nat.lt_or_gt_of_ne hne with hlt | hgt
  · exact newid_after_injective start k k' hstart hlt (by omega) h
  · exact newid_after_injective start k' k hstart hgt (by omega) h.symm

theorem index_before (cfg : GetConfig) (start : Nat) (r : reader_data)
    (hinv : GetDataInv cfg start r) (k : Nat) (hk : k < r.sent.length) :
    k * cfg.buffersize ≤ cfg.size := by
  rcases hinv.started with h1 | hlt
  · have : k = 0 := by omega
    subst this
    simp
  · have : k * cfg.buffersize ≤ (r.sent.length - 1) * cfg.buffersize :=
      Nat.mul_le_mul_right _ (by omega)
    omega

theorem GetFileInv_init (cfg : GetConfig) (remote : List Byte) (start : Nat) :
    GetFileInv cfg remote start (reader_init cfg start) := by
  have hocc : occupied (reader_init cfg start).reqs = [] := by
    unfold occupied reader_init
    simp only [List.filter_eq_nil_iff]
    intro a ha
    rw [List.eq_of_mem_replicate ha]
    simp
  refine ⟨?_, by simp [reader_init], ?_⟩
  · rw [hocc]; exact List.Perm.refl _
  · intro k hk
    simp [reader_init] at hk

theorem reader_send_expected (cfg : GetConfig) (start : Nat) (r r' : reader_data)
    (hB : 0 < cfg.buffersize) (hB32 : cfg.buffersize < 2 ^ 32) (hsize : cfg.size < 2 ^ 64)
    (hinv : GetDataInv cfg start r) (h : reader_send cfg r = some r') :
    ∃ n, find_slot 0 r.reqs = some n ∧
      r'.sent = r.sent ++ [expected_request cfg start r.sent.length] ∧
      r'.pending = r.pending ++ [expected_request cfg start r.sent.length] ∧
      r'.reqs = r.reqs.set n (slot_of (expected_request cfg start r.sent.length)) ∧
      r'.file = r.file := by
  have hinv' := GetDataInv_send cfg start r r' hB hB32 hsize hinv h
  obtain ⟨_, _, n, hn, hr'⟩ := reader_send_some cfg r r' h
  have hs := hinv'.sent_eq
  rw [hr'] at hs
  simp only [List.length_append, List.length_singleton, List.range_succ, List.map_append,
    List.map_cons, List.map_nil] at hs
  rw [← hinv.sent_eq] at hs
  have hq := List.cons.inj (List.append_cancel_left hs)
  refine ⟨n, hn, ?_, ?_, ?_, ?_⟩
  · rw [hr']; simp only; rw [hq.1]
  · rw [hr']; simp only; rw [hq.1]
  · rw [hr']; simp only; rw [← hq.1]; rfl
  · rw [hr']

theorem GetFileInv_send (cfg : GetConfig) (remote : List Byte) (start : Nat)
    (r r' : reader_data)
    (hB : 0 < cfg.buffersize) (hB32 : cfg.buffersize < 2 ^ 32) (hsize : cfg.size < 2 ^ 64)
    (hinv : GetDataInv cfg start r) (hfile : GetFileInv cfg remote start r)
    (h : reader_send cfg r = some r') : GetFileInv cfg remote start r' := by
  obtain ⟨n, hn, hsent, hpend, hreqs, hf⟩ :=
    reader_send_expected cfg start r r' hB hB32 hsize hinv h
  refine ⟨?_, ?_, ?_⟩
  · rw [hreqs, hpend, List.map_append, List.map_cons, List.map_nil]
    have hx : (slot_of (expected_request cfg start r.sent.length)).id ≠ 0 :=
      expected_request_id_ne_zero cfg start _
    exact (occupied_set_free r.reqs n _ hn hx).trans
      ((hfile.slots_eq.cons _).trans (List.perm_append_singleton _ _).symm)
  · rw [hf]; exact hfile.file_len
  · intro k hk hnot i hlo hhi
    rw [hsent, List.length_append, List.length_singleton] at hk
    rw [hpend, List.mem_append, List.mem_singleton] at hnot
    rw [hf]
    have hne : k ≠ r.sent.length := by
      intro he
      apply hnot
      right
      rw [he]
    exact hfile.file_ok k (by omega) (fun hmem => hnot (Or.inl hmem)) i hlo hhi

theorem GetFileInv_data (cfg : GetConfig) (remote : List Byte) (start : Nat)
    (r r' : reader_data) (j : Nat) (htext : cfg.textmode = false)
    (hlen : remote.length = cfg.size) (hstart : start < 2 ^ 32)
    (hm : r.sent.length ≤ 2 ^ 32 - 1)
    (hinv : GetDataInv cfg start r) (hfile : GetFileInv cfg remote start r)
    (h : get_step cfg remote r (GetEvent.answer j Answer.data) = some r') :
    GetFileInv cfg remote start r' := by
  obtain ⟨rq, hrq, hrecv⟩ := get_step_answer_some cfg remote r r' j _ h
  obtain ⟨hout0, hout, hsent, hlatest, hpend, hnext, hcase⟩ := reaper_recv_some _ _ _ _ hrecv
  have hjlt : j < r.pending.length := by
    rcases Nat.lt_or_ge j r.pending.length with hlt | hge
    · exact hlt
    · rw [List.getElem?_eq_none hge] at hrq
      exact Option.noConfusion hrq
  have hmem : rq ∈ r.pending := by
    rw [List.getElem?_eq_getElem hjlt] at hrq
    cases hrq
    exact List.getElem_mem _
  obtain ⟨k0, hk0, hrqe⟩ := mem_pending_expected cfg start r hinv rq hmem
  have hidne : rq.id ≠ 0 := by rw [hrqe]; exact expected_request_id_ne_zero _ _ _
  have hpperm := perm_cons_eraseIdx r.pending j rq hrq
  rcases hcase with ⟨_, _, _, _, hc⟩ | ⟨hf, hf', heof, id, payload, n, hreply, hslot, hreqs, _, _, hbin⟩
  · rcases hc with ⟨hft, _, _⟩ | ⟨_, id, code, hreply, _⟩
    · have := hinv.not_failed
      simp only at hft
      rw [this] at hft
      exact Bool.noConfusion hft
    · simp [answer_reply] at hreply
  · simp only [answer_reply, Reply.data.injEq] at hreply
    obtain ⟨hid, hpay⟩ := hreply
    obtain ⟨_, hfileeq⟩ := hbin htext
    simp only at hsent hpend hslot hreqs hfileeq
    rw [← hid] at hslot
    obtain ⟨r0, hr0, hr0id, hperm⟩ :=
      occupied_clear r.reqs rq.id n (r.reqs.getD n ⟨0, 0⟩).offset hslot hidne
    have hr0mem : r0 ∈ r.pending.map slot_of := by
      rw [← hfile.slots_eq.mem_iff, hperm.mem_iff]
      exact List.mem_cons_self _ _
    obtain ⟨q, hq, hqr0⟩ := List.mem_map.mp hr0mem
    obtain ⟨k, hk, hqe⟩ := mem_pending_expected cfg start r hinv q hq
    have hqid : q.id = rq.id := by
      rw [← hr0id, ← hqr0]; rfl
    have hkk : k = k0 := by
      apply expected_request_inj cfg start r.sent.length k k0 hstart hm hk hk0
      rw [← hqe, ← hrqe]
      exact hqid
    have hqrq : q = rq := by rw [hqe, hrqe, hkk]
    have hr0eq : r0 = slot_of rq := by rw [← hqr0, hqrq]
    have hoff : (r.reqs.getD n ⟨0, 0⟩).offset = k0 * cfg.buffersize := by
      rw [List.getD_eq_getElem?_getD, hr0, Option.getD_some, hr0eq, hrqe]
      rfl
    have hk0S := index_before cfg start r hinv k0 hk0
    have hpaylen : payload.length = chunk_len cfg.size cfg.buffersize k0 := by
      rw [← hpay, List.length_take, List.length_drop, hlen, hrqe]
      unfold expected_request chunk_len
      simp only
      omega
    have hchunk : chunk_len cfg.size cfg.buffersize k0 ≤ cfg.buffersize ∧
        k0 * cfg.buffersize + chunk_len cfg.size cfg.buffersize k0 ≤ cfg.size := by
      unfold chunk_len
      omega
    refine ⟨?_, ?_, ?_⟩
    · rw [hreqs, hpend]
      have h2 := hpperm.map slot_of
      rw [List.map_cons, ← hr0eq] at h2
      exact (List.perm_cons _).mp ((hperm.symm.trans hfile.slots_eq).trans h2)
    · rw [hfileeq, hoff]
      exact pwrite_length_le _ _ _ _ hfile.file_len (by omega)
    · intro k hk hnot i hlo hhi
      rw [hsent] at hk
      rw [hpend] at hnot
      rw [hfileeq, hoff]
      by_cases hkk0 : k = k0
      · subst hkk0
        rw [pwrite_getElem?_inside _ _ _ _ hlo (by omega), ← hpay, hrqe]
        unfold expected_request
        simp only
        rw [List.getElem?_take_of_lt (by omega), List.getElem?_drop]
        congr 1
        omega
      · have hknot : expected_request cfg start k ∉ r.pending := by
          intro hin
          rcases List.mem_cons.mp (hpperm.mem_iff.mp hin) with heq | hin'
          · apply hkk0
            apply expected_request_inj cfg start r.sent.length k k0 hstart hm hk hk0
            rw [heq, hrqe]
          · exact hnot hin'
        have hold := hfile.file_ok k hk hknot i hlo hhi
        have hkS := index_before cfg start r hinv k hk
        have hck : chunk_len cfg.size cfg.buffersize k ≤ cfg.buffersize ∧
            k * cfg.buffersize + chunk_len cfg.size cfg.buffersize k ≤ cfg.size := by
          unfold chunk_len
          omega
        have hiS : i < remote.length := by omega
        have hifile : i < r.file.length := by
          by_contra hge
          rw [List.getElem?_eq_none (by omega), List.getElem?_eq_getElem hiS] at hold
          exact Option.noConfusion hold
        rw [pwrite_getElem?_outside _ _ _ _ hifile ?_]
        · exact hold
        · rcases Nat.lt_or_gt_of_ne hkk0 with hlt | hgt
          · left
            have : (k + 1) * cfg.buffersize ≤ k0 * cfg.buffersize :=
              Nat.mul_le_mul_right _ hlt
            rw [Nat.succ_mul] at this
            omega
          · right
            have : (k0 + 1) * cfg.buffersize ≤ k * cfg.buffersize :=
              Nat.mul_le_mul_right _ hgt
            rw [Nat.succ_mul] at this
            omega

theorem GetFileInv_run (cfg : GetConfig) (remote : List Byte) (start : Nat)
    (events : List GetEvent) (r : reader_data)
    (hB : 0 < cfg.buffersize) (hB32 : cfg.buffersize < 2 ^ 32) (hsize : cfg.size < 2 ^ 64)
    (htext : cfg.textmode = false) (hlen : remote.length = cfg.size)
    (hstart : start < 2 ^ 32) (hcount : read_count cfg.size cfg.buffersize ≤ 2 ^ 32 - 1)
    (hdata : data_only events)
    (hrun : get_run cfg remote events (reader_init cfg start) = some r) :
    GetDataInv cfg start r ∧ GetFileInv cfg remote start r := by
  refine get_run_induction cfg remote
    (fun r => GetDataInv cfg start r ∧ GetFileInv cfg remote start r) events
    (fun ev => ev = GetEvent.send ∨ ∃ j, ev = GetEvent.answer j Answer.data)
    ?_ hdata _ _ ⟨GetDataInv_init cfg start, GetFileInv_init cfg remote start⟩ hrun
  intro r1 r2 ev hev hinv hstep
  rcases hev with rfl | ⟨j, rfl⟩
  · exact ⟨GetDataInv_send cfg start r1 r2 hB hB32 hsize hinv.1 hstep,
      GetFileInv_send cfg remote start r1 r2 hB hB32 hsize hinv.1 hinv.2 hstep⟩
  · exact ⟨GetDataInv_data cfg remote start r1 r2 j hinv.1 hstep,
      GetFileInv_data cfg remote start r1 r2 j htext hlen hstart
        (le_trans (sent_le_read_count cfg start r1 hB hinv.1) hcount) hinv.1 hinv.2 hstep⟩

/-- Once every READ of a binary transfer has been answered, the temporary
file holds the bytes of the remote file. -/
theorem get_file_complete (cfg : GetConfig) (remote : List Byte) (start : Nat)
    (r : reader_data) (hB : 0 < cfg.buffersize) (hlen : remote.length = cfg.size)
    (hinv : GetDataInv cfg start r) (hfile : GetFileInv cfg remote start r)
    (heof : r.eof = true) (hout : r.outstanding = 0) : r.file = remote := by
  have hpend : r.pending = [] := by
    apply List.eq_nil_of_length_eq_zero
    rw [← hinv.out_eq, hout]
  obtain ⟨_, hcov⟩ := hinv.eof_true heof
  apply List.ext_getElem?
  intro i
  rcases Nat.lt_or_ge i cfg.size with hi | hi
  · have hk : i / cfg.buffersize < r.sent.length := by
      rw [Nat.div_lt_iff_lt_mul hB]
      omega
    obtain ⟨_, hlo, hhi⟩ := (chunk_cover cfg.size cfg.buffersize i hB hi (i / cfg.buffersize)).mpr rfl
    exact hfile.file_ok _ hk (by rw [hpend]; exact List.not_mem_nil _) i hlo hhi
  · rw [List.getElem?_eq_none (le_trans hfile.file_len hi),
      List.getElem?_eq_none (by rw [hlen]; exact hi)]

/-! ## Slots and outstanding requests -/

theorem get_outstanding_pending (cfg : GetConfig) (remote : List Byte) (start : Nat)
    (events : List GetEvent) (r : reader_data)
    (hrun : get_run cfg remote events (reader_init cfg start) = some r) :
    r.outstanding = r.pending.length := by
  refine get_run_induction cfg remote (fun r => r.outstanding = r.pending.length) events
    (fun _ => True) ?_ (fun _ _ => trivial) _ _ rfl hrun
  intro r1 r2 ev _ hinv hstep
  cases ev with
  | send =>
    obtain ⟨_, _, n, _, rfl⟩ := reader_send_some cfg r1 r2 hstep
    simp only [List.length_append, List.length_singleton]
    rw [hinv]
  | answer j a =>
    obtain ⟨rq, hrq, hrecv⟩ := get_step_answer_some cfg remote r1 r2 j a hstep
    obtain ⟨_, hout, _, _, hpend, _⟩ := reaper_recv_some _ _ _ _ hrecv
    have hjlt : j < r1.pending.length := by
      rcases Nat.lt_or_ge j r1.pending.length with hlt | hge
      · exact hlt
      · rw [List.getElem?_eq_none hge] at hrq
        exact Option.noConfusion hrq
    simp only at hout hpend
    rw [hout, hpend, List.length_eraseIdx, hinv]
    simp [hjlt]

theorem GetSlotInv_init (cfg : GetConfig) (start : Nat) :
    GetSlotInv (reader_init cfg start) := by
  have hocc : occupied (reader_init cfg start).reqs = [] := by
    unfold occupied reader_init
    simp only [List.filter_eq_nil_iff]
    intro a ha
    rw [List.eq_of_mem_replicate ha]
    simp
  refine ⟨?_, ?_, rfl⟩
  · intro q hq; simp [reader_init] at hq
  · rw [hocc]; exact List.Perm.refl _

theorem GetSlotInv_step (cfg : GetConfig) (remote : List Byte) (r r' : reader_data)
    (ev : GetEvent) (hev : ev = GetEvent.send ∨ ∃ j, ev = GetEvent.answer j Answer.data)
    (hinv : GetSlotInv r) (h : get_step cfg remote r ev = some r') : GetSlotInv r' := by
  rcases hev with rfl | ⟨j, rfl⟩
  · obtain ⟨_, _, n, hn, rfl⟩ := reader_send_some cfg r r' h
    refine ⟨?_, ?_, hinv.not_failed⟩
    · intro q hq
      simp only [List.mem_append, List.mem_singleton] at hq
      rcases hq with hq | rfl
      · exact hinv.ids_ne q hq
      · exact newid_ne_zero _
    · simp only [List.map_append, List.map_cons, List.map_nil]
      have hp := (occupied_set_free r.reqs n ⟨newid r.latestid, r.next_offset⟩ hn
        (newid_ne_zero _)).map (fun q => q.id)
      refine hp.trans ?_
      simp only [List.map_cons]
      exact ((hinv.slot_ids.cons _).trans (List.perm_append_singleton _ _).symm)
  · obtain ⟨rq, hrq, hrecv⟩ := get_step_answer_some cfg remote r r' j _ h
    obtain ⟨_, _, _, _, hpend, _, hcase⟩ := reaper_recv_some _ _ _ _ hrecv
    have hjlt : j < r.pending.length := by
      rcases Nat.lt_or_ge j r.pending.length with hlt | hge
      · exact hlt
      · rw [List.getElem?_eq_none hge] at hrq
        exact Option.noConfusion hrq
    have hmem : rq ∈ r.pending := by
      rw [List.getElem?_eq_getElem hjlt] at hrq
      cases hrq
      exact List.getElem_mem _
    have hidne : rq.id ≠ 0 := hinv.ids_ne rq hmem
    rcases hcase with ⟨_, _, _, _, hc⟩ | ⟨hf, hf', _, id, payload, n, hreply, hslot, hreqs, _⟩
    · rcases hc with ⟨hft, _, _⟩ | ⟨_, id, code, hreply, _⟩
      · have := hinv.not_failed
        simp only at hft
        rw [this] at hft
        exact Bool.noConfusion hft
      · simp [answer_reply] at hreply
    · simp only [answer_reply, Reply.data.injEq] at hreply
      obtain ⟨hid, _⟩ := hreply
      simp only at hpend hslot hreqs
      refine ⟨?_, ?_, hf'⟩
      · intro q hq
        rw [hpend] at hq
        exact hinv.ids_ne q ((List.eraseIdx_sublist _ _).subset hq)
      · rw [hpend, hreqs]
        rw [← hid] at hslot
        obtain ⟨r0, _, hr0id, hperm⟩ :=
          occupied_clear r.reqs rq.id n (r.reqs.getD n ⟨0, 0⟩).offset hslot hidne
        have h1 := hperm.map (fun q => q.id)
        have h2 := (perm_cons_eraseIdx r.pending j rq hrq).map (fun q => q.id)
        simp only [List.map_cons] at h1 h2
        rw [hr0id] at h1
        exact (List.perm_cons _).mp ((h1.symm.trans hinv.slot_ids).trans h2)

theorem GetSlotInv_run (cfg : GetConfig) (remote : List Byte) (start : Nat)
    (events : List GetEvent) (r : reader_data) (hdata : data_only events)
    (hrun : get_run cfg remote events (reader_init cfg start) = some r) : GetSlotInv r :=
  get_run_induction cfg remote GetSlotInv events
    (fun ev => ev = GetEvent.send ∨ ∃ j, ev = GetEvent.answer j Answer.data)
    (fun r1 r2 ev hev hinv hstep => GetSlotInv_step cfg remote r1 r2 ev hev hinv hstep)
    hdata _ _ (GetSlotInv_init cfg start) hrun

/-! ## The transfer engine of `cmd_put`: lemmas -/

theorem find_write_slot_spec (id : Nat) (l : List outstanding_write) (n : Nat)
    (h : find_write_slot id l = some n) : ∃ r, l[n]? = some r ∧ r.id = id := by
  induction l generalizing n with
  | nil => exact Option.noConfusion h
  | cons r rest ih =>
    rw [find_write_slot] at h
    by_cases hr : r.id = id
    · rw [if_pos hr] at h
      have : n = 0 := (Option.some.inj h).symm
      subst this
      exact ⟨r, by simp, hr⟩
    · rw [if_neg hr] at h
      obtain ⟨n', hn', rfl⟩ := Option.map_eq_some'.mp h
      obtain ⟨r', hr', hid⟩ := ih n' hn'
      exact ⟨r', by simpa using hr', hid⟩

theorem find_write_slot_of_mem (id : Nat) (l : List outstanding_write)
    (h : ∃ r ∈ l, r.id = id) : ∃ n, find_write_slot id l = some n := by
  induction l with
  | nil => obtain ⟨r, hr, _⟩ := h; exact absurd hr (List.not_mem_nil r)
  | cons r rest ih =>
    rw [find_write_slot]
    by_cases hr : r.id = id
    · exact ⟨0, by rw [if_pos hr]⟩
    · rw [if_neg hr]
      obtain ⟨x, hx, hxid⟩ := h
      rcases List.mem_cons.mp hx with rfl | hx'
      · exact absurd hxid hr
      · obtain ⟨n, hn⟩ := ih ⟨x, hx', hxid⟩
        exact ⟨n + 1, by rw [hn]; rfl⟩

theorem cmd_get_closes (textmode preserve : Bool) (o : GetOutcome) :
    (cmd_get_opened textmode o = none → closes (cmd_get_flow textmode preserve o) = []) ∧
    (∀ h, cmd_get_opened textmode o = some h →
      closes (cmd_get_flow textmode preserve o) =
        if h ≠ [] ∨ cmd_get_regular o = true then [h] else []) := by
  obtain ⟨lo, ti, op, fs, sf, tr, sfs, fin, rn⟩ := o
  constructor
  · intro hnone
    cases lo <;> cases textmode <;> cases ti <;>
      simp [cmd_get_opened] at hnone <;>
      simp [cmd_get_flow, cmd_get_error, closes, hnone]
  · intro h hsome
    have hlen : h.length = 0 ↔ h = [] := List.length_eq_zero
    cases lo <;> cases textmode <;> cases ti <;>
      simp [cmd_get_opened] at hsome <;> subst hsome <;>
      cases fs <;> cases sf <;> cases tr <;> cases preserve <;> cases sfs <;> cases fin <;>
      cases rn <;>
      by_cases he : h = [] <;>
      simp [cmd_get_flow, cmd_get_error, closes, cmd_get_regular, he, hlen]

theorem cmd_put_closes (textmode preserve : Bool) (o : PutOutcome) :
    (cmd_put_opened o = none → closes (cmd_put_flow textmode preserve o) = []) ∧
    (∀ h, cmd_put_opened o = some h →
      closes (cmd_put_flow textmode preserve o) =
        if h ≠ [] ∨ cmd_put_regular textmode preserve o = true then [h] else []) := by
  obtain ⟨lo, lf, dir, sf, op, fd, tr, fs⟩ := o
  constructor
  · intro hnone
    cases lo <;> cases lf <;> cases dir <;> cases sf <;>
      simp [cmd_put_opened] at hnone <;>
      simp [cmd_put_flow, cmd_put_error, closes, hnone]
  · intro h hsome
    have hlen : h.length = 0 ↔ h = [] := List.length_eq_zero
    cases lo <;> cases lf <;> cases dir <;> cases sf <;> simp [cmd_put_opened] at hsome
    subst hsome
    cases textmode <;> cases fd <;> cases tr <;> cases preserve <;> cases fs <;>
      by_cases he : h = [] <;>
      simp [cmd_put_flow, cmd_put_error, closes, cmd_put_regular, he, hlen]

theorem cmd_ls_loop_closes (h : List Byte) (results : List ReaddirResult)
    (trace : List SftpOp) (hl : cmd_ls_loop h results = some trace) : closes trace = [h] := by
  induction results generalizing trace with
  | nil => exact Option.noConfusion hl
  | cons x rest ih =>
    cases x with
    | fail =>
      have := Option.some.inj hl
      subst this
      rfl
    | eof =>
      have := Option.some.inj hl
      subst this
      rfl
    | names =>
      rw [cmd_ls_loop] at hl
      obtain ⟨t, ht, rfl⟩ := Option.map_eq_some'.mp hl
      exact ih t ht

theorem cmd_ls_loop_ends (h : List Byte) (results : List ReaddirResult)
    (hend : ∃ x ∈ results, x ≠ ReaddirResult.names) :
    ∃ trace, cmd_ls_loop h results = some trace := by
  induction results with
  | nil => obtain ⟨x, hx, _⟩ := hend; exact absurd hx (List.not_mem_nil x)
  | cons x rest ih =>
    cases x with
    | fail => exact ⟨_, rfl⟩
    | eof => exact ⟨_, rfl⟩
    | names =>
      obtain ⟨y, hy, hne⟩ := hend
      rcases List.mem_cons.mp hy with rfl | hy'
      · exact absurd rfl hne
      · obtain ⟨t, ht⟩ := ih ⟨y, hy', hne⟩
        exact ⟨_, by rw [cmd_ls_loop, ht]; rfl⟩

theorem cmd_ls_closes (lstat listing : Bool) (opened : Option (List Byte))
    (results : List ReaddirResult) (trace : List SftpOp)
    (hl : cmd_ls_flow lstat listing opened results = some trace) :
    closes trace = if lstat = true ∧ listing = true then opened.toList else [] := by
  unfold cmd_ls_flow at hl
  cases lstat with
  | false =>
    have := Option.some.inj hl
    subst this
    simp [closes]
  | true =>
    cases listing with
    | false =>
      have := Option.some.inj hl
      subst this
      simp [closes]
    | true =>
      cases opened with
      | none =>
        have := Option.some.inj hl
        subst this
        simp [closes]
      | some h =>
        simp only [Bool.true_eq_false, if_false] at hl
        obtain ⟨t, ht, rfl⟩ := Option.map_eq_some'.mp hl
        simp only [closes, and_self, if_true, Option.toList]
        exact cmd_ls_loop_closes h results t ht

/-! ## Text mode and the order of replies -/

theorem get_translated_received (cfg : GetConfig) (remote : List Byte) (start : Nat)
    (events : List GetEvent) (r : reader_data) (htext : cfg.textmode = true)
    (hrun : get_run cfg remote events (reader_init cfg start) = some r) :
    r.translated =
      r.received.foldl (write_translated cfg.signedChar cfg.newline) write_translated_init := by
  refine get_run_induction cfg remote
    (fun r => r.translated =
      r.received.foldl (write_translated cfg.signedChar cfg.newline) write_translated_init)
    events (fun _ => True) ?_ (fun _ _ => trivial) _ _ rfl hrun
  intro r1 r2 ev _ hinv hstep
  cases ev with
  | send =>
    obtain ⟨_, _, n, _, rfl⟩ := reader_send_some cfg r1 r2 hstep
    exact hinv
  | answer j a =>
    obtain ⟨rq, _, hrecv⟩ := get_step_answer_some cfg remote r1 r2 j a hstep
    obtain ⟨_, _, _, _, _, _, hcase⟩ := reaper_recv_some _ _ _ _ hrecv
    rcases hcase with ⟨_, _, htr, hrc, _⟩ | ⟨_, _, _, id, payload, n, _, _, _, hrc, ht, _⟩
    · simp only at htr hrc
      rw [htr, hrc]; exact hinv
    · obtain ⟨_, htr⟩ := ht htext
      simp only at htr hrc
      rw [htr, hrc, List.foldl_append, ← hinv]
      rfl

theorem wrap_rounds_data_only (n : Nat) : data_only (wrap_rounds n) := by
  induction n with
  | zero => intro ev hev; simp [wrap_rounds] at hev
  | succ n ih =>
    intro ev hev
    simp only [wrap_rounds, List.mem_append, List.mem_cons, List.mem_singleton,
      List.not_mem_nil, or_false] at hev
    rcases hev with hev | rfl | rfl
    · exact ih ev hev
    · exact Or.inr ⟨1, rfl⟩
    · exact Or.inl rfl

/-! ## Ids, slots and transfers: claims -/

/-- C12, counterexample: in a transfer with two slots in which the server
leaves the first READ (id 1) unanswered while it answers the next 2^32 - 2
READs, the READ sent after the counter has wrapped gets id 1 again: both
slots then hold id 1 with both requests in flight. -/
theorem newid_reuses_id_in_flight :
    ∃ r, get_run wrap_config wrap_remote wrap_schedule (reader_init wrap_config 0) = some r ∧
      r.outstanding = 2 ∧ (r.pending.map fun q => q.id) = [1, 1] ∧
      ¬ ((occupied r.reqs).map fun q => q.id).Nodup := by
  obtain ⟨r, hrun, hreqs, hout, _, _, hpend⟩ := wrap_schedule_run
  refine ⟨r, hrun, hout, by rw [hpend]; rfl, ?_⟩
  rw [hreqs]
  decide

/-- C12 (amended): `newid` returns after at most two passes of its loop, never
returns 0, and returns the previous id plus one modulo 2^32, with 1 in place
of 0; ids allocated within one run of at most 2^32 - 1 consecutive
allocations are pairwise distinct, and so are the ids in the slots of a
transfer as long as it has sent at most 2^32 - 1 READs. -/
theorem newid_distinct_within_run (latestid : Nat) (h : latestid < 2 ^ 32) :
    newid_loop 2 latestid = some (newid latestid) ∧
    newid latestid ≠ 0 ∧ newid latestid < 2 ^ 32 ∧
    newid latestid = (if (latestid + 1) % 2 ^ 32 = 0 then 1 else (latestid + 1) % 2 ^ 32) ∧
    (∀ i j, i < j → j - i < 2 ^ 32 - 1 →
      newid_after latestid (i + 1) ≠ newid_after latestid (j + 1)) ∧
    (∀ cfg remote events r, get_run cfg remote events (reader_init cfg latestid) = some r →
      r.sent.length ≤ 2 ^ 32 - 1 → ((occupied r.reqs).map fun q => q.id).Nodup) := by
  refine ⟨newid_loop_eq 2 latestid (le_refl 2), newid_ne_zero latestid, newid_lt latestid, ?_,
    fun i j hij hrun => newid_after_injective latestid i j h hij hrun,
    fun cfg remote events r hrun hsent => get_slots_nodup cfg remote latestid events r h hrun hsent⟩
  unfold newid newid_pass
  split_ifs with h0
  · rw [h0]; norm_num
  · rfl

/-- Witness for `newid_distinct_within_run`: at the top of the counter the
next id is 1. -/
theorem newid_distinct_within_run_witness :
    (4294967295 : Nat) < 2 ^ 32 ∧
    newid 4294967295 = (if (4294967295 + 1) % 2 ^ 32 = 0 then 1 else (4294967295 + 1) % 2 ^ 32) ∧
    newid 4294967295 = 1 :=
  ⟨by norm_num, (newid_distinct_within_run 4294967295 (by norm_num)).2.2.2.1, by decide⟩

/-- C14, counterexample: a binary transfer of a file of 2^32 pieces of 64
bytes in which the reply to the first READ arrives last of all.  Every reply
is a DATA reply with the bytes asked for, yet the local file begins with the
bytes of the last piece. -/
theorem get_binary_wrap_counterexample :
    wrap_config.textmode = false ∧ wrap_remote.length = wrap_config.size ∧
    data_only (wrap_schedule ++ [GetEvent.answer 1 Answer.data, GetEvent.answer 0 Answer.data]) ∧
    ∃ r, get_run wrap_config wrap_remote
        (wrap_schedule ++ [GetEvent.answer 1 Answer.data, GetEvent.answer 0 Answer.data])
        (reader_init wrap_config 0) = some r ∧
      r.outstanding = 0 ∧ r.eof = true ∧ r.failed = false ∧
      get_result wrap_config r ≠ wrap_remote := by
  refine ⟨rfl, ?_, ?_, ?_⟩
  · unfold wrap_remote wrap_config
    rw [List.length_append, List.length_replicate, List.length_replicate]
    norm_num
  · intro ev hev
    rw [List.mem_append] at hev
    rcases hev with hev | hev
    · unfold wrap_schedule at hev
      rw [List.mem_append] at hev
      rcases hev with hev | hev
      · simp only [List.mem_cons, List.mem_singleton, List.not_mem_nil, or_false] at hev
        rcases hev with rfl | rfl <;> exact Or.inl rfl
      · exact wrap_rounds_data_only _ ev hev
    · simp only [List.mem_cons, List.mem_singleton, List.not_mem_nil, or_false] at hev
      rcases hev with rfl | rfl
      · exact Or.inr ⟨1, rfl⟩
      · exact Or.inr ⟨0, rfl⟩
  · obtain ⟨r, hrun, hres⟩ := wrap_schedule_run
    obtain ⟨r', hrun', hout, heof, hfailed, hfile⟩ := wrap_tail r hres
    refine ⟨r', ?_, hout, heof, hfailed, ?_⟩
    · rw [get_run_append, hrun]
      exact hrun'
    · intro heq
      have hres' : get_result wrap_config r' = r'.file := rfl
      rw [hres'] at heq
      rw [heq, wrap_remote_head] at hfile
      exact absurd hfile (by decide)

/-- C14 (amended): in a binary-mode GET of a file of known size that takes at
most 2^32 - 1 READ requests, for every order in which the DATA replies are
received, each with the bytes asked for, the local file after all replies
have been processed is byte-equal to the server file. -/
theorem get_binary_any_order (cfg : GetConfig) (remote : List Byte) (start : Nat)
    (events : List GetEvent) (r : reader_data)
    (hB : 0 < cfg.buffersize) (hB32 : cfg.buffersize < 2 ^ 32) (hsize : cfg.size < 2 ^ 64)
    (htext : cfg.textmode = false) (hlen : remote.length = cfg.size)
    (hstart : start < 2 ^ 32) (hcount : read_count cfg.size cfg.buffersize ≤ 2 ^ 32 - 1)
    (hdata : data_only events)
    (hrun : get_run cfg remote events (reader_init cfg start) = some r)
    (heof : r.eof = true) (hout : r.outstanding = 0) :
    get_result cfg r = remote := by
  obtain ⟨hinv, hfile⟩ := GetFileInv_run cfg remote start events r hB hB32 hsize htext hlen
    hstart hcount hdata hrun
  unfold get_result
  rw [if_neg (by rw [htext]; exact Bool.false_ne_true)]
  exact get_file_complete cfg remote start r hB hlen hinv hfile heof hout

/-- Witness for `get_binary_any_order`: three bytes fetched in pieces of two,
the reply to the second READ arriving first. -/
theorem get_binary_any_order_witness :
    ∃ r, get_run ⟨2, 2, 3, false, false, [13, 10]⟩ [1, 2, 3]
        [GetEvent.send, GetEvent.send, GetEvent.answer 1 Answer.data,
          GetEvent.answer 0 Answer.data]
        (reader_init ⟨2, 2, 3, false, false, [13, 10]⟩ 0) = some r ∧
      r.eof = true ∧ r.outstanding = 0 ∧
      get_result ⟨2, 2, 3, false, false, [13, 10]⟩ r = [1, 2, 3] :=
  ⟨_, rfl, rfl, rfl,
    get_binary_any_order ⟨2, 2, 3, false, false, [13, 10]⟩ [1, 2, 3] 0
      [GetEvent.send, GetEvent.send, GetEvent.answer 1 Answer.data,
        GetEvent.answer 0 Answer.data] _
      (by decide) (by decide) (by decide) rfl rfl (by decide) (by decide)
      (by
        intro ev hev
        simp only [List.mem_cons, List.mem_singleton, List.not_mem_nil, or_false] at hev
        rcases hev with rfl | rfl | rfl | rfl
        · exact Or.inl rfl
        · exact Or.inl rfl
        · exact Or.inr ⟨1, rfl⟩
        · exact Or.inr ⟨0, rfl⟩)
      rfl rfl rfl⟩

/-- C15: for a file of known size S fetched in pieces of B bytes with DATA
replies only, the READs sent so far are those at offsets 0, B, 2B, ... with
len = min(B, S - offset); sending stops exactly when max(1, ceil(S/B)) READs
have been sent and goes on before that whenever a slot is free; every byte
of [0, S) lies in the range of exactly one of these READs; some schedule
runs the transfer to its end; and S = 102400, B = 32768 gives four READs. -/
theorem get_issues_expected_reads (cfg : GetConfig) (remote : List Byte) (start : Nat)
    (events : List GetEvent) (r : reader_data)
    (hB : 0 < cfg.buffersize) (hB32 : cfg.buffersize < 2 ^ 32) (hsize : cfg.size < 2 ^ 64)
    (hdata : data_only events)
    (hrun : get_run cfg remote events (reader_init cfg start) = some r) :
    (r.sent.map fun q => (q.offset, q.len)) =
      expected_reads cfg.size cfg.buffersize r.sent.length ∧
    r.sent.length ≤ read_count cfg.size cfg.buffersize ∧
    (r.eof = true ↔ r.sent.length = read_count cfg.size cfg.buffersize) ∧
    (r.eof = true → get_step cfg remote r GetEvent.send = none) ∧
    (r.eof = false → r.outstanding < cfg.nrequests →
      ∃ r', get_step cfg remote r GetEvent.send = some r') ∧
    (∀ i, i < cfg.size → ∀ k,
      (k < read_count cfg.size cfg.buffersize ∧ k * cfg.buffersize ≤ i ∧
        i < k * cfg.buffersize + chunk_len cfg.size cfg.buffersize k) ↔
      k = i / cfg.buffersize) ∧
    (0 < cfg.nrequests →
      ∃ r', get_run cfg remote (serial_schedule (read_count cfg.size cfg.buffersize))
          (reader_init cfg start) = some r' ∧
        r'.eof = true ∧ r'.outstanding = 0 ∧
        r'.sent.length = read_count cfg.size cfg.buffersize) ∧
    expected_reads 102400 32768 (read_count 102400 32768) =
      [(0, 32768), (32768, 32768), (65536, 32768), (98304, 4096)] := by
  have hinv := GetDataInv_run cfg remote start events r hB hB32 hsize hdata hrun
  refine ⟨?_, sent_le_read_count cfg start r hB hinv, ⟨?_, ?_⟩, ?_, ?_, ?_, ?_, by decide⟩
  · have hs := hinv.sent_eq
    generalize r.sent.length = m at hs
    rw [hs, List.map_map]
    rfl
  · intro heof
    obtain ⟨hpos, hcov⟩ := hinv.eof_true heof
    exact read_count_eq cfg.size cfg.buffersize r.sent.length hB hpos hcov hinv.started
  · intro hlen
    cases he : r.eof with
    | true => rfl
    | false =>
      have := read_count_gt cfg.size cfg.buffersize r.sent.length hB (hinv.eof_false he)
      omega
  · intro heof
    simp only [get_step, reader_send, reader_transmit]
    rw [if_neg]
    rw [heof]
    simp
  · intro heof hout
    exact reader_send_ok cfg start r hinv heof hout
  · intro i hi
    exact chunk_cover cfg.size cfg.buffersize i hB hi
  · intro hn
    exact serial_schedule_completes cfg remote start hB hB32 hsize hn

/-- Witness for `get_issues_expected_reads`: three bytes fetched in pieces of
two take the READs (0, 2) and (2, 1). -/
theorem get_issues_expected_reads_witness :
    ∃ r, get_run ⟨2, 2, 3, false, false, [13, 10]⟩ [1, 2, 3]
        [GetEvent.send, GetEvent.send, GetEvent.answer 1 Answer.data,
          GetEvent.answer 0 Answer.data]
        (reader_init ⟨2, 2, 3, false, false, [13, 10]⟩ 0) = some r ∧
      (r.sent.map fun q => (q.offset, q.len)) = [(0, 2), (2, 1)] ∧
      (r.sent.map fun q => (q.offset, q.len)) = expected_reads 3 2 r.sent.length :=
  ⟨_, rfl, rfl,
    (get_issues_expected_reads ⟨2, 2, 3, false, false, [13, 10]⟩ [1, 2, 3] 0
      [GetEvent.send, GetEvent.send, GetEvent.answer 1 Answer.data,
        GetEvent.answer 0 Answer.data] _
      (by decide) (by decide) (by decide)
      (by
        intro ev hev
        simp only [List.mem_cons, List.mem_singleton, List.not_mem_nil, or_false] at hev
        rcases hev with rfl | rfl | rfl | rfl
        · exact Or.inl rfl
        · exact Or.inl rfl
        · exact Or.inr ⟨1, rfl⟩
        · exact Or.inr ⟨0, rfl⟩)
      rfl).1⟩

/-! ## Slots and requests in transit -/

/-- Filling a free slot adds the new request to the occupied slots. -/
theorem occupied_set_at_free (l : List outstanding_read) (n : Nat) (q x : outstanding_read)
    (h : l[n]? = some q) (hq : q.id = 0) (hx : x.id ≠ 0) :
    List.Perm (occupied (l.set n x)) (x :: occupied l) := by
  induction l generalizing n with
  | nil => simp at h
  | cons r rest ih =>
    cases n with
    | zero =>
      simp only [List.getElem?_cons_zero, Option.some.injEq] at h
      subst h
      rw [List.set_cons_zero, occupied_cons_used x rest hx, occupied_cons_free r rest hq]
    | succ n =>
      simp only [List.getElem?_cons_succ] at h
      rw [List.set_cons_succ]
      by_cases hr : r.id = 0
      · rw [occupied_cons_free r _ hr, occupied_cons_free r rest hr]
        exact ih n h
      · rw [occupied_cons_used r _ hr, occupied_cons_used r rest hr]
        exact ((ih n h).cons r).trans (List.Perm.swap x r _)

/-- What the first half of a pass does, field by field. -/
theorem reader_transmit_some (cfg : GetConfig) (r r' : reader_data) (n id : Nat)
    (h : reader_transmit cfg r = some (r', n, id)) :
    r.outstanding < cfg.nrequests ∧ r.eof = false ∧ find_slot 0 r.reqs = some n ∧
    id = newid r.latestid ∧ r'.reqs = r.reqs ∧ r'.outstanding = r.outstanding ∧
    r'.failed = r.failed ∧
    ∃ q : ReadRequest, q.id = id ∧ r'.pending = r.pending ++ [q] := by
  unfold reader_transmit at h
  by_cases hc : r.outstanding < cfg.nrequests ∧ r.eof = false
  · rw [if_pos hc] at h
    cases hf : find_slot 0 r.reqs with
    | none => rw [hf] at h; exact Option.noConfusion h
    | some m =>
      rw [hf] at h
      simp only [Option.some.injEq, Prod.mk.injEq] at h
      obtain ⟨h1, h2, h3⟩ := h
      subst h1 h2 h3
      exact ⟨hc.1, hc.2, rfl, rfl, rfl, rfl, rfl, _, rfl, rfl⟩
  · rw [if_neg hc] at h
    exact Option.noConfusion h

theorem get_thread_run_induction (cfg : GetConfig) (remote : List Byte)
    (P : GetThreads → Prop) (events : List GetThreadEvent) (good : GetThreadEvent → Prop)
    (hstep : ∀ s s' ev, good ev → P s → get_thread_step cfg remote s ev = some s' → P s')
    (hgood : ∀ ev ∈ events, good ev)
    (s s' : GetThreads) (h0 : P s) (hrun : get_thread_run cfg remote events s = some s') :
    P s' := by
  induction events generalizing s with
  | nil =>
    rw [get_thread_run] at hrun
    exact (Option.some.inj hrun) ▸ h0
  | cons ev rest ih =>
    rw [get_thread_run] at hrun
    cases hs : get_thread_step cfg remote s ev with
    | none => rw [hs] at hrun; exact Option.noConfusion hrun
    | some s1 =>
      rw [hs] at hrun
      exact ih (fun e he => hgood e (List.mem_cons_of_mem _ he)) s1
        (hstep s s1 ev (hgood ev (List.mem_cons_self _ _)) h0 hs) hrun

theorem get_thread_step_answer (cfg : GetConfig) (remote : List Byte) (s s' : GetThreads)
    (j : Nat) (a : Answer)
    (h : get_thread_step cfg remote s (GetThreadEvent.answer j a) = some s') :
    s'.reader = s.reader ∧ get_step cfg remote s.data (GetEvent.answer j a) = some s'.data := by
  simp only [get_thread_step] at h
  split_ifs at h with hc
  cases hg : get_step cfg remote s.data (GetEvent.answer j a) with
  | none => rw [hg] at h; exact Option.noConfusion h
  | some r =>
    rw [hg] at h
    have := Option.some.inj h
    subst this
    exact ⟨rfl, rfl⟩

/-- What a step of the threads of `cmd_get` changes. -/
theorem get_thread_step_some (cfg : GetConfig) (remote : List Byte) (s s' : GetThreads)
    (ev : GetThreadEvent) (h : get_thread_step cfg remote s ev = some s') :
    (reader_in_transit s.reader = [] ∧ reader_in_transit s'.reader = [] ∧
      (∀ n id, s'.reader ≠ ReaderPc.sending n id) ∧ s'.data = s.data) ∨
    (reader_in_transit s.reader = [] ∧
      ∃ n id, s'.reader = ReaderPc.sending n id ∧
        reader_transmit cfg s.data = some (s'.data, n, id)) ∨
    (∃ n id, s.reader = ReaderPc.sending n id ∧ s'.reader = ReaderPc.inner ∧
        s'.data = reader_record cfg s.data n id) ∨
    (s'.reader = s.reader ∧
      ∃ j a, ev = GetThreadEvent.answer j a ∧
        get_step cfg remote s.data (GetEvent.answer j a) = some s'.data) := by
  cases ev with
  | wake =>
    left
    simp only [get_thread_step] at h
    by_cases hw : s.reader = ReaderPc.waiting
    · rw [if_pos hw] at h
      have := Option.some.inj h
      subst this
      refine ⟨by rw [hw]; rfl, ?_, ?_, rfl⟩
      · simp only []
        split_ifs <;> rfl
      · intro n id
        simp only []
        split_ifs <;> exact fun hh => ReaderPc.noConfusion hh
    · rw [if_neg hw] at h
      exact Option.noConfusion h
  | transmit =>
    right; left
    simp only [get_thread_step] at h
    by_cases hw : s.reader = ReaderPc.inner
    · rw [if_pos hw] at h
      cases ht : reader_transmit cfg s.data with
      | none => rw [ht] at h; exact Option.noConfusion h
      | some x =>
        obtain ⟨r, n, id⟩ := x
        rw [ht] at h
        have := Option.some.inj h
        subst this
        exact ⟨by rw [hw]; rfl, n, id, rfl, rfl⟩
    · rw [if_neg hw] at h
      exact Option.noConfusion h
  | record =>
    right; right; left
    simp only [get_thread_step] at h
    cases hp : s.reader with
    | sending n id =>
      rw [hp] at h
      have := Option.some.inj h
      subst this
      exact ⟨n, id, rfl, rfl, rfl⟩
    | waiting => rw [hp] at h; exact Option.noConfusion h
    | inner => rw [hp] at h; exact Option.noConfusion h
    | exited => rw [hp] at h; exact Option.noConfusion h
  | sleep =>
    left
    simp only [get_thread_step] at h
    split_ifs at h with hc
    have := Option.some.inj h
    subst this
    exact ⟨by rw [hc.1]; rfl, rfl, fun n id hh => ReaderPc.noConfusion hh, rfl⟩
  | answer j a =>
    right; right; right
    obtain ⟨hp, hg⟩ := get_thread_step_answer cfg remote s s' j a h
    exact ⟨hp, j, a, rfl, hg⟩

theorem GetThreadsInv_init (cfg : GetConfig) (start : Nat) :
    GetThreadsInv (get_threads_init cfg start) := by
  refine ⟨?_, ?_, ?_, rfl, Nat.zero_le _⟩
  · intro q hq; simp [get_threads_init, reader_init] at hq
  · intro id hid; simp [get_threads_init, reader_in_transit] at hid
  · intro n id h; exact ReaderPc.noConfusion h

theorem GetThreadsInv_step (cfg : GetConfig) (remote : List Byte) (s s' : GetThreads)
    (ev : GetThreadEvent) (hinv : GetThreadsInv s)
    (h : get_thread_step cfg remote s ev = some s') : GetThreadsInv s' := by
  rcases get_thread_step_some cfg remote s s' ev h with
    ⟨h1, h2, h3, hd⟩ | ⟨h1, n, id, hp, ht⟩ | ⟨n, id, hp, hp', hd⟩ | ⟨hp, j, a, _, hg⟩
  · refine ⟨?_, ?_, ?_, ?_, ?_⟩
    · rw [hd]; exact hinv.ids_ne
    · rw [h2]; intro id hid; exact absurd hid (List.not_mem_nil id)
    · intro n id hh; exact absurd hh (h3 n id)
    · rw [hd, h2, hinv.count, h1]
    · rw [hd]; exact hinv.slots_ge
  · obtain ⟨_, _, hslot, hid, hreqs, hout, _, q, hqid, hpend⟩ :=
      reader_transmit_some cfg s.data s'.data n id ht
    have hne : id ≠ 0 := by rw [hid]; exact newid_ne_zero _
    refine ⟨?_, ?_, ?_, ?_, ?_⟩
    · intro x hx
      rw [hpend] at hx
      simp only [List.mem_append, List.mem_singleton] at hx
      rcases hx with hx | rfl
      · exact hinv.ids_ne x hx
      · rw [hqid]; exact hne
    · rw [hp]
      intro x hx
      simp only [reader_in_transit, List.mem_singleton] at hx
      rw [hx]; exact hne
    · intro m id' hh
      rw [hp] at hh
      cases hh
      rw [hreqs]
      exact find_slot_spec 0 s.data.reqs n hslot
    · rw [hpend, hout, hp]
      simp only [List.length_append, List.length_singleton, reader_in_transit]
      rw [hinv.count, h1]
      rfl
    · rw [hout, hreqs]; exact hinv.slots_ge
  · obtain ⟨q, hq, hq0⟩ := hinv.slot_free n id hp
    have hne : id ≠ 0 := hinv.transit_ne id (by rw [hp]; simp [reader_in_transit])
    have hperm := occupied_set_at_free s.data.reqs n q ⟨id, s.data.next_offset⟩ hq hq0 hne
    refine ⟨?_, ?_, ?_, ?_, ?_⟩
    · rw [hd]; exact hinv.ids_ne
    · rw [hp']; intro x hx; simp [reader_in_transit] at hx
    · intro m id' hh; rw [hp'] at hh; exact ReaderPc.noConfusion hh
    · rw [hd, hp']
      simp only [reader_record, reader_in_transit, List.length_nil, Nat.add_zero]
      rw [hinv.count, hp]
      rfl
    · rw [hd]
      simp only [reader_record]
      rw [hperm.length_eq, List.length_cons]
      exact Nat.succ_le_succ hinv.slots_ge
  · obtain ⟨rq, hrq, hrecv⟩ := get_step_answer_some cfg remote s.data s'.data j a hg
    obtain ⟨hout0, hout, _, _, hpend, _, hcase⟩ := reaper_recv_some _ _ _ _ hrecv
    simp only at hout0 hout hpend
    have hjlt : j < s.data.pending.length := by
      rcases Nat.lt_or_ge j s.data.pending.length with hlt | hge
      · exact hlt
      · rw [List.getElem?_eq_none hge] at hrq
        exact Option.noConfusion hrq
    have hmem : rq ∈ s.data.pending := by
      rw [List.getElem?_eq_getElem hjlt] at hrq
      cases hrq
      exact List.getElem_mem _
    have hidne : rq.id ≠ 0 := hinv.ids_ne rq hmem
    have hcount := hinv.count
    have hge := hinv.slots_ge
    refine ⟨?_, ?_, ?_, ?_, ?_⟩
    · intro x hx
      rw [hpend] at hx
      exact hinv.ids_ne x ((List.eraseIdx_sublist _ _).subset hx)
    · rw [hp]; exact hinv.transit_ne
    · intro m id' hh
      rw [hp] at hh
      obtain ⟨q, hq, hq0⟩ := hinv.slot_free m id' hh
      rcases hcase with ⟨hreqs, _⟩ | ⟨_, _, _, id2, payload, k, _, _, hreqs, _⟩
      · simp only at hreqs
        rw [hreqs]; exact ⟨q, hq, hq0⟩
      · simp only at hreqs
        rw [hreqs, List.getElem?_set]
        by_cases hkm : k = m
        · rw [if_pos hkm]
          have hlt : m < s.data.reqs.length := by
            rcases Nat.lt_or_ge m s.data.reqs.length with hlt | hge
            · exact hlt
            · rw [List.getElem?_eq_none hge] at hq
              exact Option.noConfusion hq
          rw [hkm, if_pos hlt]
          exact ⟨_, rfl, rfl⟩
        · rw [if_neg hkm]; exact ⟨q, hq, hq0⟩
    · rw [hpend, hout, hp, List.length_eraseIdx, if_pos hjlt]
      omega
    · rcases hcase with ⟨hreqs, _⟩ | ⟨_, _, _, id2, payload, k, hreply, hslot, hreqs, _⟩
      · simp only at hreqs
        rw [hreqs, hout]; omega
      · simp only at hreqs hslot
        have hid2 : id2 = rq.id := by
          cases a with
          | data =>
            simp only [answer_reply, Reply.data.injEq] at hreply
            exact hreply.1.symm
          | status code => simp [answer_reply] at hreply
        rw [hid2] at hslot
        obtain ⟨r0, _, _, hperm⟩ :=
          occupied_clear s.data.reqs rq.id k (s.data.reqs.getD k ⟨0, 0⟩).offset hslot hidne
        have hl := hperm.length_eq
        rw [List.length_cons] at hl
        rw [hreqs, hout]
        omega

theorem GetThreadsInv_run (cfg : GetConfig) (remote : List Byte) (start : Nat)
    (events : List GetThreadEvent) (s : GetThreads)
    (hrun : get_thread_run cfg remote events (get_threads_init cfg start) = some s) :
    GetThreadsInv s :=
  get_thread_run_induction cfg remote GetThreadsInv events (fun _ => True)
    (fun s1 s2 ev _ hinv hstep => GetThreadsInv_step cfg remote s1 s2 ev hinv hstep)
    (fun _ _ => trivial) _ _ (GetThreadsInv_init cfg start) hrun

theorem passes_append (e1 e2 : List GetThreadEvent) :
    passes (e1 ++ e2) = passes e1 ++ passes e2 := by
  induction e1 with
  | nil => rfl
  | cons ev rest ih =>
    cases ev <;> simp [passes, ih]

theorem get_thread_run_append (cfg : GetConfig) (remote : List Byte)
    (e1 e2 : List GetThreadEvent) (s : GetThreads) :
    get_thread_run cfg remote (e1 ++ e2) s =
      match get_thread_run cfg remote e1 s with
      | none => none
      | some s1 => get_thread_run cfg remote e2 s1 := by
  induction e1 generalizing s with
  | nil => rfl
  | cons ev rest ih =>
    rw [List.cons_append, get_thread_run, get_thread_run]
    cases get_thread_step cfg remote s ev with
    | none => rfl
    | some s1 => exact ih s1

/-- A search for an id is not affected by a slot that held and holds another
id. -/
theorem find_slot_set_other (id : Nat) (l : List outstanding_read) (n : Nat)
    (q x : outstanding_read) (h : l[n]? = some q) (hq : q.id ≠ id) (hx : x.id ≠ id) :
    find_slot id (l.set n x) = find_slot id l := by
  induction l generalizing n with
  | nil => rfl
  | cons r rest ih =>
    cases n with
    | zero =>
      simp only [List.getElem?_cons_zero, Option.some.injEq] at h
      subst h
      rw [List.set_cons_zero, find_slot, find_slot, if_neg hx, if_neg hq]
    | succ n =>
      simp only [List.getElem?_cons_succ] at h
      rw [List.set_cons_succ, find_slot, find_slot, ih n h]

/-- Processing a reply and recording the READ in transit can be done in
either order, as long as the reply is not matched with the id in transit. -/
theorem reaper_recv_record (cfg : GetConfig) (d d' : reader_data) (reply : Reply)
    (n id : Nat) (q : outstanding_read) (hq : d.reqs[n]? = some q) (hq0 : q.id = 0)
    (hid : ∀ rid payload m, reply = Reply.data rid payload → d.failed = false →
      find_slot rid d.reqs = some m → rid ≠ 0 ∧ rid ≠ id)
    (h : reaper_recv cfg d reply = some d') :
    reaper_recv cfg (reader_record cfg d n id) reply = some (reader_record cfg d' n id) := by
  obtain ⟨latestid, reqs, next_offset, outstanding, eof, failed, file, translated, sent,
    pending, received⟩ := d
  simp only at hq hid
  unfold reaper_recv at h ⊢
  simp only [reader_record] at h ⊢
  by_cases h0 : outstanding = 0
  · rw [if_pos h0] at h; exact Option.noConfusion h
  · rw [if_neg h0] at h
    rw [if_neg (Nat.succ_ne_zero outstanding)]
    have harith : outstanding - 1 + 1 = outstanding := by omega
    have harith' : outstanding + 1 - 1 = outstanding := by omega
    rw [harith']
    cases failed with
    | true =>
      simp only [if_true] at h ⊢
      have := Option.some.inj h
      subst this
      simp only [harith]
    | false =>
      simp only [Bool.false_eq_true, if_false] at h ⊢
      cases reply with
      | status rid code =>
        simp only at h ⊢
        by_cases hc : code = SSH_FX_EOF
        · rw [if_pos hc] at h ⊢
          have := Option.some.inj h
          subst this
          simp only [harith]
        · rw [if_neg hc] at h ⊢
          have := Option.some.inj h
          subst this
          simp only [harith]
      | data rid payload =>
        simp only at h ⊢
        cases hs : find_slot rid reqs with
        | none => rw [hs] at h; exact Option.noConfusion h
        | some m =>
          obtain ⟨hr0, hrid⟩ := hid rid payload m rfl rfl hs
          have hfs : find_slot rid (reqs.set n ⟨id, next_offset⟩) = some m := by
            rw [find_slot_set_other rid reqs n q _ hq (by rw [hq0]; exact fun e => hr0 e.symm)
              (fun e => hrid e.symm)]
            exact hs
          obtain ⟨r0, hr0m, hr0id⟩ := find_slot_spec rid reqs m hs
          have hmn : m ≠ n := by
            intro e
            rw [e, hq] at hr0m
            cases hr0m
            exact hr0 (hr0id.symm.trans hq0)
          have hget : (reqs.set n ⟨id, next_offset⟩).getD m ⟨0, 0⟩ = reqs.getD m ⟨0, 0⟩ := by
            simp only [List.getD_eq_getElem?_getD, List.getElem?_set_ne (Ne.symm hmn)]
          have hcomm : ∀ y, (reqs.set n ⟨id, next_offset⟩).set m y
              = (reqs.set m y).set n ⟨id, next_offset⟩ :=
            fun y => List.set_comm _ _ _ (Ne.symm hmn)
          rw [hs] at h
          rw [hfs]
          by_cases ht : cfg.textmode = true
          · simp only [if_pos ht] at h ⊢
            have := Option.some.inj h
            subst this
            simp only [hget, hcomm, harith]
          · simp only [if_neg ht] at h ⊢
            have := Option.some.inj h
            subst this
            simp only [hget, hcomm, harith]
      | other t rid => exact Option.noConfusion h

theorem reader_transmit_sent (cfg : GetConfig) (r r' : reader_data) (n id : Nat)
    (h : reader_transmit cfg r = some (r', n, id)) :
    r'.sent.length = r.sent.length + 1 ∧ r'.next_offset = r.next_offset := by
  unfold reader_transmit at h
  split_ifs at h with hc
  cases hf : find_slot 0 r.reqs with
  | none => rw [hf] at h; exact Option.noConfusion h
  | some m =>
    rw [hf] at h
    simp only [Option.some.injEq, Prod.mk.injEq] at h
    obtain ⟨h1, _, _⟩ := h
    subst h1
    simp

/-- No step of the threads takes a READ back. -/
theorem get_thread_step_sent_le (cfg : GetConfig) (remote : List Byte) (s s' : GetThreads)
    (ev : GetThreadEvent) (h : get_thread_step cfg remote s ev = some s') :
    s.data.sent.length ≤ s'.data.sent.length := by
  rcases get_thread_step_some cfg remote s s' ev h with
    ⟨_, _, _, hd⟩ | ⟨_, n, id, _, ht⟩ | ⟨n, id, _, _, hd⟩ | ⟨_, j, a, _, hg⟩
  · rw [hd]
  · rw [(reader_transmit_sent cfg s.data s'.data n id ht).1]
    exact Nat.le_succ _
  · rw [hd]
    exact Nat.le_refl _
  · obtain ⟨rq, _, hrecv⟩ := get_step_answer_some cfg remote s.data s'.data j a hg
    obtain ⟨_, _, hsent, _⟩ := reaper_recv_some _ _ _ _ hrecv
    rw [hsent]

/-- One step of the threads is no event or one event of `get_step` on the
state with the READ in transit recorded, as long as the ids of the transfer
are distinct. -/
theorem get_thread_step_passes (cfg : GetConfig) (remote : List Byte) (start : Nat)
    (E : List GetEvent) (s s' : GetThreads) (ev : GetThreadEvent) (hstart : start < 2 ^ 32)
    (hinv : GetThreadsInv s)
    (hrec : get_run cfg remote E (reader_init cfg start) = some (reader_recorded cfg s))
    (hsent : s.data.sent.length ≤ 2 ^ 32 - 1)
    (h : get_thread_step cfg remote s ev = some s') :
    get_run cfg remote (E ++ passes [ev]) (reader_init cfg start)
      = some (reader_recorded cfg s') := by
  rw [get_run_append, hrec]
  simp only
  cases ev with
  | wake =>
    simp only [get_thread_step] at h
    by_cases hw : s.reader = ReaderPc.waiting
    · rw [if_pos hw] at h
      have := Option.some.inj h
      subst this
      simp only [passes, get_run, reader_recorded, hw]
      split_ifs <;> rfl
    · rw [if_neg hw] at h
      exact Option.noConfusion h
  | sleep =>
    simp only [get_thread_step] at h
    split_ifs at h with hw
    have := Option.some.inj h
    subst this
    simp only [passes, get_run, reader_recorded, hw.1]
  | transmit =>
    simp only [get_thread_step] at h
    split_ifs at h with hw
    cases ht : reader_transmit cfg s.data with
    | none => rw [ht] at h; exact Option.noConfusion h
    | some x =>
      obtain ⟨r, n, id⟩ := x
      rw [ht] at h
      have := Option.some.inj h
      subst this
      simp only [passes, get_run, get_step, reader_send, reader_recorded, hw, ht]
  | record =>
    simp only [get_thread_step] at h
    cases hp : s.reader with
    | sending n id =>
      rw [hp] at h
      have := Option.some.inj h
      subst this
      simp only [passes, get_run, reader_recorded, hp]
    | waiting => rw [hp] at h; exact Option.noConfusion h
    | inner => rw [hp] at h; exact Option.noConfusion h
    | exited => rw [hp] at h; exact Option.noConfusion h
  | answer j a =>
    obtain ⟨hp, hg⟩ := get_thread_step_answer cfg remote s s' j a h
    simp only [passes, get_run]
    have hgoal : get_step cfg remote (reader_recorded cfg s) (GetEvent.answer j a)
        = some (reader_recorded cfg s') := by
      cases hr : s.reader with
      | sending n id =>
        have hr' : s'.reader = ReaderPc.sending n id := by rw [hp, hr]
        simp only [reader_recorded, hr, hr']
        obtain ⟨rq, hrq, hrecv⟩ := get_step_answer_some cfg remote s.data s'.data j a hg
        obtain ⟨q, hq, hq0⟩ := hinv.slot_free n id hr
        have hidne : id ≠ 0 := hinv.transit_ne id (by rw [hr]; simp [reader_in_transit])
        have hnd := get_slots_nodup cfg remote start E (reader_recorded cfg s) hstart hrec
          (by simp only [reader_recorded, hr, reader_record]; exact hsent)
        simp only [reader_recorded, hr, reader_record] at hnd
        have hperm := (occupied_set_at_free s.data.reqs n q ⟨id, s.data.next_offset⟩ hq hq0
          hidne).map (fun q => q.id)
        have hnd2 := hperm.nodup_iff.mp hnd
        simp only [List.map_cons, List.nodup_cons] at hnd2
        have hcomm := reaper_recv_record cfg
          { s.data with pending := s.data.pending.eraseIdx j } s'.data
          (answer_reply remote rq a) n id q hq hq0 ?_ hrecv
        · unfold get_step
          simp only [List.get?_eq_getElem?, reader_record]
          rw [hrq]
          exact hcomm
        · intro rid payload m hreply _ hslot
          have hrid : rid = rq.id := by
            cases a with
            | data =>
              simp only [answer_reply, Reply.data.injEq] at hreply
              exact hreply.1.symm
            | status code => simp [answer_reply] at hreply
          have hne0 : rq.id ≠ 0 := hinv.ids_ne rq (List.getElem?_mem hrq)
          rw [hrid]
          refine ⟨hne0, ?_⟩
          intro e
          simp only at hslot
          obtain ⟨r0, hr0, hr0id⟩ := find_slot_spec rid s.data.reqs m hslot
          apply hnd2.1
          rw [← e, ← hrid, ← hr0id]
          refine List.mem_map.mpr ⟨r0, ?_, rfl⟩
          unfold occupied
          refine List.mem_filter.mpr ⟨List.getElem?_mem hr0, ?_⟩
          simp only [ne_eq, decide_not, Bool.not_eq_eq_eq_not, Bool.not_true, decide_eq_false_iff_not]
          rw [hr0id, hrid]
          exact hne0
      | waiting =>
        have hr' : s'.reader = ReaderPc.waiting := by rw [hp, hr]
        simp only [reader_recorded, hr, hr']
        exact hg
      | inner =>
        have hr' : s'.reader = ReaderPc.inner := by rw [hp, hr]
        simp only [reader_recorded, hr, hr']
        exact hg
      | exited =>
        have hr' : s'.reader = ReaderPc.exited := by rw [hp, hr]
        simp only [reader_recorded, hr, hr']
        exact hg
    rw [hgoal]

/-- A run of the two threads of `cmd_get`, seen at the points where no READ
is in transit, is a run of whole passes and replies: as long as the ids of the
transfer are distinct, the run of its `transmit` and `answer` events through
`get_step` ends in the state of the threads, with the READ in transit
recorded. -/
theorem get_thread_run_passes (cfg : GetConfig) (remote : List Byte) (start : Nat)
    (events : List GetThreadEvent) (s : GetThreads) (hstart : start < 2 ^ 32)
    (hrun : get_thread_run cfg remote events (get_threads_init cfg start) = some s)
    (hsent : s.data.sent.length ≤ 2 ^ 32 - 1) :
    get_run cfg remote (passes events) (reader_init cfg start)
      = some (reader_recorded cfg s) := by
  induction events using List.reverseRecOn generalizing s with
  | nil =>
    rw [get_thread_run] at hrun
    have := Option.some.inj hrun
    subst this
    rfl
  | append_singleton es e ih =>
    rw [get_thread_run_append] at hrun
    cases h1 : get_thread_run cfg remote es (get_threads_init cfg start) with
    | none => rw [h1] at hrun; exact Option.noConfusion hrun
    | some s1 =>
      rw [h1] at hrun
      simp only [get_thread_run] at hrun
      cases h2 : get_thread_step cfg remote s1 e with
      | none => rw [h2] at hrun; exact Option.noConfusion hrun
      | some s2 =>
        rw [h2] at hrun
        have := Option.some.inj hrun
        subst this
        have hle := get_thread_step_sent_le cfg remote s1 s2 e h2
        rw [passes_append]
        exact get_thread_step_passes cfg remote start (passes es) s1 s2 e hstart
          (GetThreadsInv_run cfg remote start es s1 h1)
          (ih s1 h1 (Nat.le_trans hle hsent)) (Nat.le_trans hle hsent) h2

theorem passes_data_only (events : List GetThreadEvent) (h : data_replies events) :
    data_only (passes events) := by
  induction events with
  | nil => intro ev hev; exact absurd hev (List.not_mem_nil ev)
  | cons e rest ih =>
    have hrest : data_replies rest := fun j a hm => h j a (List.mem_cons_of_mem _ hm)
    cases e with
    | wake => exact ih hrest
    | record => exact ih hrest
    | sleep => exact ih hrest
    | transmit =>
      intro ev hev
      rcases List.mem_cons.mp hev with rfl | hev
      · exact Or.inl rfl
      · exact ih hrest ev hev
    | answer j a =>
      intro ev hev
      rcases List.mem_cons.mp hev with rfl | hev
      · exact Or.inr ⟨j, by rw [h j a (List.mem_cons_self _ _)]⟩
      · exact ih hrest ev hev

theorem data_reply_accepted (cfg : GetConfig) (remote : List Byte) (r : reader_data)
    (hinv : GetSlotInv r) (hout : r.outstanding = r.pending.length) (j : Nat)
    (hj : j < r.pending.length) :
    ∃ r', get_step cfg remote r (GetEvent.answer j Answer.data) = some r' := by
  have hmem : (r.pending.get ⟨j, hj⟩).id ∈ (occupied r.reqs).map fun q => q.id := by
    rw [hinv.slot_ids.mem_iff]
    exact List.mem_map_of_mem _ (List.get_mem _ _ _)
  obtain ⟨q, hq, hqid⟩ := List.mem_map.mp hmem
  obtain ⟨n, hn⟩ := find_slot_of_mem (r.pending.get ⟨j, hj⟩).id r.reqs
    ⟨q, (List.mem_filter.mp hq).1, hqid⟩
  have hout0 : r.outstanding ≠ 0 := by
    rw [hout]; omega
  simp only [get_step, List.get?_eq_getElem?, List.getElem?_eq_getElem hj, answer_reply,
    reaper_recv, if_neg hout0, hinv.not_failed]
  simp only [List.get_eq_getElem] at hn
  simp [hn]

/-- C17, the code at the failing input: the OPEN returns a handle of length 0
and the next step fails (FSTAT in `cmd_get`, a WRITE in `cmd_put`): the
command leaves through its `error:` label, where the CLOSE is sent only
`if(r.h.len)`, and returns without a CLOSE. -/
theorem empty_handle_not_closed :
    cmd_get_opened false
      { local_open := true, translated_init := true, opened := some [], fstat := false,
        size_fits := true, transfer := true, set_fstatus := true, finish := true,
        rename := true } = some [] ∧
    cmd_get_flow false false
      { local_open := true, translated_init := true, opened := some [], fstat := false,
        size_fits := true, transfer := true, set_fstatus := true, finish := true,
        rename := true } = [SftpOp.open, SftpOp.fstat []] ∧
    cmd_put_opened
      { local_open := true, local_fstat := true, is_dir := false, size_fits := true,
        opened := some [], fdopen := true, transfer := false, fsetstat := true } = some [] ∧
    cmd_put_flow false false
      { local_open := true, local_fstat := true, is_dir := false, size_fits := true,
        opened := some [], fdopen := true, transfer := false, fsetstat := true } =
      [SftpOp.open, SftpOp.transfer []] := by
  decide

/-- C18, counterexample: a text-mode GET of the four bytes `abcd` in pieces of
two in which the reply to the second READ arrives first.  No reply is
rejected and the transfer does not fail; the payloads reach the translator
in arrival order and the local file reads `cdab`. -/
theorem get_text_out_of_order :
    (get_run ⟨2, 2, 4, true, false, [13, 10]⟩ [97, 98, 99, 100]
        [GetEvent.send, GetEvent.send, GetEvent.answer 1 Answer.data,
          GetEvent.answer 0 Answer.data]
        (reader_init ⟨2, 2, 4, true, false, [13, 10]⟩ 0)).map
      (fun r => (r.failed, r.eof, r.outstanding, r.received,
        get_result ⟨2, 2, 4, true, false, [13, 10]⟩ r)) =
      some (false, true, 0, [[99, 100], [97, 98]], [99, 100, 97, 98]) := by
  rfl

/-- C18 (amended): in text-mode GET the order of the replies is not checked.
The local file is the translation of the payloads in the order in which they
arrived; a DATA reply to any outstanding READ, the oldest or not, is passed
to the translator without the transfer failing; and as long as every reply
has been a DATA reply, the reply to any outstanding READ is accepted. -/
theorem get_text_arrival_order (cfg : GetConfig) (remote : List Byte) (start : Nat)
    (events : List GetEvent) (r : reader_data) (htext : cfg.textmode = true)
    (hrun : get_run cfg remote events (reader_init cfg start) = some r) :
    get_result cfg r = get_text cfg.signedChar cfg.newline r.received ∧
    (∀ j rq r', r.failed = false → r.pending[j]? = some rq →
      get_step cfg remote r (GetEvent.answer j Answer.data) = some r' →
      r'.failed = false ∧
      r'.received = r.received ++ [(remote.drop rq.offset).take rq.len] ∧
      r'.translated = write_translated cfg.signedChar cfg.newline r.translated
        ((remote.drop rq.offset).take rq.len)) ∧
    (data_only events → ∀ j, j < r.pending.length →
      ∃ r', get_step cfg remote r (GetEvent.answer j Answer.data) = some r') := by
  refine ⟨?_, ?_, ?_⟩
  · unfold get_result get_text
    rw [if_pos htext, get_translated_received cfg remote start events r htext hrun]
  · intro j rq r' hfailed hrq hstep
    obtain ⟨rq', hrq', hrecv⟩ := get_step_answer_some cfg remote r r' j _ hstep
    rw [hrq] at hrq'
    have := Option.some.inj hrq'
    subst this
    obtain ⟨_, _, _, _, _, _, hcase⟩ := reaper_recv_some _ _ _ _ hrecv
    rcases hcase with ⟨_, _, _, _, hc⟩ | ⟨_, hf', _, id, payload, n, hreply, _, _, hrc, ht, _⟩
    · rcases hc with ⟨hft, _, _⟩ | ⟨_, id, code, hreply, _⟩
      · simp only at hft
        rw [hfailed] at hft
        exact Bool.noConfusion hft
      · simp [answer_reply] at hreply
    · simp only [answer_reply, Reply.data.injEq] at hreply
      obtain ⟨_, hpay⟩ := hreply
      obtain ⟨_, htr⟩ := ht htext
      simp only at hrc htr
      rw [hpay]
      exact ⟨hf', hrc, htr⟩
  · intro hdata j hj
    exact data_reply_accepted cfg remote r
      (GetSlotInv_run cfg remote start events r hdata hrun)
      (get_outstanding_pending cfg remote start events r hrun) j hj

/-- Witness for `get_text_arrival_order`: after two READs of a text-mode
transfer and the reply to the second one, the file so far is the
translation of that reply. -/
theorem get_text_arrival_order_witness :
    ∃ r, get_run ⟨2, 2, 4, true, false, [13, 10]⟩ [97, 98, 99, 100]
        [GetEvent.send, GetEvent.send, GetEvent.answer 1 Answer.data]
        (reader_init ⟨2, 2, 4, true, false, [13, 10]⟩ 0) = some r ∧
      r.received = [[99, 100]] ∧
      get_result ⟨2, 2, 4, true, false, [13, 10]⟩ r =
        get_text false [13, 10] r.received :=
  ⟨_, rfl, rfl,
    (get_text_arrival_order ⟨2, 2, 4, true, false, [13, 10]⟩ [97, 98, 99, 100] 0
      [GetEvent.send, GetEvent.send, GetEvent.answer 1 Answer.data] _ rfl rfl).1⟩

/-! ## Commands and start-up options: lemmas and claims -/

/-- C21, the code at the failing input: `chmod 10000 f` with the server
answering OK.  The permissions have a bit outside 07777 and the error is
reported, but the SETSTAT is sent with them all the same and `cmd_chmod`
returns 0; likewise `chmod rwx f`, which `strtol` reads as 0 without setting
`errno`, is not even reported. -/
theorem cmd_chmod_returns_setstat_result :
    cmd_chmod "10000" 5 [101, 0, 0, 0, 5, 0, 0, 0, 0, 0, 0, 0, 0] =
      some { reported := true, permissions := 0o10000, result := 0 } ∧
    cmd_chmod "rwx" 5 [101, 0, 0, 0, 5, 0, 0, 0, 0, 0, 0, 0, 0] =
      some { reported := false, permissions := 0, result := 0 } := by
  decide

/-- C22, the code at the failing input: with the options `-o A -o B` the
argument vector built for `ssh` holds `-o A` only, where the documented one
holds both pairs. -/
theorem ssh_cmdline_skips_option :
    ssh_cmdline
      { sshversion := 0, compress := false, sshconf := none, sshoptions := ["A", "B"],
        sshverbose := 0, subsystem := none } "user@host" =
      ["ssh", "-o", "A", "-s", "user@host", "sftp"] ∧
    documented_cmdline
      { sshversion := 0, compress := false, sshconf := none, sshoptions := ["A", "B"],
        sshverbose := 0, subsystem := none } "user@host" =
      ["ssh", "-o", "A", "-o", "B", "-s", "user@host", "sftp"] := by
  decide

/-- C23: `cmd_cd` returns 0 exactly when REALPATH gives a path and LSTAT of
that path gives a directory, and `cwd` is then the path REALPATH returned; in
every other case it returns -1 and `cwd` is what it was. -/
theorem cmd_cd_changes_cwd_on_success (cwd arg : String)
    (realpath : String → Option String) (lstat : String → Option Nat) :
    ((cmd_cd cwd arg realpath lstat).1 = 0 ↔
      ∃ p, realpath (resolvepath cwd arg) = some p ∧
        lstat (resolvepath cwd p) = some SSH_FILEXFER_TYPE_DIRECTORY) ∧
    (∀ p, realpath (resolvepath cwd arg) = some p →
      lstat (resolvepath cwd p) = some SSH_FILEXFER_TYPE_DIRECTORY →
      cmd_cd cwd arg realpath lstat = (0, p)) ∧
    ((cmd_cd cwd arg realpath lstat).1 ≠ 0 → cmd_cd cwd arg realpath lstat = (-1, cwd)) ∧
    (realpath (resolvepath cwd arg) = none → cmd_cd cwd arg realpath lstat = (-1, cwd)) ∧
    (∀ p, realpath (resolvepath cwd arg) = some p → lstat (resolvepath cwd p) = none →
      cmd_cd cwd arg realpath lstat = (-1, cwd)) ∧
    (∀ p type, realpath (resolvepath cwd arg) = some p →
      lstat (resolvepath cwd p) = some type → type ≠ SSH_FILEXFER_TYPE_DIRECTORY →
      cmd_cd cwd arg realpath lstat = (-1, cwd)) := by
  unfold cmd_cd
  cases hr : realpath (resolvepath cwd arg) with
  | none => simp
  | some p =>
    cases hl : lstat (resolvepath cwd p) with
    | none => simp [hl]
    | some type =>
      by_cases ht : type = SSH_FILEXFER_TYPE_DIRECTORY
      · subst ht
        simp [hl]
        intro p1 type hp ht2
        subst hp
        rw [hl] at ht2
        exact (Option.some.inj ht2).symm
      · simp [hl, ht]

/-- Witness for `cmd_cd_changes_cwd_on_success`: `cd docs` from `/home`
against a server that canonicalises `/home/docs` to `/srv/docs`, a
directory. -/
theorem cmd_cd_changes_cwd_on_success_witness :
    cmd_cd "/home" "docs"
      (fun p => if p = "/home/docs" then some "/srv/docs" else none)
      (fun p => if p = "/srv/docs" then some 2 else none) = (0, "/srv/docs") :=
  (cmd_cd_changes_cwd_on_success "/home" "docs"
    (fun p => if p = "/home/docs" then some "/srv/docs" else none)
    (fun p => if p = "/srv/docs" then some 2 else none)).2.1 "/srv/docs" (by decide) (by decide)

theorem put_fill_buf_le (newline : List Byte) (fuel : Nat) :
    ∀ (input : List Byte) (left : Nat) (buf b r : List Byte),
      put_fill newline fuel input left buf = some (b, r) → buf.length ≤ b.length := by
  induction fuel with
  | zero => intro input left buf b r h; exact Option.noConfusion h
  | succ fuel ih =>
    intro input left buf b r h
    cases input with
    | nil =>
      rw [put_fill] at h
      split_ifs at h <;>
        · simp only [Option.some.injEq, Prod.mk.injEq] at h
          rw [← h.1]
    | cons c rest =>
      rw [put_fill] at h
      by_cases hl : left > 0
      · rw [if_pos hl] at h
        by_cases hc : c = 10
        · rw [if_pos hc] at h
          by_cases hn : left ≥ newline.length
          · rw [if_pos hn] at h
            have := ih _ _ _ _ _ h
            rw [List.length_append] at this
            omega
          · rw [if_neg hn] at h
            exact ih _ _ _ _ _ h
        · rw [if_neg hc] at h
          have := ih _ _ _ _ _ h
          rw [List.length_append] at this
          omega
      · rw [if_neg hl] at h
        simp only [Option.some.injEq, Prod.mk.injEq] at h
        rw [← h.1]

theorem startup_buffersize_eq (buffersize : Nat) (newline : List Byte) :
    startup_buffersize buffersize newline =
      max (clamp 64 1048576 buffersize) newline.length := by
  unfold startup_buffersize raise_buffersize sanity_buffersize clamp
  simp only
  split_ifs <;> omega

/-- C24: behind the sanity checks and the version negotiation the buffer
size is max(c, len(newline)) with c the configured size clamped to the range
64 to 1048576; it is at least len(newline), so a line feed met at the start
of a text-mode PUT buffer is stored in its translated form, and for a
non-empty newline a chunk filled from input that is not exhausted is never
empty. -/
theorem startup_buffersize_holds_newline (buffersize : Nat) (newline : List Byte) :
    startup_buffersize buffersize newline =
      max (clamp 64 1048576 buffersize) newline.length ∧
    newline.length ≤ startup_buffersize buffersize newline ∧
    0 < startup_buffersize buffersize newline ∧
    (∀ fuel rest, put_fill newline (fuel + 1) (10 :: rest)
        (startup_buffersize buffersize newline) [] =
      put_fill newline fuel rest
        (startup_buffersize buffersize newline - newline.length) newline) ∧
    (newline ≠ [] → ∀ fuel c rest b r,
      put_fill newline fuel (c :: rest) (startup_buffersize buffersize newline) [] =
        some (b, r) → b ≠ []) := by
  have heq := startup_buffersize_eq buffersize newline
  have hge : newline.length ≤ startup_buffersize buffersize newline := by
    rw [heq]; exact le_max_right _ _
  have hpos : 0 < startup_buffersize buffersize newline := by
    rw [heq]; unfold clamp; omega
  refine ⟨heq, hge, hpos, ?_, ?_⟩
  · intro fuel rest
    rw [put_fill, if_pos hpos]
    simp only [if_true, List.nil_append]
    rw [if_pos hge]
  · intro hne fuel c rest b r h
    have hnl : 0 < newline.length := List.length_pos.mpr hne
    cases fuel with
    | zero => exact Option.noConfusion h
    | succ fuel =>
      rw [put_fill, if_pos hpos] at h
      simp only [List.nil_append] at h
      by_cases hc : c = 10
      · rw [if_pos hc, if_pos hge] at h
        have := put_fill_buf_le newline fuel _ _ _ _ _ h
        exact List.ne_nil_of_length_pos (by omega)
      · rw [if_neg hc] at h
        have := put_fill_buf_le newline fuel _ _ _ _ _ h
        rw [List.length_singleton] at this
        exact List.ne_nil_of_length_pos (by omega)

/-- Witness for `startup_buffersize_holds_newline`: a configured size of 5
and the newline CR LF give a buffer of 64 bytes, and a chunk filled from the
input `\n` holds CR LF. -/
theorem startup_buffersize_holds_newline_witness :
    startup_buffersize 5 [13, 10] = 64 ∧
    put_fill [13, 10] 3 [10] (startup_buffersize 5 [13, 10]) [] = some ([13, 10], []) ∧
    ([13, 10] : List Byte) ≠ [] :=
  ⟨by decide, by decide,
   (startup_buffersize_holds_newline 5 [13, 10]).2.2.2.2 (by decide) 3 10 [] [13, 10] []
     (by decide)⟩

/-- C27, the code at the failing input: newline CR LF, whose first byte
occurs nowhere later in it, and the server data CR `X` in one payload.  The
local file receives CR alone, where the data with every newline replaced is
CR `X`: the byte that breaks off the partial match is lost. -/
theorem write_translated_loses_byte :
    get_text false [13, 10] [[13, 88]] = [13] ∧
    get_text true [13, 10] [[13, 88]] = [13] ∧
    replaceNewline [13, 10] [13, 88] = [13, 88] ∧
    get_text false [13, 10] [[13], [88, 89]] = [13, 89] := by
  decide

/-- C29, the code at the failing input: a directory with the entries `a` and
one whose name holds a character that cannot be printed, for which the width
reported is -1.  `maxnamewidth` becomes 2^64 - 1, `maxnamewidth + 1` is 0 in
`size_t` and the column count is a division by zero. -/
theorem ls_cols_divides_by_zero :
    ls_maxnamewidth false [⟨"a", 1⟩, ⟨"b\x01", -1⟩] 0 = 2 ^ 64 - 1 ∧
    ls_cols 80 (ls_maxnamewidth false [⟨"a", 1⟩, ⟨"b\x01", -1⟩] 0) = none ∧
    ls_columns 80 (ls_maxnamewidth false [⟨"a", 1⟩, ⟨"b\x01", -1⟩] 0) 2 = none := by
  decide

/-- C30, the code at the failing input: the lines `get -P` and `put -P`.
One argument passes the arity bounds 1 to 3, and behind the `-P` the path
read is the null pointer that ends `av`. -/
theorem get_put_missing_path :
    split "get -P" = some ["get", "-P"] ∧
    arity_ok 1 3 1 = true ∧
    cmd_get_args ["-P"] =
      { preserve := true, first := none, second_given := true, second := none } ∧
    cmd_put_args ["-P"] =
      { preserve := true, first := none, second_given := true, second := none } := by
  decide

/-! ## Listings: lemmas and claims -/

theorem memcpy_from_some (block : List Byte) (offset size : Nat)
    (h : offset + size ≤ block.length) :
    ∃ d, memcpy_from block offset size = some d ∧ d.length = size := by
  refine ⟨(block.drop offset).take size, ?_, ?_⟩
  · unfold memcpy_from
    rw [if_pos h]
  · rw [List.length_take, List.length_drop]
    omega

theorem memcpy_to_some (block : List Byte) (offset : Nat) (data : List Byte)
    (h : offset + data.length ≤ block.length) :
    ∃ b, memcpy_to block offset data = some b ∧ b.length = block.length := by
  refine ⟨block.take offset ++ data ++ block.drop (offset + data.length), ?_, ?_⟩
  · unfold memcpy_to
    rw [if_pos h]
  · rw [List.length_append, List.length_append, List.length_take, List.length_drop]
    omega

/-- A pass of the loop that stays inside the block leaves a block of the
same length. -/
theorem reverse_swap_some (block : List Byte) (count size n : Nat)
    (hn : n * size + size ≤ block.length)
    (ho : (count + 2 ^ 64 - n - 1) % 2 ^ 64 * size + size ≤ block.length) :
    ∃ b, reverse_swap block count size n = some b ∧ b.length = block.length := by
  obtain ⟨tmp, htmp, htmplen⟩ := memcpy_from_some block (n * size) size hn
  obtain ⟨src, hsrc, hsrclen⟩ := memcpy_from_some block _ size ho
  obtain ⟨b1, hb1, hb1len⟩ := memcpy_to_some block (n * size) src (by rw [hsrclen]; exact hn)
  obtain ⟨b2, hb2, hb2len⟩ := memcpy_to_some b1 ((count + 2 ^ 64 - n - 1) % 2 ^ 64 * size) tmp
    (by rw [htmplen, hb1len]; exact ho)
  refine ⟨b2, ?_, by rw [hb2len, hb1len]⟩
  unfold reverse_swap
  simp only [htmp, hsrc, hb1, hb2]

/-- A pass for an index behind the array reaches outside the block. -/
theorem reverse_swap_outside (block : List Byte) (count size n : Nat) (hsize : 0 < size)
    (hn : block.length ≤ n * size) : reverse_swap block count size n = none := by
  unfold reverse_swap memcpy_from
  rw [if_neg (by omega)]

/-- With two members of six or more bytes the third pass of the loop leaves
the array. -/
theorem reverse_two_members (array : List Byte) (size : Nat) (hsize : 6 ≤ size)
    (hlen : array.length = 2 * size) : reverse array 2 size = none := by
  obtain ⟨p, hp⟩ : ∃ p, size / 2 = p + 3 := ⟨size / 2 - 3, by omega⟩
  unfold reverse
  rw [hp]
  obtain ⟨b1, hb1, hb1len⟩ := reverse_swap_some array 2 size 0
    (by rw [hlen]; omega) (by rw [hlen]; norm_num; omega)
  obtain ⟨b2, hb2, hb2len⟩ := reverse_swap_some b1 2 size 1
    (by rw [hb1len, hlen]; omega) (by rw [hb1len, hlen]; norm_num; omega)
  have hb3 : reverse_swap b2 2 size 2 = none :=
    reverse_swap_outside b2 2 size 2 (by omega) (by rw [hb2len, hb1len, hlen])
  simp only [reverse_loop, hb1, hb2, hb3]

/-- C25, the code at failing inputs: the loop of `reverse` makes `size / 2`
passes, not `count / 2`.  Two members of four bytes are exchanged twice and
end where they were; three members of one byte are not touched; and for two
members of six or more bytes the third pass reaches outside the array. -/
theorem reverse_counts_size :
    reverse [1, 1, 1, 1, 2, 2, 2, 2] 2 4 = some [1, 1, 1, 1, 2, 2, 2, 2] ∧
    reverse [1, 2, 3] 3 1 = some [1, 2, 3] ∧
    member [1, 1, 1, 1, 2, 2, 2, 2] 4 0 ≠ member [1, 1, 1, 1, 2, 2, 2, 2] 4 (2 - 1 - 0) ∧
    (∀ array size, 6 ≤ size → array.length = 2 * size → reverse array 2 size = none) := by
  refine ⟨by decide, by decide, by decide, ?_⟩
  intro array size hsize hlen
  exact reverse_two_members array size hsize hlen

theorem strcmp_antisymm (a : List Byte) : ∀ b, strcmp a b = -strcmp b a := by
  induction a with
  | nil =>
    intro b
    cases b with
    | nil => simp [strcmp]
    | cons y bs => simp [strcmp]
  | cons x as ih =>
    intro b
    cases b with
    | nil => simp [strcmp]
    | cons y bs =>
      rw [strcmp, strcmp]
      by_cases hxy : x = y
      · subst hxy
        rw [if_pos rfl, if_pos rfl]
        by_cases h0 : x = 0
        · rw [if_pos h0, if_pos h0]; rfl
        · rw [if_neg h0, if_neg h0]; exact ih bs
      · rw [if_neg hxy, if_neg (fun h => hxy h.symm)]
        omega

theorem strcmp_nil_le (c : List Byte) : strcmp [] c ≤ 0 := by
  cases c with
  | nil => simp [strcmp]
  | cons z cs => simp [strcmp]

theorem strcmp_trans (a : List Byte) :
    ∀ b c, strcmp a b ≤ 0 → strcmp b c ≤ 0 → strcmp a c ≤ 0 := by
  induction a with
  | nil => intro b c _ _; exact strcmp_nil_le c
  | cons x as ih =>
    intro b c hab hbc
    cases b with
    | nil =>
      rw [strcmp] at hab
      have hx0 : x.val = 0 := by omega
      have hx : x = 0 := Fin.ext hx0
      subst hx
      cases c with
      | nil => simp [strcmp]
      | cons z cs =>
        rw [strcmp]
        by_cases hz : (0 : Byte) = z
        · rw [if_pos hz, if_pos rfl]
        · rw [if_neg hz]
          simp
    | cons y bs =>
      cases c with
      | nil =>
        rw [strcmp] at hbc
        have hy0 : y.val = 0 := by omega
        have hy : y = 0 := Fin.ext hy0
        subst hy
        rw [strcmp] at hab
        rw [strcmp]
        by_cases hx : x = 0
        · rw [hx]; simp
        · rw [if_neg hx] at hab
          have : x.val ≠ 0 := fun h => hx (Fin.ext h)
          simp at hab
          omega
      | cons z cs =>
        rw [strcmp] at hab hbc
        rw [strcmp]
        by_cases hxy : x = y
        · subst hxy
          rw [if_pos rfl] at hab
          by_cases hxz : x = z
          · subst hxz
            rw [if_pos rfl] at hbc
            rw [if_pos rfl]
            by_cases h0 : x = 0
            · rw [if_pos h0]
            · rw [if_neg h0] at hab hbc
              rw [if_neg h0]
              exact ih bs cs hab hbc
          · rw [if_neg hxz] at hbc
            rw [if_neg hxz]
            exact hbc
        · rw [if_neg hxy] at hab
          have hxy' : x.val ≠ y.val := fun h => hxy (Fin.ext h)
          by_cases hyz : y = z
          · subst hyz
            rw [if_neg hxy]
            exact hab
          · rw [if_neg hyz] at hbc
            have hyz' : y.val ≠ z.val := fun h => hyz (Fin.ext h)
            have hxz : x ≠ z := by
              intro h
              rw [h] at hab hxy'
              omega
            rw [if_neg hxz]
            omega

theorem and_and_bit_ne_zero (x y k : Nat) :
    x &&& y &&& 2 ^ k ≠ 0 ↔ (x &&& 2 ^ k ≠ 0 ∧ y &&& 2 ^ k ≠ 0) := by
  rw [and_ne_zero_iff_common_bit, and_ne_zero_iff_common_bit, and_ne_zero_iff_common_bit]
  constructor
  · rintro ⟨i, hxy, hi⟩
    rw [Nat.testBit_and, Bool.and_eq_true] at hxy
    exact ⟨⟨i, hxy.1, hi⟩, ⟨i, hxy.2, hi⟩⟩
  · rintro ⟨⟨i, hx, hi⟩, ⟨j, hy, hj⟩⟩
    rw [Nat.testBit_two_pow] at hi hj
    have hi' : k = i := of_decide_eq_true hi
    have hj' : k = j := of_decide_eq_true hj
    subst hi'
    subst hj'
    refine ⟨k, ?_, by rw [Nat.testBit_two_pow]; simp⟩
    rw [Nat.testBit_and, hx, hy]
    rfl

theorem size_cond_iff (a b : sftpattr) :
    a.valid &&& b.valid &&& SSH_FILEXFER_ATTR_SIZE ≠ 0 ↔ (has_size a ∧ has_size b) :=
  and_and_bit_ne_zero a.valid b.valid 0

theorem mtime_cond_iff (a b : sftpattr) :
    a.valid &&& b.valid &&& SSH_FILEXFER_ATTR_MODIFYTIME ≠ 0 ↔ (has_mtime a ∧ has_mtime b) :=
  and_and_bit_ne_zero a.valid b.valid 5

theorem subsecond_cond_iff (a b : sftpattr) :
    a.valid &&& b.valid &&& SSH_FILEXFER_ATTR_SUBSECOND_TIMES ≠ 0 ↔
      (has_subsecond a ∧ has_subsecond b) :=
  and_and_bit_ne_zero a.valid b.valid 8

theorem sign_neg_of_neg (x y : Int) (h : x = -y) : Int.sign x = -Int.sign y := by
  rw [h, Int.sign_neg]

theorem sort_by_size_antisymm (a b : sftpattr) :
    Int.sign (sort_by_size a b) = -Int.sign (sort_by_size b a) := by
  apply sign_neg_of_neg
  unfold sort_by_size sort_by_name
  have hc : (a.valid &&& b.valid &&& SSH_FILEXFER_ATTR_SIZE ≠ 0) ↔
      (b.valid &&& a.valid &&& SSH_FILEXFER_ATTR_SIZE ≠ 0) := by
    rw [size_cond_iff, size_cond_iff, and_comm]
  have hs := strcmp_antisymm a.name b.name
  by_cases h : a.valid &&& b.valid &&& SSH_FILEXFER_ATTR_SIZE ≠ 0
  · rw [if_pos h, if_pos (hc.mp h)]
    split_ifs <;> omega
  · rw [if_neg h, if_neg (fun h' => h (hc.mpr h'))]
    exact hs

theorem sort_by_mtime_antisymm (a b : sftpattr) :
    Int.sign (sort_by_mtime a b) = -Int.sign (sort_by_mtime b a) := by
  apply sign_neg_of_neg
  unfold sort_by_mtime sort_by_name
  have hc : (a.valid &&& b.valid &&& SSH_FILEXFER_ATTR_MODIFYTIME ≠ 0) ↔
      (b.valid &&& a.valid &&& SSH_FILEXFER_ATTR_MODIFYTIME ≠ 0) := by
    rw [mtime_cond_iff, mtime_cond_iff, and_comm]
  have hd : (a.valid &&& b.valid &&& SSH_FILEXFER_ATTR_SUBSECOND_TIMES ≠ 0) ↔
      (b.valid &&& a.valid &&& SSH_FILEXFER_ATTR_SUBSECOND_TIMES ≠ 0) := by
    rw [subsecond_cond_iff, subsecond_cond_iff, and_comm]
  have hs := strcmp_antisymm a.name b.name
  by_cases h : a.valid &&& b.valid &&& SSH_FILEXFER_ATTR_MODIFYTIME ≠ 0
  · rw [if_pos h, if_pos (hc.mp h)]
    by_cases h2 : a.valid &&& b.valid &&& SSH_FILEXFER_ATTR_SUBSECOND_TIMES ≠ 0
    · rw [if_pos h2, if_pos (hd.mp h2)]
      split_ifs <;> omega
    · rw [if_neg h2, if_neg (fun h' => h2 (hd.mpr h'))]
      split_ifs <;> omega
  · rw [if_neg h, if_neg (fun h' => h (hc.mpr h'))]
    exact hs

theorem sort_by_size_le_size (a b : sftpattr) (hs : has_size a ∧ has_size b) :
    sort_by_size a b ≤ 0 ↔
      (a.size < b.size ∨ (a.size = b.size ∧ strcmp a.name b.name ≤ 0)) := by
  unfold sort_by_size sort_by_name
  rw [if_pos ((size_cond_iff a b).mpr hs)]
  split_ifs <;> omega

theorem sort_by_size_le_name (a b : sftpattr) (hs : ¬ (has_size a ∧ has_size b)) :
    sort_by_size a b ≤ 0 ↔ strcmp a.name b.name ≤ 0 := by
  unfold sort_by_size sort_by_name
  rw [if_neg (fun h => hs ((size_cond_iff a b).mp h))]

theorem sort_by_size_trans (a b c : sftpattr)
    (hab : has_size a ↔ has_size b) (hbc : has_size b ↔ has_size c)
    (h1 : sort_by_size a b ≤ 0) (h2 : sort_by_size b c ≤ 0) : sort_by_size a c ≤ 0 := by
  have ht := strcmp_trans a.name b.name c.name
  by_cases ha : has_size a
  · have hb := hab.mp ha
    have hc := hbc.mp hb
    rw [sort_by_size_le_size a b ⟨ha, hb⟩] at h1
    rw [sort_by_size_le_size b c ⟨hb, hc⟩] at h2
    rw [sort_by_size_le_size a c ⟨ha, hc⟩]
    rcases h1 with h1 | ⟨e1, n1⟩ <;> rcases h2 with h2 | ⟨e2, n2⟩
    · left; omega
    · left; omega
    · left; omega
    · right; exact ⟨by omega, ht n1 n2⟩
  · have hb : ¬ has_size b := fun h => ha (hab.mpr h)
    rw [sort_by_size_le_name a b (fun h => ha h.1)] at h1
    rw [sort_by_size_le_name b c (fun h => hb h.1)] at h2
    rw [sort_by_size_le_name a c (fun h => ha h.1)]
    exact ht h1 h2

theorem sort_by_mtime_le_full (a b : sftpattr) (hm : has_mtime a ∧ has_mtime b)
    (hs : has_subsecond a ∧ has_subsecond b) :
    sort_by_mtime a b ≤ 0 ↔
      (a.mtime_seconds < b.mtime_seconds ∨ (a.mtime_seconds = b.mtime_seconds ∧
        (a.mtime_nanoseconds < b.mtime_nanoseconds ∨
          (a.mtime_nanoseconds = b.mtime_nanoseconds ∧ strcmp a.name b.name ≤ 0)))) := by
  unfold sort_by_mtime sort_by_name
  rw [if_pos ((mtime_cond_iff a b).mpr hm), if_pos ((subsecond_cond_iff a b).mpr hs)]
  split_ifs <;> omega

theorem sort_by_mtime_le_seconds (a b : sftpattr) (hm : has_mtime a ∧ has_mtime b)
    (hs : ¬ (has_subsecond a ∧ has_subsecond b)) :
    sort_by_mtime a b ≤ 0 ↔
      (a.mtime_seconds < b.mtime_seconds ∨
        (a.mtime_seconds = b.mtime_seconds ∧ strcmp a.name b.name ≤ 0)) := by
  unfold sort_by_mtime sort_by_name
  rw [if_pos ((mtime_cond_iff a b).mpr hm),
    if_neg (fun h => hs ((subsecond_cond_iff a b).mp h))]
  split_ifs <;> omega

theorem sort_by_mtime_le_name (a b : sftpattr) (hm : ¬ (has_mtime a ∧ has_mtime b)) :
    sort_by_mtime a b ≤ 0 ↔ strcmp a.name b.name ≤ 0 := by
  unfold sort_by_mtime sort_by_name
  rw [if_neg (fun h => hm ((mtime_cond_iff a b).mp h))]

theorem sort_by_mtime_trans (a b c : sftpattr)
    (hab : has_mtime a ↔ has_mtime b) (hbc : has_mtime b ↔ has_mtime c)
    (hab' : has_subsecond a ↔ has_subsecond b) (hbc' : has_subsecond b ↔ has_subsecond c)
    (h1 : sort_by_mtime a b ≤ 0) (h2 : sort_by_mtime b c ≤ 0) : sort_by_mtime a c ≤ 0 := by
  have ht := strcmp_trans a.name b.name c.name
  by_cases ha : has_mtime a
  · have hb := hab.mp ha
    have hc := hbc.mp hb
    by_cases hsa : has_subsecond a
    · have hsb := hab'.mp hsa
      have hsc := hbc'.mp hsb
      rw [sort_by_mtime_le_full a b ⟨ha, hb⟩ ⟨hsa, hsb⟩] at h1
      rw [sort_by_mtime_le_full b c ⟨hb, hc⟩ ⟨hsb, hsc⟩] at h2
      rw [sort_by_mtime_le_full a c ⟨ha, hc⟩ ⟨hsa, hsc⟩]
      rcases h1 with h1 | ⟨e1, h1 | ⟨f1, n1⟩⟩ <;> rcases h2 with h2 | ⟨e2, h2 | ⟨f2, n2⟩⟩
      · left; omega
      · left; omega
      · left; omega
      · left; omega
      · right; exact ⟨by omega, Or.inl (by omega)⟩
      · right; exact ⟨by omega, Or.inl (by omega)⟩
      · left; omega
      · right; exact ⟨by omega, Or.inl (by omega)⟩
      · right; exact ⟨by omega, Or.inr ⟨by omega, ht n1 n2⟩⟩
    · have hsb : ¬ has_subsecond b := fun h => hsa (hab'.mpr h)
      rw [sort_by_mtime_le_seconds a b ⟨ha, hb⟩ (fun h => hsa h.1)] at h1
      rw [sort_by_mtime_le_seconds b c ⟨hb, hc⟩ (fun h => hsb h.1)] at h2
      rw [sort_by_mtime_le_seconds a c ⟨ha, hc⟩ (fun h => hsa h.1)]
      rcases h1 with h1 | ⟨e1, n1⟩ <;> rcases h2 with h2 | ⟨e2, n2⟩
      · left; omega
      · left; omega
      · left; omega
      · right; exact ⟨by omega, ht n1 n2⟩
  · have hb : ¬ has_mtime b := fun h => ha (hab.mpr h)
    rw [sort_by_mtime_le_name a b (fun h => ha h.1)] at h1
    rw [sort_by_mtime_le_name b c (fun h => hb h.1)] at h2
    rw [sort_by_mtime_le_name a c (fun h => ha h.1)]
    exact ht h1 h2

/-- C28, the code at the failing input: three records `a`, `b`, `c` named
`a`, `b`, `c`, of which `b` has no valid size (no valid modification time)
while `a` is larger (later) than `c`.  Then `a` sorts before `b` and `b`
before `c`, both by name, but `a` sorts after `c` by size (by time): the
comparators handed to `qsort` are not transitive. -/
theorem comparators_not_transitive :
    sort_by_size ⟨1, 2, 0, 0, [97]⟩ ⟨0, 0, 0, 0, [98]⟩ ≤ 0 ∧
    sort_by_size ⟨0, 0, 0, 0, [98]⟩ ⟨1, 1, 0, 0, [99]⟩ ≤ 0 ∧
    ¬ sort_by_size ⟨1, 2, 0, 0, [97]⟩ ⟨1, 1, 0, 0, [99]⟩ ≤ 0 ∧
    sort_by_mtime ⟨0x20, 0, 2, 0, [97]⟩ ⟨0, 0, 0, 0, [98]⟩ ≤ 0 ∧
    sort_by_mtime ⟨0, 0, 0, 0, [98]⟩ ⟨0x20, 0, 1, 0, [99]⟩ ≤ 0 ∧
    ¬ sort_by_mtime ⟨0x20, 0, 2, 0, [97]⟩ ⟨0x20, 0, 1, 0, [99]⟩ ≤ 0 := by
  decide

/-! ## The columns of the listing -/

theorem ls_row_mem (N rows n : Nat) (left : Nat) :
    ∀ m0 x, (∀ m, m < m0 + left → n + m * rows < 2 ^ 64) →
      x ∈ ls_row N rows n left m0 →
      x < N ∧ ∃ m, m0 ≤ m ∧ m < m0 + left ∧ x = n + m * rows := by
  induction left with
  | zero => intro m0 x _ hx; simp [ls_row] at hx
  | succ left ih =>
    intro m0 x hb hx
    have hm0 : (n + m0 * rows) % 2 ^ 64 = n + m0 * rows :=
      Nat.mod_eq_of_lt (hb m0 (by omega))
    rw [ls_row, hm0] at hx
    by_cases hlt : n + m0 * rows < N
    · rw [if_pos hlt] at hx
      rcases List.mem_cons.mp hx with rfl | hx'
      · exact ⟨hlt, m0, le_refl _, by omega, rfl⟩
      · obtain ⟨hxN, m, hm1, hm2, hxm⟩ := ih (m0 + 1) x
          (fun m hm => hb m (by omega)) hx'
        exact ⟨hxN, m, by omega, by omega, hxm⟩
    · rw [if_neg hlt] at hx
      exact absurd hx (List.not_mem_nil x)

theorem ls_row_getElem? (N rows n : Nat) (left : Nat) :
    ∀ m0 j, (∀ m, m < m0 + left → n + m * rows < 2 ^ 64) →
      j < left → n + (m0 + j) * rows < N →
      (ls_row N rows n left m0)[j]? = some (n + (m0 + j) * rows) := by
  induction left with
  | zero => intro m0 j _ hj; omega
  | succ left ih =>
    intro m0 j hb hj hlt
    have hm0 : (n + m0 * rows) % 2 ^ 64 = n + m0 * rows :=
      Nat.mod_eq_of_lt (hb m0 (by omega))
    have hmono : n + m0 * rows ≤ n + (m0 + j) * rows :=
      Nat.add_le_add_left (Nat.mul_le_mul_right rows (by omega)) n
    rw [ls_row, hm0, if_pos (by omega)]
    cases j with
    | zero => simp
    | succ j =>
      rw [List.getElem?_cons_succ]
      have := ih (m0 + 1) j (fun m hm => hb m (by omega)) (by omega)
        (by rw [show m0 + 1 + j = m0 + (j + 1) by omega]; exact hlt)
      rw [this, show m0 + 1 + j = m0 + (j + 1) by omega]

theorem ls_row_nodup (N rows n : Nat) (hrows : 0 < rows) (left : Nat) :
    ∀ m0, (∀ m, m < m0 + left → n + m * rows < 2 ^ 64) →
      (ls_row N rows n left m0).Nodup := by
  induction left with
  | zero => intro m0 _; simp [ls_row]
  | succ left ih =>
    intro m0 hb
    have hm0 : (n + m0 * rows) % 2 ^ 64 = n + m0 * rows :=
      Nat.mod_eq_of_lt (hb m0 (by omega))
    rw [ls_row, hm0]
    by_cases hlt : n + m0 * rows < N
    · rw [if_pos hlt, List.nodup_cons]
      refine ⟨?_, ih (m0 + 1) (fun m hm => hb m (by omega))⟩
      intro hmem
      obtain ⟨_, m, hm1, _, hxm⟩ := ls_row_mem N rows n left (m0 + 1) _
        (fun m hm => hb m (by omega)) hmem
      have : (m0 + 1) * rows ≤ m * rows := Nat.mul_le_mul_right rows hm1
      rw [Nat.succ_mul] at this
      omega
    · rw [if_neg hlt]
      exact List.nodup_nil

/-- The number of rows is the least `r` with `N ≤ r * C`. -/
theorem ceil_div_le_iff (N C r : Nat) (hC : 0 < C) : (N + C - 1) / C ≤ r ↔ N ≤ r * C := by
  rw [← Nat.lt_succ_iff, Nat.div_lt_iff_lt_mul hC, Nat.succ_mul]
  omega

/-- The column count is the largest `c` with `c * M + (c - 1) ≤ W`. -/
theorem cols_le_iff (W M c : Nat) (hc : 0 < c) :
    c * M + (c - 1) ≤ W ↔ c ≤ (W + 1) / (M + 1) := by
  rw [Nat.le_div_iff_mul_le (Nat.succ_pos M), Nat.mul_succ]
  omega

theorem ls_cols_eq (W M : Nat) (hW : W < 2 ^ 31 - 1) (hM : M < 2 ^ 64 - 1) :
    ls_cols (W : Int) M = some (max 1 ((W + 1) / (M + 1))) := by
  have hM' : M + 1 < 18446744073709551616 := by
    have : M < 18446744073709551616 - 1 := by simpa using hM
    omega
  have hW' : W + 1 < 18446744073709551616 := by
    have : W < 2147483648 - 1 := by simpa using hW
    omega
  unfold ls_cols
  have hd : (M + 1) % 2 ^ 64 = M + 1 := Nat.mod_eq_of_lt (by simpa using hM')
  have hn : (((W : Int) + 1) % 2 ^ 64).toNat = W + 1 := by
    have h1 : ((W : Int) + 1) = ((W + 1 : Nat) : Int) := by push_cast; rfl
    rw [h1]
    have h2 : (((W + 1 : Nat) : Int) % 2 ^ 64) = ((W + 1 : Nat) : Int) :=
      Int.emod_eq_of_lt (by positivity) (by norm_num; omega)
    rw [h2, Int.toNat_ofNat]
  rw [hd, hn, if_neg (by omega)]
  simp only
  congr 1
  by_cases h0 : (W + 1) / (M + 1) = 0
  · rw [if_pos h0, h0]; rfl
  · rw [if_neg h0]
    exact (max_eq_right (Nat.pos_of_ne_zero h0)).symm

theorem ls_rows_eq (N C : Nat) (hbound : N + C - 1 < 2 ^ 64) :
    ls_rows N C = (N + C - 1) / C := by
  unfold ls_rows
  rw [Nat.mod_eq_of_lt hbound]

theorem ls_grid_bound (N C n m : Nat) (hbound : N + C - 1 < 2 ^ 64)
    (hn : n < (N + C - 1) / C) (hm : m < C) : n + m * ((N + C - 1) / C) < 2 ^ 64 := by
  have h1 : (m + 1) * ((N + C - 1) / C) ≤ C * ((N + C - 1) / C) :=
    Nat.mul_le_mul_right _ hm
  have h2 : C * ((N + C - 1) / C) ≤ N + C - 1 := Nat.mul_div_le _ _
  rw [Nat.succ_mul] at h1
  omega

/-- Entry `i` stands in row `i mod rows` at column `i div rows`. -/
theorem ls_grid_entry (N C i : Nat) (hC : 0 < C) (hbound : N + C - 1 < 2 ^ 64) (hi : i < N) :
    ((List.range ((N + C - 1) / C)).map fun n =>
        ls_row N ((N + C - 1) / C) n C 0)[i % ((N + C - 1) / C)]? =
      some (ls_row N ((N + C - 1) / C) (i % ((N + C - 1) / C)) C 0) ∧
    (ls_row N ((N + C - 1) / C) (i % ((N + C - 1) / C)) C 0)[i / ((N + C - 1) / C)]? =
      some i := by
  have hNle : N ≤ (N + C - 1) / C * C := (ceil_div_le_iff N C _ hC).mp (le_refl _)
  have hb : ∀ n, n < (N + C - 1) / C → ∀ m, m < C →
      n + m * ((N + C - 1) / C) < 2 ^ 64 :=
    fun n hn m hm => ls_grid_bound N C n m hbound hn hm
  generalize (N + C - 1) / C = R at hNle hb ⊢
  have hRpos : 0 < R := by
    rcases Nat.eq_zero_or_pos R with h0 | hpos
    · rw [h0] at hNle; omega
    · exact hpos
  have hmod : i % R < R := Nat.mod_lt i hRpos
  have hdiv : i / R < C := by
    rw [Nat.div_lt_iff_lt_mul hRpos]
    calc i < N := hi
      _ ≤ R * C := hNle
      _ = C * R := Nat.mul_comm _ _
  have hsum : i % R + (0 + i / R) * R = i := by
    rw [Nat.zero_add, Nat.mul_comm]
    exact Nat.mod_add_div i R
  constructor
  · rw [List.getElem?_map, List.getElem?_range hmod]
    rfl
  · have := ls_row_getElem? N R (i % R) C 0 (i / R)
      (fun m hm => hb (i % R) hmod m (by omega))
      hdiv (by rw [hsum]; exact hi)
    rw [this, hsum]

/-- Every entry is printed exactly once. -/
theorem ls_grid_perm (N C : Nat) (hC : 0 < C) (hbound : N + C - 1 < 2 ^ 64) :
    (((List.range ((N + C - 1) / C)).map fun n =>
        ls_row N ((N + C - 1) / C) n C 0).flatten).Perm (List.range N) := by
  have hrow : ∀ n, n < (N + C - 1) / C → ∀ m, m < 0 + C →
      n + m * ((N + C - 1) / C) < 2 ^ 64 :=
    fun n hn m hm => ls_grid_bound N C n m hbound hn (by omega)
  have hentry := fun i hi => ls_grid_entry N C i hC hbound hi
  generalize (N + C - 1) / C = R at hrow hentry ⊢
  apply (List.perm_ext_iff_of_nodup ?_ (List.nodup_range N)).mpr
  · intro x
    rw [List.mem_flatten, List.mem_range]
    constructor
    · rintro ⟨l, hl, hx⟩
      obtain ⟨n, hn, rfl⟩ := List.mem_map.mp hl
      exact (ls_row_mem N R n C 0 x (hrow n (List.mem_range.mp hn)) hx).1
    · intro hx
      obtain ⟨h1, h2⟩ := hentry x hx
      exact ⟨_, List.getElem?_mem h1, List.getElem?_mem h2⟩
  · rw [List.nodup_flatten]
    constructor
    · intro l hl
      obtain ⟨n, hn, rfl⟩ := List.mem_map.mp hl
      have hn' := List.mem_range.mp hn
      exact ls_row_nodup N R n (by omega) C 0 (hrow n hn')
    · rw [List.pairwise_map]
      refine List.Pairwise.imp_of_mem ?_ (List.pairwise_lt_range R)
      intro a b ha hb hab x hxa hxb
      have ha' := List.mem_range.mp ha
      have hb' := List.mem_range.mp hb
      obtain ⟨_, m1, _, _, h1⟩ := ls_row_mem N R a C 0 x (hrow a ha') hxa
      obtain ⟨_, m2, _, _, h2⟩ := ls_row_mem N R b C 0 x (hrow b hb') hxb
      have e1 : x % R = a := by
        rw [h1, Nat.add_mul_mod_self_right, Nat.mod_eq_of_lt ha']
      have e2 : x % R = b := by
        rw [h2, Nat.add_mul_mod_self_right, Nat.mod_eq_of_lt hb']
      omega

/-- C26: for a terminal width W, a maximum name width M and N entries, the
column count is max(1, floor((W+1)/(M+1))), and floor((W+1)/(M+1)) is the
largest C with C*M + (C-1) <= W; the row count is ceil(N/C); the listing has
that many rows, entry i stands in row i mod rows at column i div rows, and
the entries printed are the N entries, each once. -/
theorem ls_columns_layout (W M N : Nat) (hW : W < 2 ^ 31 - 1) (hM : M < 2 ^ 64 - 1)
    (hN : N < 2 ^ 63) :
    ls_cols (W : Int) M = some (max 1 ((W + 1) / (M + 1))) ∧
    (∀ c, 0 < c → (c * M + (c - 1) ≤ W ↔ c ≤ (W + 1) / (M + 1))) ∧
    ls_rows N (max 1 ((W + 1) / (M + 1))) =
      (N + max 1 ((W + 1) / (M + 1)) - 1) / max 1 ((W + 1) / (M + 1)) ∧
    (∀ r, ls_rows N (max 1 ((W + 1) / (M + 1))) ≤ r ↔ N ≤ r * max 1 ((W + 1) / (M + 1))) ∧
    ∃ grid, ls_columns (W : Int) M N = some grid ∧
      grid.length = ls_rows N (max 1 ((W + 1) / (M + 1))) ∧
      (∀ i, i < N → ∃ row,
        grid[i % ls_rows N (max 1 ((W + 1) / (M + 1)))]? = some row ∧
        row[i / ls_rows N (max 1 ((W + 1) / (M + 1)))]? = some i) ∧
      grid.flatten.Perm (List.range N) := by
  have hcols := ls_cols_eq W M hW hM
  have hCle : (W + 1) / (M + 1) ≤ W + 1 := Nat.div_le_self _ _
  have hW' : W < 2147483648 - 1 := by simpa using hW
  have hN' : N < 9223372036854775808 := by simpa using hN
  generalize hC : max 1 ((W + 1) / (M + 1)) = C at hcols ⊢
  have hCpos : 0 < C := by rw [← hC]; exact lt_of_lt_of_le Nat.zero_lt_one (le_max_left _ _)
  have hCle' : C ≤ W + 1 := by
    rw [← hC]
    exact max_le (by omega) hCle
  have hbound : N + C - 1 < 2 ^ 64 := by
    norm_num
    omega
  have hrows := ls_rows_eq N C hbound
  refine ⟨hcols, fun c hc => cols_le_iff W M c hc, hrows, ?_, ?_⟩
  · intro r
    rw [hrows]
    exact ceil_div_le_iff N C r hCpos
  · refine ⟨(List.range ((N + C - 1) / C)).map fun n =>
      ls_row N ((N + C - 1) / C) n C 0, ?_, ?_, ?_, ?_⟩
    · unfold ls_columns
      rw [hcols]
      simp only [hrows]
    · rw [List.length_map, List.length_range, hrows]
    · intro i hi
      rw [hrows]
      exact ⟨_, (ls_grid_entry N C i hCpos hbound hi).1,
        (ls_grid_entry N C i hCpos hbound hi).2⟩
    · exact ls_grid_perm N C hCpos hbound

/-- Witness for `ls_columns_layout`: ten entries of width at most 26 on a
terminal of 80 columns are listed in three columns and four rows. -/
theorem ls_columns_layout_witness :
    (80 : Nat) < 2 ^ 31 - 1 ∧ (26 : Nat) < 2 ^ 64 - 1 ∧ (10 : Nat) < 2 ^ 63 ∧
    ls_columns 80 26 10 = some [[0, 4, 8], [1, 5, 9], [2, 6], [3, 7]] ∧
    ls_cols ((80 : Nat) : Int) 26 = some (max 1 ((80 + 1) / (26 + 1))) :=
  ⟨by norm_num, by norm_num, by norm_num, by decide,
   (ls_columns_layout 80 26 10 (by norm_num) (by norm_num) (by norm_num)).1⟩

end Sftp
